import Mathlib

/-!
Verification development for the PDF Dictation Reader text pipeline
(`src/App.tsx`).  The pipeline is re-expressed as executable Lean
functions over `List Char` / `String`; each JavaScript regex replace is
translated into an explicit leftmost-match scanner with the same
semantics (greedy quantifiers, word boundaries, lookahead, lookbehind on
the original subject string).  Theorems at the end settle the frozen
claims about the specification.
-/

namespace PDFReader

abbrev Str := List Char

/-- JS `\s` / `String.prototype.trim` whitespace class (WhiteSpace and
LineTerminator code points). -/
def isWs (c : Char) : Bool :=
  c = ' ' || c = '\t' || c = '\n' || c.toNat = 11 || c.toNat = 12 ||
  c = '\r' || c.toNat = 0xA0 || c.toNat = 0x1680 ||
  (0x2000 ≤ c.toNat && c.toNat ≤ 0x200A) ||
  c.toNat = 0x2028 || c.toNat = 0x2029 || c.toNat = 0x202F ||
  c.toNat = 0x205F || c.toNat = 0x3000 || c.toNat = 0xFEFF

/-- JS `\d`: ASCII digits. -/
def isDigit (c : Char) : Bool := '0' ≤ c && c ≤ '9'

/-- `[a-z]`. -/
def isLower (c : Char) : Bool := 'a' ≤ c && c ≤ 'z'

/-- `[A-Z]`. -/
def isUpper (c : Char) : Bool := 'A' ≤ c && c ≤ 'Z'

/-- `[a-zA-Z]`. -/
def isAlpha (c : Char) : Bool := isLower c || isUpper c

/-- JS `\w`: `[A-Za-z0-9_]`, the class used by `\b` word boundaries. -/
def isWord (c : Char) : Bool := isAlpha c || isDigit c || c = '_'

/-- JS word boundary `\b` between an optional previous character and an
optional next character: it holds when exactly one side is a word
character (a missing side counts as non-word). -/
def atBoundary (prev next : Option Char) : Bool :=
  (match prev with | some c => isWord c | none => false) ≠
  (match next with | some c => isWord c | none => false)

/-! ### Whitespace collapsing and trimming

`s.replace(/\s{2,}/g, " ")` rewrites every maximal whitespace run of
length ≥ 2 to a single space and leaves single whitespace characters
unchanged; `trim` strips leading/trailing whitespace. -/

/-- Emit one completed whitespace run (`run` is reversed): a run of two
or more characters becomes a single space; a shorter run is kept. -/
def emitRun (run : Str) : Str :=
  if 2 ≤ run.length then [' '] else run.reverse

/-- State machine for `replace(/\s{2,}/g, " ")`; `run` accumulates the
current whitespace run in reverse. -/
def collapseGo (run : Str) : Str → Str
  | [] => emitRun run
  | c :: cs =>
    if isWs c then collapseGo (c :: run) cs
    else emitRun run ++ c :: collapseGo [] cs

/-- JS `replace(/\s{2,}/g, " ")`. -/
def collapseWs (l : Str) : Str := collapseGo [] l

theorem collapseGo_cons_of_ws (run : Str) (c : Char) (cs : Str)
    (h : isWs c = true) :
    collapseGo run (c :: cs) = collapseGo (c :: run) cs := by
  simp only [collapseGo, h, if_true]

theorem collapseGo_cons_of_not_ws (run : Str) (c : Char) (cs : Str)
    (h : isWs c = false) :
    collapseGo run (c :: cs) = emitRun run ++ c :: collapseGo [] cs := by
  simp only [collapseGo, h, Bool.false_eq_true, if_false]

/-- Drop trailing whitespace. -/
def trimRight (l : Str) : Str := (l.reverse.dropWhile isWs).reverse

/-- JS `String.prototype.trim`. -/
def trimChars (l : Str) : Str := trimRight (l.dropWhile isWs)

/-- `s.replace(/\s{2,}/g, " ").trim()`, the normalization applied by the
extraction `flush` and at the end of `normalizeForSpeech`. -/
def canon (l : Str) : Str := trimChars (collapseWs l)

/-- String-level `canon`. -/
def canonS (s : String) : String := ⟨canon s.data⟩

/-- JS `String.prototype.trim` on `String`. -/
def trimS (s : String) : String := ⟨trimChars s.data⟩

/-! ### Tokens (maximal non-whitespace runs)

Used to state that a transformation changes a text only up to
whitespace normalization. -/

/-- Close the pending token accumulator (reversed) into the token list. -/
def closeTok (tok : Str) (rest : List Str) : List Str :=
  if tok = [] then rest else tok.reverse :: rest

/-- Accumulator-style scanner producing the maximal non-whitespace runs
of a character list, in order (`tok` is the reversed pending token). -/
def tokensGo (tok : Str) : Str → List Str
  | [] => closeTok tok []
  | c :: cs => if isWs c then closeTok tok (tokensGo [] cs) else tokensGo (c :: tok) cs

/-- The maximal non-whitespace runs (words) of a character list. -/
def tokens (l : Str) : List Str := tokensGo [] l

/-- Join a list of character lists with a single separator character. -/
def joinSep (sep : Char) : List Str → Str
  | [] => []
  | [x] => x
  | x :: xs => x ++ sep :: joinSep sep xs

/-! ### Generic leftmost global `replace` scanner

A `Rule` packages one regex-replace pass: `tryMatch prev l` attempts a
match at the start of the suffix `l` of the subject string, where `prev`
is the subject character immediately before `l` (`none` at the start) —
JS lookbehind and `\b` inspect the original subject, which is why `prev`
tracks original characters, not replacement output.  On success it
returns the replacement text and the number of consumed subject
characters.  `runRule` then implements `subject.replace(re, …)` with the
global flag: scan left to right, replace each match, resume after it. -/

abbrev Rule := Option Char → Str → Option (Str × Nat)

/-- The `prev` character after consuming `pre` (keep the old one if
nothing was consumed). -/
def nextPrev (prev : Option Char) (pre : Str) : Option Char :=
  match pre.getLast? with
  | some c => some c
  | none => prev

/-- Fuel-driven scanner; fuel ≥ input length suffices (each step either
consumes at least one character or copies the head).  Every rule below
consumes at least one character on a match; the `max k 1` guard merely
exposes that fact to the termination fuel. -/
def runGo (R : Rule) : Option Char → Nat → Str → Str
  | _, 0, l => l
  | _, _ + 1, [] => []
  | prev, n + 1, c :: cs =>
    match R prev (c :: cs) with
    | some (rep, k) =>
        rep ++ runGo R (nextPrev prev ((c :: cs).take (max k 1))) n
          ((c :: cs).drop (max k 1))
    | none => c :: runGo R (some c) n cs

/-- One global-replace pass on a character list. -/
def runList (R : Rule) (prev : Option Char) (l : Str) : Str :=
  runGo R prev l.length l

/-- One global-replace pass on a `String`. -/
def runRule (R : Rule) (s : String) : String := ⟨runList R none s.data⟩

theorem runGo_fuel (R : Rule) :
    ∀ n m (prev : Option Char) (l : Str), l.length ≤ n → l.length ≤ m →
      runGo R prev n l = runGo R prev m l := by
  intro n
  induction n with
  | zero =>
      intro m prev l hn _
      have : l = [] := List.length_eq_zero.mp (Nat.le_zero.mp hn)
      subst this
      cases m <;> rfl
  | succ n ih =>
      intro m prev l hn hm
      cases l with
      | nil => cases m <;> rfl
      | cons c cs =>
          cases m with
          | zero => exact absurd hm (by simp)
          | succ m =>
              have hn' : cs.length ≤ n := by
                simpa [Nat.succ_le_succ_iff] using hn
              have hm' : cs.length ≤ m := by
                simpa [Nat.succ_le_succ_iff] using hm
              cases hmt : R prev (c :: cs) with
              | none =>
                  simp only [runGo, hmt]
                  rw [ih m (some c) cs hn' hm']
              | some rk =>
                  obtain ⟨rep, k⟩ := rk
                  have hdrop : ((c :: cs).drop (max k 1)).length ≤ n := by
                    simp only [List.length_drop, List.length_cons]
                    omega
                  have hdrop' : ((c :: cs).drop (max k 1)).length ≤ m := by
                    simp only [List.length_drop, List.length_cons]
                    omega
                  simp only [runGo, hmt]
                  rw [ih m _ _ hdrop hdrop']

theorem runList_cons_none (R : Rule) (prev : Option Char) (c : Char) (cs : Str)
    (h : R prev (c :: cs) = none) :
    runList R prev (c :: cs) = c :: runList R (some c) cs := by
  simp only [runList, List.length_cons, runGo, h]

theorem runList_cons_some (R : Rule) (prev : Option Char) (c : Char) (cs : Str)
    (rep : Str) (k : Nat) (h : R prev (c :: cs) = some (rep, k)) :
    runList R prev (c :: cs) =
      rep ++ runList R (nextPrev prev ((c :: cs).take (max k 1)))
        ((c :: cs).drop (max k 1)) := by
  simp only [runList, List.length_cons, runGo, h]
  congr 1
  apply runGo_fuel
  · simp only [List.length_drop, List.length_cons]
    omega
  · exact Nat.le_refl _

/-- `prev` as seen from the suffix `t` of `a ++ t`, with initial `prev`. -/
def lastOf (prev : Option Char) (a : Str) : Option Char := nextPrev prev a

/-- A subject on which the rule matches nowhere (taking the running
`prev` characters into account): running the rule leaves it unchanged. -/
def MatchFree (R : Rule) (prev : Option Char) (m : Str) : Prop :=
  ∀ a t, m = a ++ t → R (lastOf prev a) t = none

theorem matchFree_nil (R : Rule) (prev : Option Char)
    (h : ∀ p, R p [] = none) : MatchFree R prev [] := by
  intro a t hat
  have ha : a = [] := by
    cases a with
    | nil => rfl
    | cons x xs => simp at hat
  have ht : t = [] := by
    subst ha; simpa using hat.symm
  subst ht; exact h _

theorem lastOf_cons (prev : Option Char) (c : Char) (a : Str) :
    lastOf prev (c :: a) = lastOf (some c) a := by
  cases a with
  | nil => simp [lastOf, nextPrev]
  | cons x xs =>
      simp only [lastOf, nextPrev, List.getLast?_cons_cons]
      cases hx : (x :: xs).getLast? with
      | some c => rfl
      | none =>
          exfalso
          have hne : x :: xs ≠ [] := by simp
          have h := List.getLast?_isSome.mpr hne
          rw [hx] at h
          simp at h

theorem matchFree_cons (R : Rule) (prev : Option Char) (c : Char) (m : Str)
    (hhead : R prev (c :: m) = none)
    (htail : MatchFree R (some c) m) : MatchFree R prev (c :: m) := by
  intro a t hat
  cases a with
  | nil =>
      simp only [List.nil_append] at hat
      subst hat
      simpa [lastOf, nextPrev] using hhead
  | cons x xs =>
      simp only [List.cons_append, List.cons.injEq] at hat
      obtain ⟨hx, hm⟩ := hat
      subst hx
      rw [lastOf_cons]
      exact htail xs t hm

theorem matchFree_tail (R : Rule) (prev : Option Char) (c : Char) (m : Str)
    (h : MatchFree R prev (c :: m)) : MatchFree R (some c) m := by
  intro a t hat
  have := h (c :: a) t (by simp [hat])
  rwa [lastOf_cons] at this

theorem matchFree_head (R : Rule) (prev : Option Char) (m : Str)
    (h : MatchFree R prev m) : R prev m = none := by
  simpa [lastOf, nextPrev] using h [] m rfl

theorem runGo_id_of_matchFree (R : Rule) :
    ∀ (n : Nat) (prev : Option Char) (m : Str), MatchFree R prev m →
      runGo R prev n m = m := by
  intro n
  induction n with
  | zero => intro prev m _; rfl
  | succ n ih =>
      intro prev m hmf
      cases m with
      | nil => rfl
      | cons c cs =>
          have hhead := matchFree_head R prev _ hmf
          simp only [runGo, hhead]
          rw [ih (some c) cs (matchFree_tail R prev c cs hmf)]

theorem runList_id_of_matchFree (R : Rule) (prev : Option Char) (m : Str)
    (h : MatchFree R prev m) : runList R prev m = m :=
  runGo_id_of_matchFree R _ prev m h

/-- If one pass always produces a match-free result, the pass is
idempotent. -/
theorem runRule_idem (R : Rule)
    (hout : ∀ l : Str, MatchFree R none (runList R none l)) (s : String) :
    runRule R (runRule R s) = runRule R s := by
  simp only [runRule]
  exact congrArg String.mk (runList_id_of_matchFree R none _ (hout s.data))

/-! ### Shared facts for the per-step idempotence proofs (claim C2) -/

/-- A rule that ignores `prev` transports `MatchFree` across any two
`prev` values. -/
theorem matchFree_of_prevFree (R : Rule) (H : ∀ p q l, R p l = R q l)
    (p q : Option Char) (m : Str) (h : MatchFree R p m) :
    MatchFree R q m := by
  intro a t hat
  rw [H (lastOf q a) (lastOf p a) t]
  exact h a t hat

/-- A rule whose replacements start with the consumed head character
preserves the head of the subject. -/
theorem runList_head (R : Rule)
    (Hrep : ∀ p c cs rep k, R p (c :: cs) = some (rep, k) →
      rep.head? = some c) :
    ∀ (p : Option Char) (l : Str), (runList R p l).head? = l.head? := by
  intro p l
  cases l with
  | nil => rfl
  | cons c cs =>
      cases hR : R p (c :: cs) with
      | none => rw [runList_cons_none R p c cs hR]; rfl
      | some rk =>
          obtain ⟨rep, k⟩ := rk
          rw [runList_cons_some R p c cs rep k hR, List.head?_append]
          rw [Hrep p c cs rep k hR]
          rfl

theorem lastOf_append (p : Option Char) (x y : Str) :
    lastOf p (x ++ y) = lastOf (lastOf p x) y := by
  cases hy : y.getLast? with
  | some d =>
      have h1 : (x ++ y).getLast? = some d := by
        have hne : y ≠ [] := by
          intro hcon; rw [hcon] at hy; simp at hy
        rw [List.getLast?_append_of_ne_nil x hne, hy]
      simp [lastOf, nextPrev, h1, hy]
  | none =>
      have hnil : y = [] := by
        cases y with
        | nil => rfl
        | cons z zs =>
            exfalso
            have h := List.getLast?_isSome.mpr (by simp : z :: zs ≠ [])
            rw [hy] at h
            simp at h
      subst hnil
      simp [lastOf, nextPrev]

/-- Decompose a `MatchFree` goal over an append: it is enough that no
match starts inside `x` (reading into `y`) and that `y` alone is
match-free from the `prev` reached through `x`. -/
theorem matchFree_append (R : Rule) (p : Option Char) (x y : Str)
    (hx : ∀ a t, x = a ++ t → t ≠ [] → R (lastOf p a) (t ++ y) = none)
    (hy : MatchFree R (lastOf p x) y) :
    MatchFree R p (x ++ y) := by
  intro a t hat
  rcases List.append_eq_append_iff.mp hat.symm with ⟨u, hau, hyu⟩ | ⟨u, hxu, htu⟩
  · by_cases hu : u = []
    · subst hu
      have hax : a = x := by simpa using hau.symm
      subst hax
      have hty : t = y := by simpa using hyu
      subst hty
      have := hy [] t rfl
      simpa [lastOf, nextPrev] using this
    · rw [hyu]
      exact hx a u hau hu
  · rw [hxu, lastOf_append]
    exact hy u t htu

/-- Characters on which the rule can never start a match are copied
verbatim by the scan. -/
theorem runList_copy (R : Rule) :
    ∀ (u : Str) (p : Option Char) (rest : Str),
      (∀ a c t, u = a ++ c :: t → R (lastOf p a) (c :: (t ++ rest)) = none) →
      runList R p (u ++ rest) = u ++ runList R (lastOf p u) rest := by
  intro u
  induction u with
  | nil =>
      intro p rest _
      simp [lastOf, nextPrev]
  | cons x xs ih =>
      intro p rest hcopy
      have hx : R p (x :: (xs ++ rest)) = none := by
        have := hcopy [] x xs rfl
        simpa [lastOf, nextPrev] using this
      rw [List.cons_append, runList_cons_none R p x (xs ++ rest) hx]
      rw [ih (some x) rest ?_]
      · rw [lastOf_cons]; simp
      · intro a c t hsplit
        have := hcopy (x :: a) c t (by simp [hsplit])
        rwa [lastOf_cons] at this

theorem takeWhile_append_stop (p : Char → Bool) (a b : Str)
    (ha : ∀ x ∈ a, p x = true)
    (hb : ∀ y, b.head? = some y → p y = false) :
    (a ++ b).takeWhile p = a ∧ (a ++ b).dropWhile p = b := by
  induction a with
  | nil =>
      simp only [List.nil_append]
      cases b with
      | nil => exact ⟨rfl, rfl⟩
      | cons y ys =>
          have hy : p y = false := hb y rfl
          rw [List.takeWhile_cons_of_neg (by simp [hy]),
            List.dropWhile_cons_of_neg (by simp [hy])]
          exact ⟨rfl, rfl⟩
  | cons x xs ih =>
      have hx : p x = true := ha x (by simp)
      obtain ⟨h1, h2⟩ := ih (fun z hz => ha z (by simp [hz]))
      rw [List.cons_append, List.takeWhile_cons_of_pos (by simp [hx]),
        List.dropWhile_cons_of_pos (by simp [hx]), h1, h2]
      exact ⟨rfl, rfl⟩

/-- The `toNat` codes of the JS whitespace class. -/
theorem isWs_arith (c : Char) (h : isWs c = true) :
    c.toNat = 32 ∨ c.toNat = 9 ∨ c.toNat = 10 ∨ c.toNat = 11 ∨
    c.toNat = 12 ∨ c.toNat = 13 ∨ c.toNat = 160 ∨ c.toNat = 5760 ∨
    (8192 ≤ c.toNat ∧ c.toNat ≤ 8202) ∨ c.toNat = 8232 ∨
    c.toNat = 8233 ∨ c.toNat = 8239 ∨ c.toNat = 8287 ∨
    c.toNat = 12288 ∨ c.toNat = 65279 := by
  simp only [isWs, Bool.or_eq_true, decide_eq_true_eq,
    Bool.and_eq_true] at h
  rcases h with (((((((((((((h | h) | h) | h) | h) | h) | h) | h) | h) |
    h) | h) | h) | h) | h) | h <;>
    first
      | (subst h; decide)
      | tauto

theorem isDigit_arith (c : Char) (h : isDigit c = true) :
    48 ≤ c.toNat ∧ c.toNat ≤ 57 := by
  simp only [isDigit, Bool.and_eq_true, decide_eq_true_eq] at h
  obtain ⟨h1, h2⟩ := h
  exact ⟨by simpa [Char.le_def] using h1, by simpa [Char.le_def] using h2⟩

theorem isAlpha_arith (c : Char) (h : isAlpha c = true) :
    (97 ≤ c.toNat ∧ c.toNat ≤ 122) ∨ (65 ≤ c.toNat ∧ c.toNat ≤ 90) := by
  simp only [isAlpha, isLower, isUpper, Bool.or_eq_true, Bool.and_eq_true,
    decide_eq_true_eq] at h
  rcases h with ⟨h1, h2⟩ | ⟨h1, h2⟩
  · exact Or.inl ⟨by simpa [Char.le_def] using h1,
      by simpa [Char.le_def] using h2⟩
  · exact Or.inr ⟨by simpa [Char.le_def] using h1,
      by simpa [Char.le_def] using h2⟩

theorem isAlpha_of_arith (c : Char)
    (h : (97 ≤ c.toNat ∧ c.toNat ≤ 122) ∨ (65 ≤ c.toNat ∧ c.toNat ≤ 90)) :
    isAlpha c = true := by
  simp only [isAlpha, isLower, isUpper, Bool.or_eq_true, Bool.and_eq_true,
    decide_eq_true_eq]
  rcases h with ⟨h1, h2⟩ | ⟨h1, h2⟩
  · exact Or.inl ⟨by simpa [Char.le_def] using h1,
      by simpa [Char.le_def] using h2⟩
  · exact Or.inr ⟨by simpa [Char.le_def] using h1,
      by simpa [Char.le_def] using h2⟩

theorem isWs_not_alpha (c : Char) (h : isWs c = true) :
    isAlpha c = false := by
  by_contra hcon
  have h2 : isAlpha c = true := by
    revert hcon; cases isAlpha c <;> simp
  have ha := isAlpha_arith c h2
  have hw := isWs_arith c h
  omega

theorem isWs_not_digit (c : Char) (h : isWs c = true) :
    isDigit c = false := by
  by_contra hcon
  have h2 : isDigit c = true := by
    revert hcon; cases isDigit c <;> simp
  have ha := isDigit_arith c h2
  have hw := isWs_arith c h
  omega

theorem isDigit_not_alpha (c : Char) (h : isDigit c = true) :
    isAlpha c = false := by
  by_contra hcon
  have h2 : isAlpha c = true := by
    revert hcon; cases isAlpha c <;> simp
  have ha := isAlpha_arith c h2
  have hd := isDigit_arith c h
  omega

theorem char_ne_of_toNat (c : Char) (n : Nat) (h : c.toNat ≠ n)
    (d : Char) (hd : d.toNat = n) : c ≠ d := by
  intro hcon
  rw [hcon, hd] at h
  exact h rfl

theorem isWs_ne_close (c : Char) (h : isWs c = true) : c ≠ ')' := by
  have hw := isWs_arith c h
  exact char_ne_of_toNat c 41 (by omega) ')' (by decide)

theorem isDigit_ne_close (c : Char) (h : isDigit c = true) : c ≠ ')' := by
  have hd := isDigit_arith c h
  exact char_ne_of_toNat c 41 (by omega) ')' (by decide)

theorem isWs_ne_caret (c : Char) (h : isWs c = true) : c ≠ Char.ofNat 94 := by
  have hw := isWs_arith c h
  exact char_ne_of_toNat c 94 (by omega) (Char.ofNat 94) (by decide)

theorem isWs_ne_open (c : Char) (h : isWs c = true) : c ≠ '(' := by
  have hw := isWs_arith c h
  exact char_ne_of_toNat c 40 (by omega) '(' (by decide)

theorem isDigit_ne_open (c : Char) (h : isDigit c = true) : c ≠ '(' := by
  have hd := isDigit_arith c h
  exact char_ne_of_toNat c 40 (by omega) '(' (by decide)

theorem isDigit_not_ws (c : Char) (h : isDigit c = true) : isWs c = false := by
  by_contra hcon
  have h2 : isWs c = true := by
    revert hcon; cases isWs c <;> simp
  have ha := isWs_arith c h2
  have hd := isDigit_arith c h
  omega

theorem takeWhile_nil_of_head (p : Char → Bool) (l : Str)
    (h : ∀ y, l.head? = some y → p y = false) : l.takeWhile p = [] := by
  cases l with
  | nil => rfl
  | cons y ys =>
      have hy : p y = false := h y rfl
      rw [List.takeWhile_cons_of_neg (by simp [hy])]

theorem head_of_takeWhile_nil (p : Char → Bool) (l : Str)
    (h : l.takeWhile p = []) : ∀ y, l.head? = some y → p y = false := by
  intro y hy
  cases l with
  | nil => simp at hy
  | cons z zs =>
      have hz : z = y := by simpa using hy
      subst hz
      by_contra hcon
      have h2 : p z = true := by
        revert hcon; cases p z <;> simp
      rw [List.takeWhile_cons_of_pos (by simp [h2])] at h
      simp at h

theorem isEmpty_false_of_ne (l : Str) (h : l ≠ []) : l.isEmpty = false := by
  cases l with
  | nil => exact absurd rfl h
  | cons x xs => rfl

theorem suffix_head_mem (l a t : Str) (c : Char) (h : l = a ++ c :: t) :
    c ∈ l := by
  rw [h]
  simp

/-- Split an append at the first occurrence of a character known to lie
in the left part. -/
theorem append_split_first (l1 l2 a t : Str) (x : Char)
    (h : l1 ++ l2 = a ++ x :: t) (hx : x ∉ l2) :
    ∃ gs, l1 = a ++ x :: gs ∧ t = gs ++ l2 := by
  rcases List.append_eq_append_iff.mp h with ⟨u, hau, hl2⟩ | ⟨u, hl1, hxt⟩
  · exfalso
    apply hx
    rw [hl2]
    simp
  · cases u with
    | nil =>
        exfalso
        apply hx
        have : l2 = x :: t := by simpa using hxt.symm
        rw [this]
        simp
    | cons x2 gs =>
        have hxx : x = x2 ∧ t = gs ++ l2 := by
          have := hxt
          simp only [List.cons_append] at this
          exact ⟨by injection this, by
            have h2 := this
            injection h2 with h3 h4⟩
        obtain ⟨rfl, ht⟩ := hxx
        exact ⟨gs, by rw [hl1], ht⟩

theorem runList_copy_of (R : Rule) (S : Char → Bool)
    (HS : ∀ (p : Option Char) (c : Char) (cs : Str), S c = false →
      R p (c :: cs) = none)
    (u : Str) (p : Option Char) (rest : Str)
    (hu : ∀ x ∈ u, S x = false) :
    runList R p (u ++ rest) = u ++ runList R (lastOf p u) rest := by
  apply runList_copy
  intro a c t hsplit
  exact HS _ c _ (hu c (suffix_head_mem _ a t c hsplit))

theorem runList_id_of (R : Rule) (S : Char → Bool)
    (HS : ∀ (p : Option Char) (c : Char) (cs : Str), S c = false →
      R p (c :: cs) = none)
    (l : Str) (p : Option Char) (hl : ∀ x ∈ l, S x = false) :
    runList R p l = l := by
  have h := runList_copy_of R S HS l p [] hl
  rw [show runList R (lastOf p l) [] = [] from rfl] at h
  simpa using h


/-! ## Artifact Repairer (`fixInlineMathArtifacts`)

Each numbered step of the source function becomes one named pass. -/

/-- The digit → Unicode-superscript lookup table used by the caret-power
and parenthesized-power steps (`map[pow] || pow`). -/
def supChar (c : Char) : Char :=
  if c = '0' then '⁰' else if c = '1' then '¹' else if c = '2' then '²'
  else if c = '3' then '³' else if c = '4' then '⁴' else if c = '5' then '⁵'
  else if c = '6' then '⁶' else if c = '7' then '⁷' else if c = '8' then '⁸'
  else if c = '9' then '⁹' else c

/-- Step 0: dash variants U+2212 / en dash / em dash → hyphen-minus
(`replace(/[−–—]/g, "-")`). -/
def dashChar (c : Char) : Char :=
  if c = '−' || c = '–' || c = '—' then '-' else c

/-- `fixed.replace(/[−–—]/g, "-")`. -/
def fixDashes (s : String) : String := ⟨s.data.map dashChar⟩

/-- Step 1: Unicode vulgar fractions → ASCII `a/b` via the `vulgarMap`
lookup; other characters unchanged. -/
def vulgarRepl (c : Char) : Str :=
  if c = '¼' then ['1', '/', '4'] else if c = '½' then ['1', '/', '2']
  else if c = '¾' then ['3', '/', '4'] else if c = '⅓' then ['1', '/', '3']
  else if c = '⅔' then ['2', '/', '3'] else if c = '⅕' then ['1', '/', '5']
  else if c = '⅖' then ['2', '/', '5'] else if c = '⅗' then ['3', '/', '5']
  else if c = '⅘' then ['4', '/', '5'] else if c = '⅙' then ['1', '/', '6']
  else if c = '⅚' then ['5', '/', '6'] else if c = '⅛' then ['1', '/', '8']
  else if c = '⅜' then ['3', '/', '8'] else if c = '⅝' then ['5', '/', '8']
  else if c = '⅞' then ['7', '/', '8'] else [c]

/-- `fixed.replace(/[¼½¾⅓⅔⅕⅖⅗⅘⅙⅚⅛⅜⅝⅞]/g, m => vulgarMap[m] || m)`. -/
def fixVulgar (s : String) : String := ⟨s.data.flatMap vulgarRepl⟩

/-- Head of the remainder is a word character (used for a trailing
`\b` after a digit: the boundary holds iff the next character is not a
word character). -/
def headIsWord : Str → Bool
  | [] => false
  | c :: _ => isWord c

/-- `(\d+)\s*\/\s*(\d+)` → `$1/$2` (step 2, first pattern).  The greedy
digit/whitespace runs never need backtracking: a shorter `\d+` leaves a
digit where `/` is required. -/
def fracSlashTry : Rule := fun _ l =>
  let d1 := l.takeWhile isDigit
  if d1.isEmpty then none else
  let r1 := l.dropWhile isDigit
  let ws1 := r1.takeWhile isWs
  match r1.dropWhile isWs with
  | '/' :: r3 =>
    let ws2 := r3.takeWhile isWs
    let r4 := r3.dropWhile isWs
    let d2 := r4.takeWhile isDigit
    if d2.isEmpty then none
    else some (d1 ++ '/' :: d2,
      d1.length + ws1.length + 1 + ws2.length + d2.length)
  | _ => none

/-- `(\d+)_+(\d+)` → `$1/$2` (step 2, second pattern). -/
def fracUnderTry : Rule := fun _ l =>
  let d1 := l.takeWhile isDigit
  if d1.isEmpty then none else
  let r1 := l.dropWhile isDigit
  let us := r1.takeWhile (· = '_')
  if us.isEmpty then none else
  let r2 := r1.dropWhile (· = '_')
  let d2 := r2.takeWhile isDigit
  if d2.isEmpty then none
  else some (d1 ++ '/' :: d2, d1.length + us.length + d2.length)

/-- `(\d+)(?:\s*_+\s*)+(\d+)` → `$1/$2` (step 2, third pattern).  The
iterated `\s*_+\s*` group matches exactly the strings over whitespace
and underscores that contain at least one underscore, so the separator
is the maximal such run, which must be followed by digits. -/
def fracSpacedTry : Rule := fun _ l =>
  let d1 := l.takeWhile isDigit
  if d1.isEmpty then none else
  let r1 := l.dropWhile isDigit
  let sep := r1.takeWhile (fun c => isWs c || c = '_')
  if sep.any (· = '_') then
    let r2 := r1.dropWhile (fun c => isWs c || c = '_')
    let d2 := r2.takeWhile isDigit
    if d2.isEmpty then none
    else some (d1 ++ '/' :: d2, d1.length + sep.length + d2.length)
  else none

/-- `([a-zA-Z])\s*\^\s*([0-9])\b` → letter + superscript digit
(step 3). -/
def caretPowTry : Rule := fun _ l =>
  match l with
  | v :: r0 =>
    if isAlpha v then
      let ws1 := r0.takeWhile isWs
      match r0.dropWhile isWs with
      | h1 :: r2 =>
        if h1 = '^' then
          let ws2 := r2.takeWhile isWs
          match r2.dropWhile isWs with
          | d :: r4 =>
            if isDigit d && !headIsWord r4 then
              some ([v, supChar d], 1 + ws1.length + 1 + ws2.length + 1)
            else none
          | [] => none
        else none
      | [] => none
    else none
  | [] => none

/-- `(\([^)]+\))\s*([0-9])\b` → group + superscript digit (step 4). -/
def parenPowTry : Rule := fun _ l =>
  match l with
  | c0 :: r0 =>
    if c0 = '(' then
      let g := r0.takeWhile (· ≠ ')')
      if g.isEmpty then none else
      match r0.dropWhile (· ≠ ')') with
      | h1 :: r2 =>
        if h1 = ')' then
          let ws := r2.takeWhile isWs
          match r2.dropWhile isWs with
          | d :: r4 =>
            if isDigit d && !headIsWord r4 then
              some ('(' :: g ++ ')' :: [supChar d],
                1 + g.length + 1 + ws.length + 1)
            else none
          | [] => none
        else none
      | [] => none
    else none
  | [] => none

/-- ASCII lower-casing, for the case-insensitive trig-function match. -/
def lcase (c : Char) : Char :=
  if isUpper c then Char.ofNat (c.toNat + 32) else c

/-- `\b(sin|cos|tan)\s*¹\s*\(` (case-insensitive) → `$1⁻¹(`
(step 5). -/
def invTrigTry : Rule := fun prev l =>
  match l with
  | a :: b :: c :: r0 =>
    if atBoundary prev (some a) &&
        (([lcase a, lcase b, lcase c] = ['s', 'i', 'n']) ||
         ([lcase a, lcase b, lcase c] = ['c', 'o', 's']) ||
         ([lcase a, lcase b, lcase c] = ['t', 'a', 'n'])) then
      let ws1 := r0.takeWhile isWs
      match r0.dropWhile isWs with
      | h1 :: r2 =>
        if h1 = '¹' then
          let ws2 := r2.takeWhile isWs
          match r2.dropWhile isWs with
          | h2 :: _ =>
            if h2 = '(' then
              some ([a, b, c, '⁻', '¹', '('],
                3 + ws1.length + 1 + ws2.length + 1)
            else none
          | [] => none
        else none
      | [] => none
    else none
  | _ => none

/-- Lazy scan for `([^)]*?\d[a-z]*)\s+(\d+)\)` after an opening paren:
positions are tried left to right (the lazy `[^)]*?`), stopping at the
first `)`; at a digit the deterministic tail `[a-z]*\s+\d+\)` is tried.
Returns the captured group, the second digit run, and the number of
characters consumed (through the closing paren). -/
def minusScanD (acc : Str) : Str → Option (Str × Str × Nat)
  | [] => none
  | c :: cs =>
    if c = ')' then none
    else
      let attempt : Option (Str × Str × Nat) :=
        if isDigit c then
          let ls := cs.takeWhile isLower
          let r1 := cs.dropWhile isLower
          let ws := r1.takeWhile isWs
          if ws.isEmpty then none else
          let r2 := r1.dropWhile isWs
          let d2 := r2.takeWhile isDigit
          if d2.isEmpty then none else
          match r2.dropWhile isDigit with
          | h1 :: _ =>
              if h1 = ')' then
                some (acc.reverse ++ c :: ls, d2,
                  acc.length + 1 + ls.length + ws.length + d2.length + 1)
              else none
          | [] => none
        else none
      match attempt with
      | some r => some r
      | none => minusScanD (c :: acc) cs

/-- `\(([^)]*?\d[a-z]*)\s+(\d+)\)` → `($1 - $2)` (step 6, first
heuristic). -/
def minusParenDigitTry : Rule := fun _ l =>
  match l with
  | c0 :: r0 =>
    if c0 = '(' then
      match minusScanD [] r0 with
      | some (g, d2, k) =>
          some ('(' :: g ++ ' ' :: '-' :: ' ' :: d2 ++ [')'], 1 + k)
      | none => none
    else none
  | [] => none

/-- Lazy scan for `([^)]*?[a-zA-Z])\s+(\d+)\)` after an opening paren
(analogue of `minusScanD` with a letter-ending group). -/
def minusScanA (acc : Str) : Str → Option (Str × Str × Nat)
  | [] => none
  | c :: cs =>
    if c = ')' then none
    else
      let attempt : Option (Str × Str × Nat) :=
        if isAlpha c then
          let ws := cs.takeWhile isWs
          if ws.isEmpty then none else
          let r2 := cs.dropWhile isWs
          let d2 := r2.takeWhile isDigit
          if d2.isEmpty then none else
          match r2.dropWhile isDigit with
          | h1 :: _ =>
              if h1 = ')' then
                some (acc.reverse ++ [c], d2,
                  acc.length + 1 + ws.length + d2.length + 1)
              else none
          | [] => none
        else none
      match attempt with
      | some r => some r
      | none => minusScanA (c :: acc) cs

/-- `\(([^)]*?[a-zA-Z])\s+(\d+)\)` → `($1 - $2)` (step 6, second
heuristic). -/
def minusParenAlphaTry : Rule := fun _ l =>
  match l with
  | c0 :: r0 =>
    if c0 = '(' then
      match minusScanA [] r0 with
      | some (g, d2, k) =>
          some ('(' :: g ++ ' ' :: '-' :: ' ' :: d2 ++ [')'], 1 + k)
      | none => none
    else none
  | [] => none

/-- `\|x\s+(\d+)\|` → `|x - d|` (step 6, third heuristic). -/
def minusAbsTry : Rule := fun _ l =>
  match l with
  | '|' :: 'x' :: r0 =>
    let ws := r0.takeWhile isWs
    if ws.isEmpty then none else
    let r1 := r0.dropWhile isWs
    let d := r1.takeWhile isDigit
    if d.isEmpty then none else
    match r1.dropWhile isDigit with
    | '|' :: _ => some ('|' :: 'x' :: ' ' :: '-' :: ' ' :: d ++ ['|'],
        2 + ws.length + d.length + 1)
    | _ => none
  | _ => none

/-- `(\d+)\s*([a-zA-Z])\s+(\d+)\s*([a-zA-Z])` → `$1 $2 - $3 $4`
(step 6, fourth heuristic). -/
def minusTermsTry : Rule := fun _ l =>
  let d1 := l.takeWhile isDigit
  if d1.isEmpty then none else
  let r1 := l.dropWhile isDigit
  let ws1 := r1.takeWhile isWs
  match r1.dropWhile isWs with
  | v1 :: r3 =>
    if isAlpha v1 then
      let ws2 := r3.takeWhile isWs
      if ws2.isEmpty then none else
      let r4 := r3.dropWhile isWs
      let d2 := r4.takeWhile isDigit
      if d2.isEmpty then none else
      let r5 := r4.dropWhile isDigit
      let ws3 := r5.takeWhile isWs
      match r5.dropWhile isWs with
      | v2 :: _ =>
        if isAlpha v2 then
          some (d1 ++ ' ' :: v1 :: ' ' :: '-' :: ' ' :: d2 ++ [' ', v2],
            d1.length + ws1.length + 1 + ws2.length + d2.length +
              ws3.length + 1)
        else none
      | [] => none
    else none
  | [] => none

/-- `([a-zA-Z])\s+(\d+)\)` → `$1 - $2)` (step 6, fifth heuristic). -/
def minusCloseTry : Rule := fun _ l =>
  match l with
  | v :: r0 =>
    if isAlpha v then
      let ws := r0.takeWhile isWs
      if ws.isEmpty then none else
      let r1 := r0.dropWhile isWs
      let d := r1.takeWhile isDigit
      if d.isEmpty then none else
      match r1.dropWhile isDigit with
      | h1 :: _ =>
          if h1 = ')' then
            some (v :: ' ' :: '-' :: ' ' :: d ++ [')'],
              1 + ws.length + d.length + 1)
          else none
      | [] => none
    else none
  | [] => none

/-- Step 2 as a whole: the three spaced-fraction collapsing replaces in
source order. -/
def fracStep (s : String) : String :=
  runRule fracSpacedTry (runRule fracUnderTry (runRule fracSlashTry s))

/-- Step 3 (`x ^ 2` → `x²`). -/
def caretPowStep (s : String) : String := runRule caretPowTry s

/-- Step 4 (`(…) 2` → `(…)²`). -/
def parenPowStep (s : String) : String := runRule parenPowTry s

/-- Step 5 (`sin ¹(` → `sin⁻¹(`). -/
def invTrigStep (s : String) : String := runRule invTrigTry s

/-- Step 6 heuristics, individually. -/
def minusParenDigitStep (s : String) : String := runRule minusParenDigitTry s

def minusParenAlphaStep (s : String) : String := runRule minusParenAlphaTry s

def minusAbsStep (s : String) : String := runRule minusAbsTry s

def minusTermsStep (s : String) : String := runRule minusTermsTry s

def minusCloseStep (s : String) : String := runRule minusCloseTry s

/-- `fixInlineMathArtifacts`: the full per-line repair chain, in source
order. -/
def fixInlineMathArtifacts (line : String) : String :=
  minusCloseStep (minusTermsStep (minusAbsStep (minusParenAlphaStep
    (minusParenDigitStep (invTrigStep (parenPowStep (caretPowStep
      (fracStep (fixVulgar (fixDashes line))))))))))

/-! ## Superscript Line Merger (`mergeSuperscriptLines`) -/

/-- The Unicode superscript glyphs recognized by `/^[²³⁴⁵⁶⁷⁸⁹]$/`. -/
def isSupGlyph (c : Char) : Bool :=
  c = '²' || c = '³' || c = '⁴' || c = '⁵' || c = '⁶' ||
  c = '⁷' || c = '⁸' || c = '⁹'

/-- `/^(\^?\d)$/.test(cur) || /^[²³⁴⁵⁶⁷⁸⁹]$/.test(cur)` on the trimmed
line. -/
def isSupLine (cur : Str) : Bool :=
  match cur with
  | [d] => isDigit d || isSupGlyph d
  | [a, d] => a = '^' && isDigit d
  | _ => false

/-- `prev && (/[a-zA-Z]\s*$/.test(prev) || /\)\s*$/.test(prev))`: the
previous output line exists and its last non-whitespace character is a
letter or a closing parenthesis (an empty or all-whitespace line
fails). -/
def prevEndsOk (prev : String) : Bool :=
  match prev.data.reverse.dropWhile isWs with
  | c :: _ => isAlpha c || c = ')'
  | [] => false

/-- The characters appended on a merge: a Unicode superscript line is
appended as is; an ASCII line first drops a leading caret
(`cur.replace("^", "")`) and maps the digit through the superscript
table. -/
def mergeGlyph (cur : Str) : Str :=
  match cur with
  | [d] => if isSupGlyph d then [d] else [supChar d]
  | [a, d] => if a = '^' then [supChar d] else [a, d]
  | other => other

/-- The merger loop; `acc` is the `out` array in reverse. -/
def mergeAux : List String → List String → List String
  | acc, [] => acc.reverse
  | acc, l :: ls =>
    let cur := trimS l
    match acc with
    | prev :: rest =>
      if isSupLine cur.data && prevEndsOk prev then
        mergeAux ((⟨prev.data ++ mergeGlyph cur.data⟩ : String) :: rest) ls
      else mergeAux (l :: prev :: rest) ls
    | [] => mergeAux [l] ls

/-- `mergeSuperscriptLines`. -/
def mergeSuperscriptLines (lines : List String) : List String :=
  mergeAux [] lines

/-! ### Claim-side merger (spec-worded, for claim C4)

These definitions follow the claim wording, to be compared with the
source-translated `mergeSuperscriptLines` above. -/

/-- The ten Unicode superscript digit glyphs, as the claim reads
"a single Unicode superscript digit glyph". -/
def claimSupGlyphs : List Char :=
  ['⁰', '¹', '²', '³', '⁴', '⁵', '⁶', '⁷', '⁸', '⁹']

/-- Claim-side classification, original wording: the line's trimmed text
is a single optional-caret ASCII digit or a single Unicode superscript
digit glyph. -/
def claimIsSupLine (l : String) : Bool :=
  match (trimS l).data with
  | [d] => isDigit d || d ∈ claimSupGlyphs
  | [a, d] => a = '^' && isDigit d
  | _ => false

/-- Claim-side (amended wording) classification with the glyph set the
code actually recognizes (`²`–`⁹`), returning the Unicode superscript
glyph to concatenate: an ASCII digit is mapped to its superscript form
first; a glyph is concatenated directly. -/
def claimMergeChar (l : String) : Option Char :=
  match (trimS l).data with
  | [d] =>
      if isSupGlyph d then some d
      else if isDigit d then some (supChar d) else none
  | [a, d] => if a = '^' && isDigit d then some (supChar d) else none
  | _ => none

/-- Claim-side merge condition on the preceding output line: its trimmed
text ends in a letter or a closing parenthesis. -/
def claimEndsOk (prev : String) : Bool :=
  match (trimS prev).data.getLast? with
  | some c => isAlpha c || c = ')'
  | none => false

/-- One left-to-right step of the claim-side merger: a superscript-only
line is merged into the immediately preceding output line exactly when
that line's trimmed text ends suitably; every other line is passed
through unchanged. -/
def claimMergeLoop (out : List String) (l : String) : List String :=
  match out.getLast?, claimMergeChar l with
  | some prev, some g =>
      if claimEndsOk prev then
        out.dropLast ++ [(⟨prev.data ++ [g]⟩ : String)]
      else out ++ [l]
  | _, _ => out ++ [l]

/-- The claim-side merger (amended glyph set). -/
def claimMerge (lines : List String) : List String :=
  lines.foldl claimMergeLoop []

theorem dropWhile_append_ws (m : Str) (c : Char) (hc : isWs c = true) :
    ((m ++ [c]).dropWhile isWs).head? = (m.dropWhile isWs).head? := by
  induction m with
  | nil => simp [List.dropWhile, hc]
  | cons x xs ih =>
      cases hx : isWs x with
      | true =>
          rw [List.cons_append, List.dropWhile_cons_of_pos (by simp [hx]),
            List.dropWhile_cons_of_pos (by simp [hx]), ih]
      | false =>
          rw [List.cons_append, List.dropWhile_cons_of_neg (by simp [hx]),
            List.dropWhile_cons_of_neg (by simp [hx])]
          rfl

theorem trimHeadRev (l : Str) :
    ((l.dropWhile isWs).reverse.dropWhile isWs).head? =
      (l.reverse.dropWhile isWs).head? := by
  induction l with
  | nil => rfl
  | cons c cs ih =>
      cases hc : isWs c with
      | false => rw [List.dropWhile_cons_of_neg (by simp [hc])]
      | true =>
          rw [List.dropWhile_cons_of_pos (by simp [hc]), ih,
            List.reverse_cons, dropWhile_append_ws cs.reverse c hc]

theorem trimChars_getLast (l : Str) :
    (trimChars l).getLast? = (l.reverse.dropWhile isWs).head? := by
  unfold trimChars trimRight
  rw [List.getLast?_reverse]
  exact trimHeadRev l

theorem claimEndsOk_eq (p : String) : claimEndsOk p = prevEndsOk p := by
  unfold claimEndsOk prevEndsOk
  rw [show (trimS p).data = trimChars p.data from rfl, trimChars_getLast]
  cases h : p.data.reverse.dropWhile isWs with
  | nil => simp [h]
  | cons c rest => simp [h]

theorem claimMergeChar_some (l : String)
    (h : isSupLine (trimS l).data = true) :
    ∃ g, claimMergeChar l = some g ∧ mergeGlyph (trimS l).data = [g] := by
  unfold claimMergeChar
  cases hm : (trimS l).data with
  | nil => rw [hm] at h; simp [isSupLine] at h
  | cons c1 t1 =>
    cases t1 with
    | nil =>
        rw [hm] at h
        by_cases hg : isSupGlyph c1 = true
        · exact ⟨c1, by simp [hg], by simp [mergeGlyph, hg]⟩
        · have hg2 : isSupGlyph c1 = false := by
            revert hg; cases isSupGlyph c1 <;> simp
          have hd : isDigit c1 = true := by
            have h2 : (isDigit c1 || isSupGlyph c1) = true := h
            rw [hg2] at h2; simpa using h2
          exact ⟨supChar c1, by simp [hg2, hd], by simp [mergeGlyph, hg2]⟩
    | cons c2 t2 =>
      cases t2 with
      | nil =>
          rw [hm] at h
          obtain ⟨hc1, hd⟩ : c1 = '^' ∧ isDigit c2 = true := by
            simpa [isSupLine] using h
          subst hc1
          exact ⟨supChar c2, by simp [hd], by simp [mergeGlyph]⟩
      | cons c3 t3 =>
          rw [hm] at h
          simp [isSupLine] at h

theorem claimMergeChar_none (l : String)
    (h : isSupLine (trimS l).data = false) :
    claimMergeChar l = none := by
  unfold claimMergeChar
  cases hm : (trimS l).data with
  | nil => rfl
  | cons c1 t1 =>
    cases t1 with
    | nil =>
        rw [hm] at h
        have h2 : (isDigit c1 || isSupGlyph c1) = false := h
        simp only [Bool.or_eq_false_iff] at h2
        simp [h2.1, h2.2]
    | cons c2 t2 =>
      cases t2 with
      | nil =>
          rw [hm] at h
          have h2 : (decide (c1 = '^') && isDigit c2) = false := h
          simp only [h2, Bool.false_eq_true, if_false]
      | cons c3 t3 => rfl

theorem mergeAux_cons_cons (prev : String) (rest : List String)
    (l : String) (ls : List String) :
    mergeAux (prev :: rest) (l :: ls) =
    (if isSupLine (trimS l).data && prevEndsOk prev then
      mergeAux ((⟨prev.data ++ mergeGlyph (trimS l).data⟩ : String) :: rest)
        ls
     else mergeAux (l :: prev :: rest) ls) := rfl

theorem claimMergeLoop_nil (l : String) : claimMergeLoop [] l = [l] := by
  unfold claimMergeLoop
  cases claimMergeChar l <;> rfl

theorem claimMergeLoop_concat (out : List String) (prev l : String) :
    claimMergeLoop (out ++ [prev]) l =
    (match claimMergeChar l with
     | some g =>
        if claimEndsOk prev then out ++ [(⟨prev.data ++ [g]⟩ : String)]
        else (out ++ [prev]) ++ [l]
     | none => (out ++ [prev]) ++ [l]) := by
  unfold claimMergeLoop
  rw [List.getLast?_concat]
  cases claimMergeChar l with
  | none => rfl
  | some g =>
      by_cases hp : claimEndsOk prev = true
      · simp only [hp, if_true, List.dropLast_concat]
      · have hp2 : claimEndsOk prev = false := by
          revert hp; cases claimEndsOk prev <;> simp
        simp only [hp2, Bool.false_eq_true, if_false]

theorem mergeAux_eq_foldl :
    ∀ (ls acc : List String),
      mergeAux acc ls = ls.foldl claimMergeLoop acc.reverse := by
  intro ls
  induction ls with
  | nil => intro acc; rfl
  | cons l ls ih =>
      intro acc
      cases acc with
      | nil =>
          show mergeAux [l] ls = List.foldl claimMergeLoop [] (l :: ls)
          rw [ih [l], List.foldl_cons, claimMergeLoop_nil]
          rfl
      | cons prev rest =>
          rw [mergeAux_cons_cons, List.foldl_cons, List.reverse_cons,
            claimMergeLoop_concat rest.reverse prev l]
          by_cases hs : isSupLine (trimS l).data = true
          · obtain ⟨g, hcg, hmg⟩ := claimMergeChar_some l hs
            rw [hcg]
            by_cases hp : prevEndsOk prev = true
            · have hok : claimEndsOk prev = true := by
                rw [claimEndsOk_eq]; exact hp
              simp only [hs, hp, Bool.and_self, if_true, hok]
              rw [ih ((⟨prev.data ++ mergeGlyph (trimS l).data⟩ : String)
                :: rest)]
              rw [List.reverse_cons, hmg]
            · have hp2 : prevEndsOk prev = false := by
                revert hp; cases prevEndsOk prev <;> simp
              have hok : claimEndsOk prev = false := by
                rw [claimEndsOk_eq]; exact hp2
              simp only [hs, hp2, Bool.and_false, Bool.false_eq_true,
                if_false, hok]
              rw [ih (l :: prev :: rest)]
              simp [List.reverse_cons, List.append_assoc]
          · have hs2 : isSupLine (trimS l).data = false := by
              revert hs; cases isSupLine (trimS l).data <;> simp
            rw [claimMergeChar_none l hs2]
            simp only [hs2, Bool.false_and, Bool.false_eq_true, if_false]
            rw [ih (l :: prev :: rest)]
            simp [List.reverse_cons, List.append_assoc]

/-! ### Merger idempotence facts (for claim C8) -/

theorem digit_enum (d : Char) (h : isDigit d = true) :
    d = '0' ∨ d = '1' ∨ d = '2' ∨ d = '3' ∨ d = '4' ∨ d = '5' ∨
    d = '6' ∨ d = '7' ∨ d = '8' ∨ d = '9' := by
  simp only [isDigit, Bool.and_eq_true, decide_eq_true_eq] at h
  obtain ⟨h1, h2⟩ := h
  have hv1 : 48 ≤ d.toNat := by simpa [Char.le_def] using h1
  have hv2 : d.toNat ≤ 57 := by simpa [Char.le_def] using h2
  have hd : Char.ofNat d.toNat = d := Char.ofNat_toNat d
  interval_cases hn : d.toNat <;> (subst hd; decide)

theorem supChar_props (d : Char) (h : isDigit d = true) :
    isDigit (supChar d) = false ∧ isWs (supChar d) = false := by
  rcases digit_enum d h with h | h | h | h | h | h | h | h | h | h <;>
    (subst h; decide)

theorem supGlyph_props (d : Char) (h : isSupGlyph d = true) :
    isDigit d = false ∧ isWs d = false := by
  simp only [isSupGlyph, Bool.or_eq_true, decide_eq_true_eq] at h
  rcases h with ((((((h | h) | h) | h) | h) | h) | h) | h <;>
    (subst h; decide)

/-- The character a merge appends is never an ASCII digit and never
whitespace. -/
theorem claimMergeChar_props (l : String) (g : Char)
    (h : claimMergeChar l = some g) :
    isDigit g = false ∧ isWs g = false := by
  unfold claimMergeChar at h
  cases hm : (trimS l).data with
  | nil => rw [hm] at h; exact absurd h (by simp)
  | cons c1 t1 =>
    cases t1 with
    | nil =>
        rw [hm] at h
        by_cases hg : isSupGlyph c1 = true
        · simp only [hg, if_true, Option.some.injEq] at h
          subst h
          exact supGlyph_props c1 hg
        · have hg2 : isSupGlyph c1 = false := by
            revert hg; cases isSupGlyph c1 <;> simp
          by_cases hd : isDigit c1 = true
          · simp only [hg2, Bool.false_eq_true, if_false, hd, if_true,
              Option.some.injEq] at h
            subst h
            exact supChar_props c1 hd
          · have hd2 : isDigit c1 = false := by
              revert hd; cases isDigit c1 <;> simp
            simp [hg2, hd2] at h
    | cons c2 t2 =>
      cases t2 with
      | nil =>
          rw [hm] at h
          by_cases hcd : (decide (c1 = '^') && isDigit c2) = true
          · simp only [hcd, if_true, Option.some.injEq] at h
            subst h
            have hd : isDigit c2 = true := by
              revert hcd; cases isDigit c2 <;> simp
            exact supChar_props c2 hd
          · have hcd2 : (decide (c1 = '^') && isDigit c2) = false := by
              revert hcd
              cases (decide (c1 = '^') && isDigit c2) <;> simp
            simp [hcd2] at h
      | cons c3 t3 => rw [hm] at h; exact absurd h (by simp)

theorem dropWhile_ws_append_one (l : Str) (g : Char) (hg : isWs g = false) :
    (l ++ [g]).dropWhile isWs = l.dropWhile isWs ++ [g] := by
  induction l with
  | nil => simp [List.dropWhile, hg]
  | cons x xs ih =>
      cases hx : isWs x with
      | true =>
          rw [List.cons_append, List.dropWhile_cons_of_pos (by simp [hx]),
            List.dropWhile_cons_of_pos (by simp [hx]), ih]
      | false =>
          rw [List.cons_append, List.dropWhile_cons_of_neg (by simp [hx]),
            List.dropWhile_cons_of_neg (by simp [hx]), List.cons_append]

theorem trimRight_append_one (m : Str) (g : Char) (hg : isWs g = false) :
    trimRight (m ++ [g]) = m ++ [g] := by
  unfold trimRight
  have hrev : (m ++ [g]).reverse = g :: m.reverse := by simp
  rw [hrev, List.dropWhile_cons_of_neg (by simp [hg])]
  simp

theorem trimChars_append_one (l : Str) (g : Char) (hg : isWs g = false) :
    trimChars (l ++ [g]) = l.dropWhile isWs ++ [g] := by
  unfold trimChars
  rw [dropWhile_ws_append_one l g hg, trimRight_append_one _ g hg]

theorem dropWhile_ws_ne_nil_of_ok (p : String) (h : prevEndsOk p = true) :
    p.data.dropWhile isWs ≠ [] := by
  unfold prevEndsOk at h
  intro hcon
  have hall : ∀ x ∈ p.data, isWs x = true :=
    List.dropWhile_eq_nil_iff.mp hcon
  have hrev : p.data.reverse.dropWhile isWs = [] := by
    rw [List.dropWhile_eq_nil_iff]
    intro x hx
    exact hall x (List.mem_reverse.mp hx)
  rw [hrev] at h
  simp at h

/-- Appending a merge glyph to a line that accepted a merge makes a line
that is never itself superscript-only: its trimmed text has the accepting
letter or parenthesis before the glyph. -/
theorem isSupLine_merged (p : String) (g : Char) (hp : prevEndsOk p = true)
    (hgw : isWs g = false) (hgd : isDigit g = false) :
    isSupLine (trimS (⟨p.data ++ [g]⟩ : String)).data = false := by
  show isSupLine (trimChars (p.data ++ [g])) = false
  rw [trimChars_append_one _ g hgw]
  cases hm : p.data.dropWhile isWs with
  | nil => exact absurd hm (dropWhile_ws_ne_nil_of_ok p hp)
  | cons a t =>
    cases t with
    | nil =>
        show isSupLine [a, g] = false
        unfold isSupLine
        simp [hgd]
    | cons b t2 => cases t2 <;> rfl

/-- The merger output never contains an adjacent pair that would merge:
each output line is chained to its successor by the failure of the merge
condition. -/
theorem mergeAux_chain :
    ∀ (ls acc : List String),
      List.Chain'
        (fun a b => (isSupLine (trimS a).data && prevEndsOk b) = false)
        acc →
      List.Chain'
        (fun p c => (isSupLine (trimS c).data && prevEndsOk p) = false)
        (mergeAux acc ls) := by
  intro ls
  induction ls with
  | nil =>
      intro acc hacc
      show List.Chain' _ acc.reverse
      rw [List.chain'_reverse]
      exact hacc
  | cons l ls ih =>
      intro acc hacc
      cases acc with
      | nil => exact ih [l] (List.chain'_singleton l)
      | cons prev rest =>
          rw [mergeAux_cons_cons]
          by_cases hc : (isSupLine (trimS l).data && prevEndsOk prev) = true
          · rw [if_pos hc]
            apply ih
            have hsup : isSupLine (trimS l).data = true := by
              revert hc
              cases isSupLine (trimS l).data <;> simp
            have hp : prevEndsOk prev = true := by
              revert hc
              cases prevEndsOk prev <;> cases isSupLine (trimS l).data <;>
                simp
            obtain ⟨g, hcg, hmg⟩ := claimMergeChar_some l hsup
            obtain ⟨hgd, hgw⟩ := claimMergeChar_props l g hcg
            rw [hmg]
            refine List.chain'_cons'.mpr ⟨?_, hacc.tail⟩
            intro b hb
            rw [isSupLine_merged prev g hp hgw hgd]
            exact Bool.false_and _
          · rw [if_neg hc]
            apply ih
            refine List.chain'_cons'.mpr ⟨?_, hacc⟩
            intro b hb
            have hb2 : prev = b := by simpa using hb
            subst hb2
            revert hc
            cases (isSupLine (trimS l).data && prevEndsOk prev) <;> simp

/-- On a list with no mergeable adjacent pair, the merger is the
identity. -/
theorem mergeAux_id :
    ∀ (ls acc : List String),
      (∀ p c, acc.head? = some p → ls.head? = some c →
        (isSupLine (trimS c).data && prevEndsOk p) = false) →
      List.Chain'
        (fun p c => (isSupLine (trimS c).data && prevEndsOk p) = false)
        ls →
      mergeAux acc ls = acc.reverse ++ ls := by
  intro ls
  induction ls with
  | nil =>
      intro acc hb hch
      show acc.reverse = acc.reverse ++ []
      simp
  | cons l ls ih =>
      intro acc hb hch
      cases acc with
      | nil =>
          show mergeAux [l] ls = [] ++ l :: ls
          rw [ih [l] ?_ hch.tail]
          · rfl
          · intro p c hp hc
            have hp2 : l = p := by simpa using hp
            subst hp2
            exact (List.chain'_cons'.mp hch).1 c hc
      | cons prev rest =>
          have hP : (isSupLine (trimS l).data && prevEndsOk prev) = false :=
            hb prev l (by rfl) (by rfl)
          rw [mergeAux_cons_cons, hP]
          simp only [Bool.false_eq_true, if_false]
          rw [ih (l :: prev :: rest) ?_ hch.tail]
          · simp [List.reverse_cons, List.append_assoc]
          · intro p c hp hc
            have hp2 : l = p := by simpa using hp
            subst hp2
            exact (List.chain'_cons'.mp hch).1 c hc

/-! ## Fragment Grouper (the per-page line-building loop of
`extractTextFromPdf`)

A text item contributes its string and the baseline Y taken from its
transform; `currentY` starts `null`, a fragment more than 3.5 units away
flushes the accumulator. -/

structure Frag where
  str : String
  y : ℚ
deriving DecidableEq

/-- The grouping loop: returns the list of flushed accumulators (each in
fragment order).  `buff` is kept reversed; a flush only emits a
non-empty accumulator (`if (buff.length)`). -/
def groupGo : Option ℚ → List String → List Frag → List (List String)
  | _, buff, [] => if buff.isEmpty then [] else [buff.reverse]
  | currentY, buff, f :: fs =>
    match currentY with
    | none => groupGo (some f.y) (f.str :: buff) fs
    | some cy =>
      if |f.y - cy| > 7 / 2 then
        if buff.isEmpty then groupGo (some f.y) [f.str] fs
        else buff.reverse :: groupGo (some f.y) [f.str] fs
      else groupGo (some cy) (f.str :: buff) fs

theorem groupGo_nil (cy : Option ℚ) (buff : List String) :
    groupGo cy buff [] = if buff.isEmpty then [] else [buff.reverse] := rfl

theorem groupGo_cons_none (buff : List String) (f : Frag) (fs : List Frag) :
    groupGo none buff (f :: fs) = groupGo (some f.y) (f.str :: buff) fs := rfl

theorem groupGo_cons_some (cy : ℚ) (buff : List String) (f : Frag)
    (fs : List Frag) :
    groupGo (some cy) buff (f :: fs) =
    (if |f.y - cy| > 7 / 2 then
      (if buff.isEmpty then groupGo (some f.y) [f.str] fs
       else buff.reverse :: groupGo (some f.y) [f.str] fs)
     else groupGo (some cy) (f.str :: buff) fs) := rfl

/-- The per-line fragment groups of one page. -/
def groupBuffs (frags : List Frag) : List (List String) :=
  groupGo none [] frags

/-- The Fragment Grouper output: each completed line's text is
`buff.join(" ").replace(/\s{2,}/g, " ").trim()` (the `raw` of `flush`,
before artifact repair). -/
def groupRaws (frags : List Frag) : List String :=
  (groupBuffs frags).map (fun b => ⟨canon (joinSep ' ' (b.map String.data))⟩)

/-- The `lines` actually pushed by `flush`: repaired text, kept only when
truthy (non-empty). -/
def pageLineTexts (frags : List Frag) : List String :=
  ((groupRaws frags).map fixInlineMathArtifacts).filter (fun t => t ≠ "")

/-- One page of `pagesRawLines`: grouped, repaired, superscript-merged
line texts. -/
def pageMergedLines (frags : List Frag) : List String :=
  mergeSuperscriptLines (pageLineTexts frags)

/-! ## Chrome Filter (frequency rule and junk patterns) -/

/-- `Math.max(2, Math.floor(pdf.numPages * 0.5))` (exact for the page
counts representable here: `n * 0.5` floors to `n / 2`). -/
def chromeThreshold (numPages : Nat) : Nat := max 2 (numPages / 2)

/-- The `freq` map entry for a line: occurrences summed over all pages
(a line occurring twice on one page counts twice). -/
def countOcc (pages : List (List String)) (line : String) : Nat :=
  pages.flatten.count line

/-- Membership in the `chrome` set. -/
def isChrome (pages : List (List String)) (line : String) : Bool :=
  chromeThreshold pages.length ≤ countOcc pages line

/-- Head of the list is an ASCII digit. -/
def headIsDigit : Str → Bool
  | [] => false
  | c :: _ => isDigit c

/-- `Page\s*\d+` (case-insensitive) matches at the head. -/
def matchPageNum : Str → Bool
  | p :: a :: g :: e :: rest =>
    [lcase p, lcase a, lcase g, lcase e] = ['p', 'a', 'g', 'e'] &&
    headIsDigit (rest.dropWhile isWs)
  | _ => false

/-- `/(^|\s)Page\s*\d+(\s*of\s*\d+)?/i.test(line)`: the optional
`of …` suffix never affects the test.  `atStart` tracks whether the
current position is the start or preceded by whitespace. -/
def junkPageGo (atStart : Bool) : Str → Bool
  | [] => false
  | c :: cs => (atStart && matchPageNum (c :: cs)) || junkPageGo (isWs c) cs

def junkPage (l : Str) : Bool := junkPageGo true l

/-- `Unit\s*\d+_Book_\d+\.indb` (case-insensitive) matches at the
head. -/
def matchUnitBook : Str → Bool
  | u :: n :: i :: t :: rest =>
    [lcase u, lcase n, lcase i, lcase t] = ['u', 'n', 'i', 't'] &&
    (let r1 := rest.dropWhile isWs
     !(r1.takeWhile isDigit).isEmpty &&
     (match r1.dropWhile isDigit with
      | '_' :: b :: o :: o2 :: k :: '_' :: r2 =>
        [lcase b, lcase o, lcase o2, lcase k] = ['b', 'o', 'o', 'k'] &&
        !(r2.takeWhile isDigit).isEmpty &&
        (match r2.dropWhile isDigit with
         | '.' :: i2 :: n2 :: d3 :: b2 :: _ =>
           [lcase i2, lcase n2, lcase d3, lcase b2] = ['i', 'n', 'd', 'b']
         | _ => false)
      | _ => false))
  | _ => false

def junkUnitBook (l : Str) : Bool := l.tails.any matchUnitBook

/-- `~\/|[A-Z]:\\|desktop` (case-insensitive) matches at the head (the
`/i` flag makes `[A-Z]` match any ASCII letter). -/
def matchPath : Str → Bool
  | '~' :: '/' :: _ => true
  | c :: rest =>
    (match rest with
     | ':' :: s :: _ => isAlpha c && s = Char.ofNat 92
     | _ => false) ||
    (match c :: rest with
     | d :: e :: s :: k :: t :: o :: p :: _ =>
       [lcase d, lcase e, lcase s, lcase k, lcase t, lcase o, lcase p] =
         ['d', 'e', 's', 'k', 't', 'o', 'p']
     | _ => false)
  | _ => false

def junkPath (l : Str) : Bool := l.tails.any matchPath

/-- `/^\d{2,}\s*$/`: a lone run of two or more digits. -/
def junkLoneNumber (l : Str) : Bool :=
  2 ≤ (l.takeWhile isDigit).length && (l.dropWhile isDigit).all isWs

/-- `Algebra\s*1\s*•\s*Unit\s*\d+` (case-insensitive) at the head. -/
def matchAlgebra : Str → Bool
  | a :: l2 :: g :: e :: b :: r :: a2 :: rest =>
    [lcase a, lcase l2, lcase g, lcase e, lcase b, lcase r, lcase a2] =
      ['a', 'l', 'g', 'e', 'b', 'r', 'a'] &&
    (match rest.dropWhile isWs with
     | '1' :: r2 =>
       (match r2.dropWhile isWs with
        | '•' :: r3 =>
          (match r3.dropWhile isWs with
           | u :: n :: i :: t :: r4 =>
             [lcase u, lcase n, lcase i, lcase t] = ['u', 'n', 'i', 't'] &&
             headIsDigit (r4.dropWhile isWs)
           | _ => false)
        | _ => false)
     | _ => false)
  | _ => false

/-- `/^\d+\s+Algebra\s*1\s*•\s*Unit\s*\d+/i`. -/
def junkAlgebraHeader (l : Str) : Bool :=
  !(l.takeWhile isDigit).isEmpty &&
  (let r1 := l.dropWhile isDigit
   !(r1.takeWhile isWs).isEmpty && matchAlgebra (r1.dropWhile isWs))

/-- `junkRegexes.some(rx => rx.test(line))`. -/
def junkAny (line : String) : Bool :=
  junkPage line.data || junkUnitBook line.data || junkPath line.data ||
  junkLoneNumber line.data || junkAlgebraHeader line.data

/-- Whether a line survives the Chrome Filter
(`!chrome.has(line) && !junkRegexes.some(...)`). -/
def keepLine (pages : List (List String)) (line : String) : Bool :=
  !isChrome pages line && !junkAny line

/-- The kept lines of one page. -/
def keptLines (pages : List (List String)) (p : Nat) : List String :=
  (pages.getD p []).filter (keepLine pages)

/-- The cleaned page texts (`kept.join("\n")`). -/
def cleanedPages (pages : List (List String)) : List String :=
  pages.map (fun lines => String.intercalate "\n" (lines.filter (keepLine pages)))

/-! ## Sentence Segmenter (`buildSentences`) -/

structure Sentence where
  text : String
  page : Nat
deriving DecidableEq

/-- `replace(/\s+/g, " ")`: every maximal whitespace run (of any length)
becomes one space; `pending` records an open run. -/
def squashGo (pending : Bool) : Str → Str
  | [] => if pending then [' '] else []
  | c :: cs =>
    if isWs c then squashGo true cs
    else if pending then ' ' :: c :: squashGo false cs
    else c :: squashGo false cs

def squashWs (l : Str) : Str := squashGo false l

/-- `replace(/\.(?=\S)/g, ". ")`: insert a space after a period directly
followed by a non-space character (the lookahead is not consumed). -/
def dotSpaceGo : Str → Str
  | [] => []
  | ['.'] => ['.']
  | '.' :: c :: cs =>
    if isWs c then '.' :: dotSpaceGo (c :: cs)
    else '.' :: ' ' :: dotSpaceGo (c :: cs)
  | c :: cs => c :: dotSpaceGo cs

/-- The per-page cleanup before splitting:
`txt.replace(/\s+/g, " ").replace(/\.(?=\S)/g, ". ").trim()`. -/
def cleanPageText (txt : String) : String :=
  ⟨trimChars (dotSpaceGo (squashWs txt.data))⟩

/-- `[.!?]`. -/
def isTerm (c : Char) : Bool := c = '.' || c = '!' || c = '?'

/-- `[A-Z0-9("\"'\[]`: uppercase letter, digit, or one of
`(`, double quote, single quote, `[`. -/
def isOpener (c : Char) : Bool :=
  isUpper c || isDigit c || c = '(' || c = Char.ofNat 34 ||
  c = Char.ofNat 39 || c = '['

/-- Head of the remainder is an opener. -/
def headIsOpener : Str → Bool
  | [] => false
  | c :: _ => isOpener c

/-- The lookbehind `(?<=[.!?])` on the previous subject character. -/
def prevIsTerm : Option Char → Bool
  | some p => isTerm p
  | none => false

/-- `split(/(?<=[.!?])\s+(?=[A-Z0-9("\"'\[])/)`: a separator is a
(maximal) whitespace run whose preceding subject character is terminal
punctuation and whose following character is an opener; a shorter run
would be followed by whitespace, which is not an opener, so the greedy
run never backtracks.  `cur` is the reversed pending chunk. -/
def splitGo (prev : Option Char) (cur : Str) : Nat → Str → List Str
  | _, [] => [cur.reverse]
  | 0, c :: cs => [cur.reverse ++ c :: cs]
  | n + 1, c :: cs =>
    if isWs c && prevIsTerm prev &&
        headIsOpener ((c :: cs).dropWhile isWs) then
      cur.reverse :: splitGo (nextPrev prev ((c :: cs).takeWhile isWs)) [] n
        ((c :: cs).dropWhile isWs)
    else splitGo (some c) (c :: cur) n cs

/-- The sentence chunks of one cleaned page text:
split, `map(s => s.trim())`, `filter(Boolean)`. -/
def pageChunks (txt : String) : List String :=
  ((splitGo none [] (cleanPageText txt).data.length
    (cleanPageText txt).data).map (fun c => trimS ⟨c⟩)).filter
    (fun s => s ≠ "")

/-- `buildSentences`. -/
def buildSentences (pages : List String) : List Sentence :=
  (pages.enum).flatMap
    (fun pi => (pageChunks pi.2).map (fun c => ⟨c, pi.1 + 1⟩))

/-! ## Math Normalizer (`looksMathy` / `normalizeForSpeech`) -/

/-- One superscript-rewrite pass `([a-zA-Z])<glyph>` → `$1<word>`. -/
def supWordTry (g : Char) (word : Str) : Rule := fun _ l =>
  match l with
  | v :: c :: _ =>
    if isAlpha v && c = g then some (v :: word, 2) else none
  | _ => none

/-- The unconditional superscript rewrite (`x²` → `x squared`, …,
`x⁹` → `x to the power of 9`); ⁰ and ¹ have no rule in the source. -/
def supRewrite (s : String) : String :=
  let p := fun (g : Char) (w : String) (t : String) =>
    runRule (supWordTry g w.data) t
  p '⁹' " to the power of 9" (p '⁸' " to the power of 8"
    (p '⁷' " to the power of 7" (p '⁶' " to the power of 6"
      (p '⁵' " to the power of 5" (p '⁴' " to the power of 4"
        (p '³' " cubed" (p '²' " squared" s)))))))

/-- The operator/bracket/comparison character class of `looksMathy`. -/
def mathyChar (c : Char) : Bool :=
  c = '=' || c = '+' || c = '−' || c = '-' || c = '*' || c = '/' ||
  c = '×' || c = '^' || c = '√' || c = '(' || c = ')' ||
  c = Char.ofNat 123 || c = Char.ofNat 125 || c = '[' || c = ']' ||
  c = '|' || c = '<' || c = '>' || c = '≤' || c = '≥' || c = '%'

/-- Case-insensitive match of a lowercase-ASCII pattern at the head
(`lcase` handles the `/i` flag; `Σ` also matches its lowercase forms,
as JS canonicalization does). -/
def ciMatchAt : Str → Str → Bool
  | [], _ => true
  | _ :: _, [] => false
  | p :: ps, c :: cs =>
    (p = lcase c || (p = 'Σ' && (c = 'σ' || c = 'ς'))) && ciMatchAt ps cs

/-- The gate word list `sin|cos|tan|log|ln|lim|∫|Σ`. -/
def mathyWords : List Str :=
  [['s', 'i', 'n'], ['c', 'o', 's'], ['t', 'a', 'n'], ['l', 'o', 'g'],
   ['l', 'n'], ['l', 'i', 'm'], ['∫'], ['Σ']]

/-- `\b<word>\b` matches at the head of `l` with previous character
`prev`. -/
def mathyWordAt (prev : Option Char) (l : Str) (w : Str) : Bool :=
  ciMatchAt w l && atBoundary prev l.head? &&
  atBoundary ((l.take w.length).getLast?) (l.drop w.length).head?

/-- Search loop for `looksMathy`. -/
def looksMathyGo (prev : Option Char) : Str → Bool
  | [] => false
  | c :: cs =>
    mathyChar c || (mathyWords.any (mathyWordAt prev (c :: cs))) ||
    looksMathyGo (some c) cs

/-- `looksMathy`:
`/[=+−\-*/×^√(){}[\]|<>≤≥%]|(?:\b(?:sin|cos|tan|log|ln|lim|∫|Σ)\b)/i`. -/
def looksMathy (s : String) : Bool := looksMathyGo none s.data

/-! ### The gated math rewrites, in source order -/

/-- Head of the remainder is a letter. -/
def headIsAlpha : Str → Bool
  | [] => false
  | c :: _ => isAlpha c

/-- Head of the remainder is a given character. -/
def headIs (x : Char) : Str → Bool
  | [] => false
  | c :: _ => c = x

/-- `\b([a-zA-Z])\s*\^\s*<d>\b` → `$1<word>` (the caret-2 and caret-3
rules). -/
def caretLitTry (d : Char) (word : Str) : Rule := fun prev l =>
  match l with
  | v :: r0 =>
    if isAlpha v && atBoundary prev (some v) then
      let ws1 := r0.takeWhile isWs
      match r0.dropWhile isWs with
      | '^' :: r2 =>
        let ws2 := r2.takeWhile isWs
        match r2.dropWhile isWs with
        | x :: r4 =>
          if x = d && !headIsWord r4 then
            some (v :: word, 1 + ws1.length + 1 + ws2.length + 1)
          else none
        | [] => none
      | _ => none
    else none
  | [] => none

/-- `\b([a-zA-Z])\s*\^\s*(\d+)\b` → `$1 to the power of $2`. -/
def caretWordTry : Rule := fun prev l =>
  match l with
  | v :: r0 =>
    if isAlpha v && atBoundary prev (some v) then
      let ws1 := r0.takeWhile isWs
      match r0.dropWhile isWs with
      | '^' :: r2 =>
        let ws2 := r2.takeWhile isWs
        let r3 := r2.dropWhile isWs
        let ds := r3.takeWhile isDigit
        if ds.isEmpty then none
        else if headIsWord (r3.dropWhile isDigit) then none
        else some (v :: (String.data " to the power of " ++ ds),
          1 + ws1.length + 1 + ws2.length + ds.length)
      | _ => none
    else none
  | [] => none

/-- The context class `/[=+\-×*/(]/` of the OCR squared/cubed
heuristic. -/
def ocrCtxChar (c : Char) : Bool :=
  c = '=' || c = '+' || c = '-' || c = '×' || c = '*' || c = '/' || c = '('

/-- `([a-zA-Z])\s*(2|3)(?=[^a-zA-Z]|$)` with the function replacement:
the callback consults `str.slice(Math.max(0, offset-4), offset+4)` of
the original subject for an operator and otherwise returns the match
unchanged.  `behind` holds the already-scanned subject characters in
reverse, so the window is available. -/
def ocrGo : Str → Nat → Str → Str
  | _, 0, l => l
  | _, _, [] => []
  | behind, n + 1, v :: r0 =>
    if isAlpha v then
      let ws := r0.takeWhile isWs
      match r0.dropWhile isWs with
      | d :: r2 =>
        if (d = '2' || d = '3') && !headIsAlpha r2 then
          let ctx := (behind.take 4).reverse ++ (v :: r0).take 4
          let matched := v :: (ws ++ [d])
          let rep :=
            if ctx.any ocrCtxChar then
              if d = '2' then v :: String.data " squared"
              else v :: String.data " cubed"
            else matched
          rep ++ ocrGo (matched.reverse ++ behind) n r2
        else v :: ocrGo (v :: behind) n r0
      | [] => v :: ocrGo (v :: behind) n r0
    else v :: ocrGo (v :: behind) n r0

def ocrStep (s : String) : String := ⟨ocrGo [] s.data.length s.data⟩

/-- `\b([a-zA-Z])\s*\(\s*([a-zA-Z0-9]+)\s*\)` → `$1 of $2` (function
notation). -/
def funcNotTry : Rule := fun prev l =>
  match l with
  | v :: r0 =>
    if isAlpha v && atBoundary prev (some v) then
      let ws1 := r0.takeWhile isWs
      match r0.dropWhile isWs with
      | '(' :: r2 =>
        let ws2 := r2.takeWhile isWs
        let r3 := r2.dropWhile isWs
        let arg := r3.takeWhile (fun c => isAlpha c || isDigit c)
        if arg.isEmpty then none
        else
          let r4 := r3.dropWhile (fun c => isAlpha c || isDigit c)
          let ws3 := r4.takeWhile isWs
          match r4.dropWhile isWs with
          | ')' :: _ =>
            some (v :: ' ' :: 'o' :: 'f' :: ' ' :: arg,
              1 + ws1.length + 1 + ws2.length + arg.length + ws3.length + 1)
          | _ => none
      | _ => none
    else none
  | [] => none

/-- Single-character global replaces, as a character expansion. -/
def expandChar (table : Char → Option Str) (s : String) : String :=
  ⟨s.data.flatMap (fun c => (table c).getD [c])⟩

def bulletRepl (c : Char) : Option Str :=
  if c = '•' || c = '·' then some [' '] else none

def eqRepl (c : Char) : Option Str :=
  if c = '=' then some (String.data " equals ") else none

def plusRepl (c : Char) : Option Str :=
  if c = '+' then some (String.data " plus ") else none

def minusWordRepl (c : Char) : Option Str :=
  if c = '−' || c = '–' || c = '—' || c = '-' then
    some (String.data " minus ") else none

def timesRepl (c : Char) : Option Str :=
  if c = '×' || c = '*' then some (String.data " times ") else none

/-- `(?<=\w)\/(?=\w)` → ` divided by `. -/
def dividedTry : Rule := fun prev l =>
  match l with
  | '/' :: r0 =>
    if (match prev with | some p => isWord p | none => false) &&
        headIsWord r0 then
      some (String.data " divided by ", 1)
    else none
  | _ => none

/-- `\([^)]*\)` at the head: the whole group (with parens) and the
rest. -/
def parenGroupAt : Str → Option (Str × Str)
  | '(' :: r0 =>
    let g := r0.takeWhile (· ≠ ')')
    match r0.dropWhile (· ≠ ')') with
    | ')' :: r2 => some ('(' :: (g ++ [')']), r2)
    | _ => none
  | _ => none

/-- The `B` alternative `(\([^)]*\)|\S+)` of the fraction rule. -/
def fracB (l : Str) : Option (Str × Nat) :=
  match parenGroupAt l with
  | some (b, _) => some (b, b.length)
  | none =>
    let run := l.takeWhile (fun c => !isWs c)
    if run.isEmpty then none else some (run, run.length)

/-- The `\S+` alternative for `A`: the greedy run backtracks to the
longest prefix followed by `/` and a valid `B` (lengths tried in
decreasing order). -/
def fracSplitGo (l : Str) : Nat → Option (Str × Str × Nat)
  | 0 => none
  | n + 1 =>
    match l.drop (n + 1) with
    | '/' :: r2 =>
      (match fracB r2 with
       | some (b, kb) => some (l.take (n + 1), b, n + 1 + 1 + kb)
       | none => fracSplitGo l n)
    | _ => fracSplitGo l n

/-- `(\([^)]*\)|\S+)\/(\([^)]*\)|\S+)` → `($1) over ($2)`. -/
def fracOverTry : Rule := fun _ l =>
  let parenAttempt : Option (Str × Str × Nat) :=
    match parenGroupAt l with
    | some (a, r1) =>
      (match r1 with
       | '/' :: r2 =>
         (match fracB r2 with
          | some (b, kb) => some (a, b, a.length + 1 + kb)
          | none => none)
       | _ => none)
    | none => none
  let attempt :=
    match parenAttempt with
    | some r => some r
    | none => fracSplitGo l (l.takeWhile (fun c => !isWs c)).length
  match attempt with
  | some (a, b, k) =>
    some ('(' :: (a ++ String.data ") over (" ++ b ++ [')']), k)
  | none => none

/-- `√\(?([^)]+)\)?` → ` square root of $1 `. -/
def sqrtTry : Rule := fun _ l =>
  let rep := fun (g : Str) => ' ' :: (String.data "square root of " ++ g ++ [' '])
  match l with
  | '√' :: r0 =>
    match r0 with
    | '(' :: r1 =>
      let g := r1.takeWhile (· ≠ ')')
      if g.isEmpty then
        -- `[^)]+` fails after the consumed paren; backtrack `\(?` to
        -- empty so the group starts at the paren itself
        let g2 := r0.takeWhile (· ≠ ')')
        if headIs ')' (r0.dropWhile (· ≠ ')')) then
          some (rep g2, 1 + g2.length + 1)
        else some (rep g2, 1 + g2.length)
      else
        if headIs ')' (r1.dropWhile (· ≠ ')')) then
          some (rep g, 1 + 1 + g.length + 1)
        else some (rep g, 1 + 1 + g.length)
    | _ =>
      let g := r0.takeWhile (· ≠ ')')
      if g.isEmpty then none
      else
        if headIs ')' (r0.dropWhile (· ≠ ')')) then
          some (rep g, 1 + g.length + 1)
        else some (rep g, 1 + g.length)
  | _ => none

/-- `\b<fn>\(?([^)]+)?\)?` (case-insensitive) → `<rep>$1` (the trig
rules; the optional group makes every suffix after the function name up
to a closing paren the argument). -/
def trigTry (w : Str) (rep : Str) : Rule := fun prev l =>
  if ciMatchAt w l && atBoundary prev l.head? then
    let r0 := l.drop w.length
    match r0 with
    | '(' :: r1 =>
      let g := r1.takeWhile (· ≠ ')')
      if headIs ')' (r1.dropWhile (· ≠ ')')) then
        some (rep ++ g, w.length + 1 + g.length + 1)
      else some (rep ++ g, w.length + 1 + g.length)
    | _ =>
      let g := r0.takeWhile (· ≠ ')')
      if headIs ')' (r0.dropWhile (· ≠ ')')) then
        some (rep ++ g, w.length + g.length + 1)
      else some (rep ++ g, w.length + g.length)
  else none

/-- `\bln\(` (case-insensitive) → ` natural log of (`. -/
def lnTry : Rule := fun prev l =>
  if ciMatchAt ['l', 'n'] l && atBoundary prev l.head? &&
      headIs '(' (l.drop 2) then
    some (String.data " natural log of (", 3)
  else none

/-- `\blog_?(\d+)?\(` (case-insensitive) → ` log base $1 of (`. -/
def logTry : Rule := fun prev l =>
  let rep := fun (ds : Str) =>
    String.data " log base " ++ ds ++ String.data " of ("
  if ciMatchAt ['l', 'o', 'g'] l && atBoundary prev l.head? then
    match l.drop 3 with
    | '_' :: r1 =>
      let ds := r1.takeWhile isDigit
      if !ds.isEmpty && headIs '(' (r1.dropWhile isDigit) then
        some (rep ds, 5 + ds.length)
      else if headIs '(' r1 then some (rep [], 5)
      else none
    | r0 =>
      let ds := r0.takeWhile isDigit
      if !ds.isEmpty && headIs '(' (r0.dropWhile isDigit) then
        some (rep ds, 4 + ds.length)
      else if headIs '(' r0 then some (rep [], 4)
      else none
  else none

def leRepl (c : Char) : Option Str :=
  if c = '≤' then some (String.data " less than or equal to ") else none

def geRepl (c : Char) : Option Str :=
  if c = '≥' then some (String.data " greater than or equal to ") else none

def ltRepl (c : Char) : Option Str :=
  if c = '<' then some (String.data " less than ") else none

def gtRepl (c : Char) : Option Str :=
  if c = '>' then some (String.data " greater than ") else none

def sumRepl (c : Char) : Option Str :=
  if c = 'Σ' then some (String.data " sum of ") else none

def intRepl (c : Char) : Option Str :=
  if c = '∫' then some (String.data " integral of ") else none

/-- `\blim\b` (case-insensitive) → ` limit `. -/
def limTry : Rule := fun prev l =>
  if ciMatchAt ['l', 'i', 'm'] l && atBoundary prev l.head? &&
      !headIsWord (l.drop 3) then
    some (String.data " limit ", 3)
  else none

/-- The full chain applied when the gate passes, in source order. -/
def mathyChain (t : String) : String :=
  let s1 := runRule (caretLitTry '2' (String.data " squared")) t
  let s2 := runRule (caretLitTry '3' (String.data " cubed")) s1
  let s3 := runRule caretWordTry s2
  let s4 := ocrStep s3
  let s5 := runRule funcNotTry s4
  let s6 := expandChar bulletRepl s5
  let s7 := expandChar eqRepl s6
  let s8 := expandChar plusRepl s7
  let s9 := expandChar minusWordRepl s8
  let s10 := expandChar timesRepl s9
  let s11 := runRule dividedTry s10
  let s12 := runRule fracOverTry s11
  let s13 := runRule sqrtTry s12
  let s14 := runRule (trigTry ['s', 'i', 'n'] (String.data "sine of ")) s13
  let s15 := runRule (trigTry ['c', 'o', 's'] (String.data "cosine of ")) s14
  let s16 := runRule (trigTry ['t', 'a', 'n'] (String.data "tangent of ")) s15
  let s17 := runRule lnTry s16
  let s18 := runRule logTry s17
  let s19 := expandChar leRepl s18
  let s20 := expandChar geRepl s19
  let s21 := expandChar ltRepl s20
  let s22 := expandChar gtRepl s21
  let s23 := expandChar sumRepl s22
  let s24 := expandChar intRepl s23
  runRule limTry s24

/-- `normalizeForSpeech`: unconditional superscript rewrite, the
`looksMathy` gate, the gated chain, and the final
`replace(/\s{2,}/g, " ").trim()`. -/
def normalizeForSpeech (s : String) : String :=
  let t := supRewrite s
  if looksMathy t then canonS (mathyChain t) else canonS t

/-- `startSpeakingFrom`: the text handed to the utterance is
`mathMode ? normalizeForSpeech(raw) : raw`. -/
def speechText (mathMode : Bool) (raw : String) : String :=
  if mathMode then normalizeForSpeech raw else raw

/-! ## The extraction state machine (`extractTextFromPdf`)

The component state relevant to extraction.  The decoder (pdf.js) is
external: its result is modelled as an `Except` — a failed
`getDocument` promise, or a page list in which each page's
`getPage`/`getTextContent` either fails or yields positioned items.
Any failure lands in the single `catch`, which sets the error message;
`textByPage`/`sentences` are only assigned after the whole pipeline. -/

structure AppState where
  pdfName : String
  numPages : Nat
  textByPage : List String
  sentences : List Sentence
  currentSentence : Nat
  isLoading : Bool
  error : Option String
deriving DecidableEq

def errMsg : String := "Failed to read PDF. Please try a different file."

/-- Sequential page fetch: the first failing page aborts the loop. -/
def allPages : List (Except Unit (List Frag)) → Option (List (List Frag))
  | [] => some []
  | .error _ :: _ => none
  | .ok f :: rest => (allPages rest).map (f :: ·)

/-- `extractTextFromPdf` as a state transition on the component state. -/
def extractTextFromPdf (st : AppState) (name : String)
    (doc : Except Unit (List (Except Unit (List Frag)))) : AppState :=
  let st0 := { st with isLoading := true, error := none, pdfName := name,
                       currentSentence := 0 }
  match doc with
  | .error _ => { st0 with error := some errMsg, isLoading := false }
  | .ok pages =>
    let st1 := { st0 with numPages := pages.length }
    match allPages pages with
    | none => { st1 with error := some errMsg, isLoading := false }
    | some pageFrags =>
      let pagesRawLines := pageFrags.map pageMergedLines
      let cleaned := cleanedPages pagesRawLines
      { st1 with textByPage := cleaned, sentences := buildSentences cleaned,
                 isLoading := false }

/-- A failed extraction: decode failure, or some page fetch throwing. -/
def extractFails (doc : Except Unit (List (Except Unit (List Frag)))) : Prop :=
  match doc with
  | .error _ => True
  | .ok pages => allPages pages = none

/-! ## Claim-side (specification-worded) definitions -/

/-- Number of distinct pages on which a line occurs (the reading of the
frequency rule in claim C1). -/
def distinctPageCount (pages : List (List String)) (line : String) : Nat :=
  (pages.filter (fun pg => line ∈ pg)).length

/-! ## Whitespace facts about `canon` -/

/-- No two adjacent whitespace characters. -/
def NoWsPair (a b : Char) : Prop := ¬(isWs a ∧ isWs b)

theorem chain'_of_suffix {R : Char → Char → Prop} {l s : Str}
    (h : l.Chain' R) (hs : s <:+ l) : s.Chain' R := by
  obtain ⟨pre, rfl⟩ := hs
  exact (List.chain'_append.mp h).2.1

theorem chain'_of_prefix {R : Char → Char → Prop} {l s : Str}
    (h : l.Chain' R) (hp : s <+: l) : s.Chain' R := by
  obtain ⟨suf, rfl⟩ := hp
  exact (List.chain'_append.mp h).1

theorem emitRun_chain' (run : Str) : (emitRun run).Chain' NoWsPair := by
  unfold emitRun
  split
  · exact List.chain'_singleton _
  · match run with
    | [] => exact List.chain'_nil
    | [x] => exact List.chain'_singleton _
    | x :: y :: t => simp at *

theorem collapseGo_chain' :
    ∀ (l run : Str), (collapseGo run l).Chain' NoWsPair := by
  intro l
  induction l with
  | nil => intro run; exact emitRun_chain' run
  | cons c cs ih =>
      intro run
      by_cases hc : isWs c
      · simpa [collapseGo, hc] using ih (c :: run)
      · simp only [collapseGo, hc, Bool.false_eq_true, if_false]
        rw [List.chain'_append]
        refine ⟨emitRun_chain' run, ?_, ?_⟩
        · rw [List.chain'_cons']
          exact ⟨fun y _ => fun hcon => hc hcon.1, ih []⟩
        · intro x _ y hy
          simp only [List.head?_cons, Option.mem_def, Option.some.injEq] at hy
          subst hy
          exact fun hcon => hc hcon.2

theorem trimRight_pre (l : Str) : trimRight l <+: l := by
  unfold trimRight
  have h : l.reverse.dropWhile isWs <:+ l.reverse := List.dropWhile_suffix isWs
  refine List.reverse_suffix.mp ?_
  simpa using h

theorem canon_chain' (l : Str) : (canon l).Chain' NoWsPair := by
  unfold canon trimChars
  apply chain'_of_prefix _ (trimRight_pre _)
  exact chain'_of_suffix (collapseGo_chain' l []) (List.dropWhile_suffix isWs)

theorem head?_dropWhile_not (p : Char → Bool) :
    ∀ (l : Str) (c : Char), (l.dropWhile p).head? = some c → p c = false := by
  intro l
  induction l with
  | nil => intro c h; simp [List.dropWhile] at h
  | cons x xs ih =>
      intro c h
      by_cases hx : p x
      · rw [List.dropWhile_cons_of_pos hx] at h
        exact ih c h
      · rw [List.dropWhile_cons_of_neg hx] at h
        simp only [List.head?_cons, Option.some.injEq] at h
        subst h
        simpa using hx

theorem head?_of_prefix {l s : Str} {c : Char} (hp : s <+: l)
    (h : s.head? = some c) : l.head? = some c := by
  obtain ⟨t, rfl⟩ := hp
  cases s with
  | nil => simp at h
  | cons a as => simpa using h

/-- `canon` output has no leading or trailing whitespace. -/
def noEdgeWs (l : Str) : Bool :=
  l.head?.all (fun c => !isWs c) && l.getLast?.all (fun c => !isWs c)

theorem canon_noEdgeWs (l : Str) : noEdgeWs (canon l) = true := by
  unfold noEdgeWs
  rw [Bool.and_eq_true]
  constructor
  · cases hh : (canon l).head? with
    | none => rfl
    | some c =>
        have hd : ((collapseWs l).dropWhile isWs).head? = some c :=
          head?_of_prefix (trimRight_pre _) hh
        have := head?_dropWhile_not isWs (collapseWs l) c hd
        simp [this]
  · cases hh : (canon l).getLast? with
    | none => rfl
    | some c =>
        have : (canon l) = (((collapseWs l).dropWhile isWs).reverse.dropWhile
            isWs).reverse := rfl
        rw [this, List.getLast?_reverse] at hh
        have := head?_dropWhile_not isWs
          ((collapseWs l).dropWhile isWs).reverse c hh
        simp [this]

theorem canonS_chain' (s : String) : (canonS s).data.Chain' NoWsPair :=
  canon_chain' s.data

theorem canonS_noEdgeWs (s : String) : noEdgeWs (canonS s).data = true :=
  canon_noEdgeWs s.data

/-! ## Sentence-splitter equivalence (for claim C6)

The code splits on `/(?<=[.!?])\s+(?=[A-Z0-9("\"'\[])/` — the trigger
is a whitespace run with a lookbehind.  The claim words the same rule
from the terminal character: split exactly where `.`/`!`/`?` is
followed by whitespace and then an opener.  `specGo` is that
terminal-phase splitter; we prove both scanners agree. -/

/-- The claim-side splitter: cut right after a terminal character that
is followed by a (nonempty) whitespace run and then an opener; the run
is dropped. -/
def specGo (cur : Str) : Nat → Str → List Str
  | _, [] => [cur.reverse]
  | 0, c :: cs => [cur.reverse ++ c :: cs]
  | n + 1, c :: cs =>
    if isTerm c && !(cs.takeWhile isWs).isEmpty &&
        headIsOpener (cs.dropWhile isWs) then
      (c :: cur).reverse :: specGo [] n (cs.dropWhile isWs)
    else specGo (c :: cur) n cs

/-- A cut is pending: the previous character was terminal and the rest
starts with a whitespace run followed by an opener. -/
def pendingCut (prev : Option Char) (l : Str) : Bool :=
  prevIsTerm prev && !(l.takeWhile isWs).isEmpty &&
  headIsOpener (l.dropWhile isWs)

theorem isTerm_not_ws (c : Char) (h : isTerm c = true) : isWs c = false := by
  simp only [isTerm, Bool.or_eq_true, decide_eq_true_eq] at h
  rcases h with (h | h) | h <;> subst h <;> decide

theorem lengthDropWhile_le (p : Char → Bool) :
    ∀ (l : Str), (l.dropWhile p).length ≤ l.length := by
  intro l
  induction l with
  | nil => simp [List.dropWhile]
  | cons c cs ih =>
      by_cases h : p c
      · rw [List.dropWhile_cons_of_pos h]
        exact Nat.le_trans ih (Nat.le_succ _)
      · rw [List.dropWhile_cons_of_neg h]

theorem isWs_not_term (c : Char) (h : isWs c = true) : isTerm c = false := by
  cases ht : isTerm c with
  | false => rfl
  | true => rw [isTerm_not_ws c ht] at h; cases h

theorem splitGo_nil (prev : Option Char) (cur : Str) (n : Nat) :
    splitGo prev cur n [] = [cur.reverse] := by
  cases n <;> rfl

theorem splitGo_cons (prev : Option Char) (cur : Str) (n : Nat) (c : Char)
    (cs : Str) :
    splitGo prev cur (n + 1) (c :: cs) =
    (if isWs c && prevIsTerm prev &&
        headIsOpener ((c :: cs).dropWhile isWs) then
      cur.reverse :: splitGo (nextPrev prev ((c :: cs).takeWhile isWs)) [] n
        ((c :: cs).dropWhile isWs)
    else splitGo (some c) (c :: cur) n cs) := rfl

theorem specGo_nil (cur : Str) (n : Nat) : specGo cur n [] = [cur.reverse] := by
  cases n <;> rfl

theorem specGo_cons (cur : Str) (n : Nat) (c : Char) (cs : Str) :
    specGo cur (n + 1) (c :: cs) =
    (if isTerm c && !(cs.takeWhile isWs).isEmpty &&
        headIsOpener (cs.dropWhile isWs) then
      (c :: cur).reverse :: specGo [] n (cs.dropWhile isWs)
    else specGo (c :: cur) n cs) := rfl

theorem splitGo_fuel :
    ∀ (n m : Nat) (prev : Option Char) (cur l : Str), l.length ≤ n →
      l.length ≤ m → splitGo prev cur n l = splitGo prev cur m l := by
  intro n
  induction n with
  | zero =>
      intro m prev cur l hn _
      have : l = [] := List.length_eq_zero.mp (Nat.le_zero.mp hn)
      subst this
      cases m <;> rfl
  | succ n ih =>
      intro m prev cur l hn hm
      cases l with
      | nil => cases m <;> rfl
      | cons c cs =>
          cases m with
          | zero => exact absurd hm (by simp)
          | succ m =>
              have hn' : cs.length ≤ n := by
                simpa [Nat.succ_le_succ_iff] using hn
              have hm' : cs.length ≤ m := by
                simpa [Nat.succ_le_succ_iff] using hm
              rw [splitGo_cons, splitGo_cons]
              by_cases hc : (isWs c && prevIsTerm prev &&
                  headIsOpener ((c :: cs).dropWhile isWs)) = true
              · rw [if_pos hc, if_pos hc]
                have hwc : isWs c = true := by
                  revert hc
                  cases isWs c <;> simp
                have hdrop : ((c :: cs).dropWhile isWs).length ≤ n := by
                  rw [List.dropWhile_cons_of_pos hwc]
                  exact le_trans (lengthDropWhile_le isWs cs) hn'
                have hdrop' : ((c :: cs).dropWhile isWs).length ≤ m := by
                  rw [List.dropWhile_cons_of_pos hwc]
                  exact le_trans (lengthDropWhile_le isWs cs) hm'
                rw [ih m _ [] _ hdrop hdrop']
              · rw [if_neg hc, if_neg hc]
                exact ih m (some c) (c :: cur) cs hn' hm'

theorem specGo_fuel :
    ∀ (n m : Nat) (cur l : Str), l.length ≤ n → l.length ≤ m →
      specGo cur n l = specGo cur m l := by
  intro n
  induction n with
  | zero =>
      intro m cur l hn _
      have : l = [] := List.length_eq_zero.mp (Nat.le_zero.mp hn)
      subst this
      cases m <;> rfl
  | succ n ih =>
      intro m cur l hn hm
      cases l with
      | nil => cases m <;> rfl
      | cons c cs =>
          cases m with
          | zero => exact absurd hm (by simp)
          | succ m =>
              have hn' : cs.length ≤ n := by
                simpa [Nat.succ_le_succ_iff] using hn
              have hm' : cs.length ≤ m := by
                simpa [Nat.succ_le_succ_iff] using hm
              rw [specGo_cons, specGo_cons]
              by_cases hc : (isTerm c && !(cs.takeWhile isWs).isEmpty &&
                  headIsOpener (cs.dropWhile isWs)) = true
              · rw [if_pos hc, if_pos hc]
                have hdrop : (cs.dropWhile isWs).length ≤ n :=
                  le_trans (lengthDropWhile_le isWs cs) hn'
                have hdrop' : (cs.dropWhile isWs).length ≤ m :=
                  le_trans (lengthDropWhile_le isWs cs) hm'
                rw [ih m [] (cs.dropWhile isWs) hdrop hdrop']
              · rw [if_neg hc, if_neg hc]
                exact ih m (c :: cur) cs hn' hm'

theorem mem_takeWhile_sat (p : Char → Bool) :
    ∀ (l : Str) (x : Char), x ∈ l.takeWhile p → p x = true := by
  intro l
  induction l with
  | nil => intro x h; simp [List.takeWhile] at h
  | cons c cs ih =>
      intro x h
      by_cases hc : p c
      · rw [List.takeWhile_cons_of_pos hc] at h
        rcases List.mem_cons.mp h with h | h
        · subst h; exact hc
        · exact ih x h
      · rw [List.takeWhile_cons_of_neg hc] at h
        simp at h

/-- After skipping the whitespace run, the remembered `prev` is a
whitespace character, so no cut is pending at the resumed position. -/
theorem pendingCut_after_run (prev : Option Char) (w : Char) (cs2 rest : Str)
    (hw : isWs w = true) :
    pendingCut (nextPrev prev ((w :: cs2).takeWhile isWs)) rest = false := by
  have hrun : (w :: cs2).takeWhile isWs = w :: cs2.takeWhile isWs :=
    List.takeWhile_cons_of_pos hw
  have hne : (w :: cs2).takeWhile isWs ≠ [] := by rw [hrun]; simp
  have hlast := List.getLast?_eq_getLast _ hne
  have hmem := List.getLast_mem hne
  have hwsg : isWs (((w :: cs2).takeWhile isWs).getLast hne) = true :=
    mem_takeWhile_sat isWs (w :: cs2) _ hmem
  have htg : isTerm (((w :: cs2).takeWhile isWs).getLast hne) = false :=
    isWs_not_term _ hwsg
  unfold pendingCut nextPrev
  rw [hlast]
  simp [prevIsTerm, htg]

/-- The code's lookbehind splitter agrees with the claim-side
terminal-phase splitter whenever no cut is already pending (true in
particular at the start of the scan). -/
theorem splitGo_eq_specGo :
    ∀ (n : Nat) (l cur : Str) (prev : Option Char), l.length ≤ n →
      pendingCut prev l = false →
      splitGo prev cur n l = specGo cur n l := by
  intro n
  induction n with
  | zero =>
      intro l cur prev hn _
      have : l = [] := List.length_eq_zero.mp (Nat.le_zero.mp hn)
      subst this
      rw [splitGo_nil, specGo_nil]
  | succ n ih =>
      intro l cur prev hn hpend
      cases l with
      | nil => rw [splitGo_nil, specGo_nil]
      | cons c cs =>
          have hn' : cs.length ≤ n := by
            simpa [Nat.succ_le_succ_iff] using hn
          rw [splitGo_cons, specGo_cons]
          by_cases hterm : isTerm c = true
          · have hwsc : isWs c = false := isTerm_not_ws c hterm
            rw [if_neg (by simp [hwsc])]
            by_cases hspec : (isTerm c && !(cs.takeWhile isWs).isEmpty &&
                headIsOpener (cs.dropWhile isWs)) = true
            · rw [if_pos hspec]
              have hrun : !(cs.takeWhile isWs).isEmpty = true := by
                revert hspec; cases isTerm c <;>
                  cases (cs.takeWhile isWs).isEmpty <;>
                  cases headIsOpener (cs.dropWhile isWs) <;> simp
              have hop : headIsOpener (cs.dropWhile isWs) = true := by
                revert hspec; cases isTerm c <;>
                  cases (cs.takeWhile isWs).isEmpty <;>
                  cases headIsOpener (cs.dropWhile isWs) <;> simp
              cases cs with
              | nil => simp [List.takeWhile] at hrun
              | cons w cs2 =>
                  have hww : isWs w = true := by
                    by_cases hw : isWs w = true
                    · exact hw
                    · rw [List.takeWhile_cons_of_neg (by simp [hw])] at hrun
                      simp at hrun
                  cases n with
                  | zero => simp at hn'
                  | succ n2 =>
                      rw [splitGo_cons]
                      have hdw : (w :: cs2).dropWhile isWs =
                          cs2.dropWhile isWs := List.dropWhile_cons_of_pos hww
                      rw [if_pos (by
                        rw [hdw]
                        rw [hdw] at hop
                        simp [hww, prevIsTerm, hterm, hop])]
                      congr 1
                      have hlen : (cs2.dropWhile isWs).length ≤ n2 := by
                        have := lengthDropWhile_le isWs cs2
                        simp only [List.length_cons] at hn'
                        omega
                      rw [hdw]
                      rw [splitGo_fuel n2 (n2 + 1) _ [] _ hlen
                        (Nat.le_succ_of_le hlen)]
                      exact ih (cs2.dropWhile isWs) []
                        (nextPrev (some c) ((w :: cs2).takeWhile isWs))
                        (Nat.le_succ_of_le hlen)
                        (pendingCut_after_run (some c) w cs2
                          (cs2.dropWhile isWs) hww)
            · rw [if_neg hspec]
              refine ih cs (c :: cur) (some c) hn' ?_
              unfold pendingCut prevIsTerm
              exact Bool.eq_false_iff.mpr hspec
          · have htf : isTerm c = false := by
              cases h : isTerm c
              · rfl
              · exact absurd h hterm
            have hguard : (isWs c && prevIsTerm prev &&
                headIsOpener ((c :: cs).dropWhile isWs)) = false := by
              cases hw : isWs c with
              | false => simp
              | true =>
                  have h1 : ((c :: cs).takeWhile isWs).isEmpty = false := by
                    rw [List.takeWhile_cons_of_pos hw]
                    simp [List.isEmpty]
                  revert hpend
                  unfold pendingCut
                  rw [h1]
                  cases prevIsTerm prev <;>
                    cases headIsOpener ((c :: cs).dropWhile isWs) <;> simp
            rw [if_neg (by simp [hguard])]
            rw [if_neg (by simp [htf])]
            refine ih cs (c :: cur) (some c) hn' ?_
            unfold pendingCut prevIsTerm
            simp [htf]

/-- The claim-side sentence chunks of one cleaned page text. -/
def specChunks (txt : String) : List String :=
  ((specGo [] (cleanPageText txt).data.length (cleanPageText txt).data).map
    (fun c => trimS ⟨c⟩)).filter (fun s => s ≠ "")

/-- The Sentence Segmenter as worded by the claim: split each page's
cleaned text exactly after a terminal character followed by whitespace
and an opener; trim; discard empties; tag with the 1-indexed page. -/
def specSegmenter (pages : List String) : List Sentence :=
  (pages.enum).flatMap
    (fun pi => (specChunks pi.2).map (fun c => ⟨c, pi.1 + 1⟩))

/-! ## Token preservation (for claim C3)

The Fragment Grouper changes only whitespace: the maximal
non-whitespace runs (`tokens`) of its output, joined with separators,
are those of the input fragment texts. -/

theorem closeTok_append (tok : Str) (x y : List Str) :
    closeTok tok x ++ y = closeTok tok (x ++ y) := by
  unfold closeTok
  by_cases h : tok = []
  · simp [h]
  · simp [h]

/-- Consuming a nonempty all-whitespace prefix closes the pending
token. -/
theorem tokensGo_ws_append :
    ∀ (u : Str), u ≠ [] → (∀ c ∈ u, isWs c = true) →
      ∀ (m tok : Str), tokensGo tok (u ++ m) = closeTok tok (tokensGo [] m) := by
  intro u
  induction u with
  | nil => intro h; exact absurd rfl h
  | cons w u' ih =>
      intro _ hws m tok
      have hw : isWs w = true := hws w (List.mem_cons_self w u')
      cases u' with
      | nil => simp [tokensGo, hw]
      | cons w2 u2 =>
          have : tokensGo tok ((w :: w2 :: u2) ++ m) =
              closeTok tok (tokensGo [] ((w2 :: u2) ++ m)) := by
            simp [tokensGo, hw]
          rw [this, ih (by simp) (fun c hc => hws c (List.mem_cons_of_mem w hc))
            m []]
          rfl

theorem tokensGo_cons_of_ws (tok : Str) (c : Char) (cs : Str)
    (h : isWs c = true) :
    tokensGo tok (c :: cs) = closeTok tok (tokensGo [] cs) := by
  simp only [tokensGo, h, if_true]

theorem tokensGo_cons_of_not_ws (tok : Str) (c : Char) (cs : Str)
    (h : isWs c = false) :
    tokensGo tok (c :: cs) = tokensGo (c :: tok) cs := by
  simp only [tokensGo, h, Bool.false_eq_true, if_false]

/-- Appending a trailing all-whitespace run does not change the
tokens. -/
theorem tokensGo_append_ws :
    ∀ (m : Str) (u : Str), (∀ c ∈ u, isWs c = true) →
      ∀ (tok : Str), tokensGo tok (m ++ u) = tokensGo tok m := by
  intro m
  induction m with
  | nil =>
      intro u hws tok
      rcases u with _ | ⟨w, u'⟩
      · simp
      · have h1 := tokensGo_ws_append (w :: u') (by simp) hws [] tok
        rw [List.append_nil] at h1
        rw [List.nil_append, h1]
        rfl
  | cons c cs ih =>
      intro u hws tok
      rw [List.cons_append]
      cases hc : isWs c with
      | true =>
          rw [tokensGo_cons_of_ws tok c (cs ++ u) hc,
            tokensGo_cons_of_ws tok c cs hc, ih u hws []]
      | false =>
          rw [tokensGo_cons_of_not_ws tok c (cs ++ u) hc,
            tokensGo_cons_of_not_ws tok c cs hc, ih u hws (c :: tok)]

/-- Splitting at a single-space separator splits the tokens. -/
theorem tokensGo_sep_append :
    ∀ (a b tok : Str), tokensGo tok (a ++ ' ' :: b) =
      tokensGo tok a ++ tokens b := by
  intro a
  induction a with
  | nil =>
      intro b tok
      rw [List.nil_append, tokensGo_cons_of_ws tok ' ' b rfl]
      rw [show tokensGo tok [] = closeTok tok [] from rfl, closeTok_append]
      rfl
  | cons c cs ih =>
      intro b tok
      rw [List.cons_append]
      cases hc : isWs c with
      | true =>
          rw [tokensGo_cons_of_ws tok c (cs ++ ' ' :: b) hc,
            tokensGo_cons_of_ws tok c cs hc, ih b [], closeTok_append]
      | false =>
          rw [tokensGo_cons_of_not_ws tok c (cs ++ ' ' :: b) hc,
            tokensGo_cons_of_not_ws tok c cs hc, ih b (c :: tok)]

theorem tokens_sep_append (a b : Str) :
    tokens (a ++ ' ' :: b) = tokens a ++ tokens b :=
  tokensGo_sep_append a b []

theorem tokensGo_emitRun (run tok : Str)
    (hrun : ∀ c ∈ run, isWs c = true) :
    tokensGo tok (emitRun run) = tokensGo tok run.reverse := by
  unfold emitRun
  by_cases h2 : 2 ≤ run.length
  · rw [if_pos h2]
    have hne : run.reverse ≠ [] := by
      cases run with
      | nil => simp at h2
      | cons x xs => simp
    have hws' : ∀ c ∈ run.reverse, isWs c = true :=
      fun c hc => hrun c (List.mem_reverse.mp hc)
    have hsp : ∀ c ∈ ([' '] : Str), isWs c = true := by
      intro c hc
      simp at hc
      subst hc
      decide
    have e1 := tokensGo_ws_append [' '] (by simp) hsp [] tok
    have e2 := tokensGo_ws_append run.reverse hne hws' [] tok
    rw [List.append_nil] at e1 e2
    rw [e1, e2]
  · rw [if_neg h2]

/-- Whitespace collapsing preserves tokens (with a pending token and a
pending run folded in). -/
theorem tokensGo_collapseGo :
    ∀ (l run tok : Str), (∀ c ∈ run, isWs c = true) →
      tokensGo tok (collapseGo run l) = tokensGo tok (run.reverse ++ l) := by
  intro l
  induction l with
  | nil =>
      intro run tok hrun
      show tokensGo tok (emitRun run) = _
      rw [List.append_nil]
      exact tokensGo_emitRun run tok hrun
  | cons c cs ih =>
      intro run tok hrun
      cases hc : isWs c with
      | true =>
          rw [collapseGo_cons_of_ws run c cs hc]
          have hcr : ∀ x ∈ c :: run, isWs x = true := by
            intro x hx
            rcases List.mem_cons.mp hx with hx | hx
            · subst hx; exact hc
            · exact hrun x hx
          rw [ih (c :: run) tok hcr, List.reverse_cons, List.append_assoc,
            List.singleton_append]
      | false =>
          rw [collapseGo_cons_of_not_ws run c cs hc]
          by_cases hrnil : run = []
          · subst hrnil
            rw [show emitRun [] = [] from rfl, List.nil_append,
              List.reverse_nil, List.nil_append,
              tokensGo_cons_of_not_ws tok c _ hc,
              tokensGo_cons_of_not_ws tok c cs hc]
            have := ih [] (c :: tok) (by intro x hx; simp at hx)
            rw [List.reverse_nil, List.nil_append] at this
            exact this
          · have hne : emitRun run ≠ [] := by
              unfold emitRun
              by_cases h2 : 2 ≤ run.length
              · rw [if_pos h2]; simp
              · rw [if_neg h2]; simpa using hrnil
            have hws2 : ∀ x ∈ emitRun run, isWs x = true := by
              unfold emitRun
              by_cases h2 : 2 ≤ run.length
              · rw [if_pos h2]
                intro x hx
                simp at hx
                subst hx
                decide
              · rw [if_neg h2]
                intro x hx
                exact hrun x (List.mem_reverse.mp hx)
            have hne2 : run.reverse ≠ [] := by simpa using hrnil
            have hws3 : ∀ x ∈ run.reverse, isWs x = true :=
              fun x hx => hrun x (List.mem_reverse.mp hx)
            rw [tokensGo_ws_append (emitRun run) hne hws2
              (c :: collapseGo [] cs) tok,
              tokensGo_ws_append run.reverse hne2 hws3 (c :: cs) tok,
              tokensGo_cons_of_not_ws [] c _ hc,
              tokensGo_cons_of_not_ws [] c cs hc]
            have := ih [] [c] (by intro x hx; simp at hx)
            rw [List.reverse_nil, List.nil_append] at this
            rw [this]

theorem tokens_collapseWs (l : Str) : tokens (collapseWs l) = tokens l := by
  unfold tokens collapseWs
  rw [tokensGo_collapseGo l [] [] (by intro c hc; simp at hc)]
  rfl

theorem tokens_dropWhileWs (l : Str) :
    tokens (l.dropWhile isWs) = tokens l := by
  conv_rhs => rw [← List.takeWhile_append_dropWhile (p := isWs) (l := l)]
  cases ht : l.takeWhile isWs with
  | nil => simp
  | cons w u' =>
      unfold tokens
      rw [← ht, tokensGo_ws_append (l.takeWhile isWs) (by rw [ht]; simp)
        (fun c hc => mem_takeWhile_sat isWs l c hc) _ []]
      rfl

theorem tokens_trimRight (l : Str) : tokens (trimRight l) = tokens l := by
  have hdec : l = trimRight l ++ (l.reverse.takeWhile isWs).reverse := by
    unfold trimRight
    rw [← List.reverse_append, List.takeWhile_append_dropWhile,
      List.reverse_reverse]
  conv_rhs => rw [hdec]
  unfold tokens
  rw [tokensGo_append_ws (trimRight l) (l.reverse.takeWhile isWs).reverse
    (fun c hc => mem_takeWhile_sat isWs l.reverse c (List.mem_reverse.mp hc))
    []]

theorem tokens_canon (l : Str) : tokens (canon l) = tokens l := by
  unfold canon trimChars
  rw [tokens_trimRight, tokens_dropWhileWs, tokens_collapseWs]

theorem tokens_joinSep :
    ∀ (pieces : List Str),
      tokens (joinSep ' ' pieces) = (pieces.map tokens).flatten := by
  intro pieces
  induction pieces with
  | nil => rfl
  | cons x xs ih =>
      cases xs with
      | nil => simp [joinSep, tokens]
      | cons y ys =>
          show tokens (x ++ ' ' :: joinSep ' ' (y :: ys)) = _
          rw [tokens_sep_append, ih]
          rfl

/-! ## Fragment Grouper facts (for claim C3) -/

theorem groupGo_length :
    ∀ (fs : List Frag) (cy : Option ℚ) (buff : List String),
      (groupGo cy buff fs).length ≤
        fs.length + (if buff.isEmpty then 0 else 1) := by
  intro fs
  induction fs with
  | nil =>
      intro cy buff
      unfold groupGo
      by_cases h : buff.isEmpty
      · simp [h]
      · simp [h]
  | cons f fs ih =>
      intro cy buff
      cases cy with
      | none =>
          rw [groupGo_cons_none]
          have := ih (some f.y) (f.str :: buff)
          simp only [List.isEmpty_cons, Bool.false_eq_true, if_false] at this
          simp only [List.length_cons]
          split <;> omega
      | some cy =>
          rw [groupGo_cons_some]
          by_cases hnl : |f.y - cy| > 7 / 2
          · rw [if_pos hnl]
            by_cases hb : buff.isEmpty
            · rw [if_pos hb]
              have := ih (some f.y) [f.str]
              simp only [List.isEmpty_cons, Bool.false_eq_true, if_false]
                at this
              simp only [List.length_cons, hb, if_true]
              omega
            · rw [if_neg hb]
              have := ih (some f.y) [f.str]
              simp only [List.isEmpty_cons, Bool.false_eq_true, if_false]
                at this
              simp only [List.length_cons]
              rw [if_neg hb]
              omega
          · rw [if_neg hnl]
            have := ih (some cy) (f.str :: buff)
            simp only [List.isEmpty_cons, Bool.false_eq_true, if_false]
              at this
            simp only [List.length_cons]
            split <;> omega

theorem groupGo_flatten :
    ∀ (fs : List Frag) (cy : Option ℚ) (buff : List String),
      (groupGo cy buff fs).flatten = buff.reverse ++ fs.map Frag.str := by
  intro fs
  induction fs with
  | nil =>
      intro cy buff
      unfold groupGo
      by_cases h : buff.isEmpty
      · rw [if_pos h]
        have : buff = [] := by
          cases buff with
          | nil => rfl
          | cons x xs => simp [List.isEmpty] at h
        simp [this]
      · rw [if_neg h]
        simp
  | cons f fs ih =>
      intro cy buff
      cases cy with
      | none =>
          rw [groupGo_cons_none, ih (some f.y) (f.str :: buff)]
          simp
      | some cy =>
          rw [groupGo_cons_some]
          by_cases hnl : |f.y - cy| > 7 / 2
          · rw [if_pos hnl]
            by_cases hb : buff.isEmpty
            · rw [if_pos hb]
              have hbe : buff = [] := by
                cases buff with
                | nil => rfl
                | cons x xs => simp [List.isEmpty] at hb
              rw [ih (some f.y) [f.str]]
              simp [hbe]
            · rw [if_neg hb]
              rw [List.flatten_cons, ih (some f.y) [f.str]]
              simp
          · rw [if_neg hnl, ih (some cy) (f.str :: buff)]
            simp

theorem flatten_map_flatten {α β : Type} (L : List (List α)) (g : α → List β) :
    (L.map (fun b => (b.map g).flatten)).flatten = (L.flatten.map g).flatten := by
  induction L with
  | nil => rfl
  | cons b bs ih => simp [ih]

/-! # Claim theorems -/

/-- Claim C7 (confirmed): with the math-mode flag off, the text passed
onward for speech is exactly the original sentence text. -/
theorem C7_mode_off_identity : ∀ raw : String, speechText false raw = raw :=
  fun _ => rfl

/-- Claim C9 (confirmed): when extraction fails — the decoder cannot
parse the bytes, or a page fetch throws — the single error message is
set and the published sentences and per-page texts are unchanged. -/
theorem C9_failure_preserves_results (st : AppState) (name : String)
    (doc : Except Unit (List (Except Unit (List Frag))))
    (h : extractFails doc) :
    (extractTextFromPdf st name doc).sentences = st.sentences ∧
    (extractTextFromPdf st name doc).textByPage = st.textByPage ∧
    (extractTextFromPdf st name doc).error = some errMsg := by
  cases doc with
  | error e => simp [extractTextFromPdf]
  | ok pages =>
      have hall : allPages pages = none := h
      simp [extractTextFromPdf, hall]

/-- Witness for C9: a concrete failing document leaves concrete
previous results untouched. -/
theorem C9_witness :
    (extractTextFromPdf
      ⟨"old.pdf", 2, ["old page"], [⟨"Old.", 1⟩], 0, false, none⟩
      "new.pdf" (.ok [.ok [⟨"Hi.", 0⟩], .error ()])).sentences
        = [⟨"Old.", 1⟩] ∧
    (extractTextFromPdf
      ⟨"old.pdf", 2, ["old page"], [⟨"Old.", 1⟩], 0, false, none⟩
      "new.pdf" (.ok [.ok [⟨"Hi.", 0⟩], .error ()])).textByPage
        = ["old page"] ∧
    (extractTextFromPdf
      ⟨"old.pdf", 2, ["old page"], [⟨"Old.", 1⟩], 0, false, none⟩
      "new.pdf" (.ok [.ok [⟨"Hi.", 0⟩], .error ()])).error = some errMsg := by
  have h := C9_failure_preserves_results
    ⟨"old.pdf", 2, ["old page"], [⟨"Old.", 1⟩], 0, false, none⟩
    "new.pdf" (.ok [.ok [⟨"Hi.", 0⟩], .error ()]) (by rfl)
  exact h

/-- Claim C5 as stated is false: with the gate failing, the returned
text is not always the input-after-superscript-rewrite: the final
unconditional `replace(/\s{2,}/g, " ").trim()` also applies.  Concrete
counterexample: `"a  b"` (no superscripts, gate fails) comes back with
its double space collapsed. -/
theorem C5_counterexample :
    looksMathy (supRewrite "a  b") = false ∧
    supRewrite "a  b" = "a  b" ∧
    normalizeForSpeech "a  b" = "a b" := by
  refine ⟨by decide, by decide, by decide⟩

/-- Claim C5 (amended): for every text failing the gate, the Math
Normalizer returns the superscript-rewritten text after only
whitespace collapsing and trimming. -/
theorem C5_gate_failure_bypass (s : String)
    (h : looksMathy (supRewrite s) = false) :
    normalizeForSpeech s = canonS (supRewrite s) := by
  simp only [normalizeForSpeech, h, Bool.false_eq_true, if_false]

/-- Witness for C5: `"The cat sat."` fails the gate and is returned
unchanged. -/
theorem C5_witness :
    looksMathy (supRewrite "The cat sat.") = false ∧
    normalizeForSpeech "The cat sat." = "The cat sat." := by
  refine ⟨by decide, ?_⟩
  rw [C5_gate_failure_bypass "The cat sat." (by decide)]
  decide

/-- Claim C1 as stated is false: the `freq` map counts occurrences
across all pages, not distinct pages.  In this 4-page document the line
`"X"` occurs twice on page 1 only — one distinct page, below the
threshold `max(2, floor(4 * 0.5)) = 2` — yet it is dropped, because its
occurrence count is 2. -/
theorem C1_counterexample :
    junkAny "X" = false ∧
    distinctPageCount [["X", "X"], ["A"], ["B"], ["C"]] "X" = 1 ∧
    chromeThreshold 4 = 2 ∧
    "X" ∈ [["X", "X"], ["A"], ["B"], ["C"]].getD 0 [] ∧
    "X" ∉ keptLines [["X", "X"], ["A"], ["B"], ["C"]] 0 := by
  refine ⟨by decide, by decide, by decide, by decide, by decide⟩

/-- Claim C1 (amended): for a line matching no junk pattern, the Chrome
Filter drops it from every page on which it occurs exactly when its
total occurrence count across all pages reaches
`max(2, floor(pageCount * 0.5))`. -/
theorem C1_chrome_frequency (pages : List (List String)) (line : String)
    (p : Nat) (hjunk : junkAny line = false) :
    line ∈ keptLines pages p ↔
      line ∈ pages.getD p [] ∧
        countOcc pages line < chromeThreshold pages.length := by
  simp only [keptLines, keepLine, List.mem_filter, isChrome, hjunk,
    Bool.not_false, Bool.and_true, Bool.not_eq_eq_eq_not, Bool.not_true,
    decide_eq_false_iff_not, Nat.not_le]

/-- Claim C10 (confirmed): in both gate branches, the Math Normalizer
output has no run of two or more consecutive whitespace characters and
no leading or trailing whitespace — the final
`replace(/\s{2,}/g, " ").trim()` guarantees both. -/
theorem C10_normalizer_whitespace (s : String) :
    (normalizeForSpeech s).data.Chain' NoWsPair ∧
    noEdgeWs (normalizeForSpeech s).data = true := by
  have he : ∃ u, normalizeForSpeech s = canonS u := by
    rcases Bool.eq_false_or_eq_true (looksMathy (supRewrite s)) with h | h
    · refine ⟨mathyChain (supRewrite s), ?_⟩
      show (if looksMathy (supRewrite s) = true
          then canonS (mathyChain (supRewrite s))
          else canonS (supRewrite s)) = canonS (mathyChain (supRewrite s))
      exact if_pos h
    · refine ⟨supRewrite s, ?_⟩
      show (if looksMathy (supRewrite s) = true
          then canonS (mathyChain (supRewrite s))
          else canonS (supRewrite s)) = canonS (supRewrite s)
      exact if_neg (fun hc => by rw [h] at hc; exact Bool.false_ne_true hc)
  obtain ⟨u, e⟩ := he
  rw [e]
  exact ⟨canonS_chain' u, canonS_noEdgeWs u⟩

/-- Claim C6 (confirmed): the Sentence Segmenter splits each page's
cleaned text exactly at positions where `.`, `!` or `?` is followed by
whitespace and then an uppercase letter, digit, opening quote, or
opening bracket (trimming chunks, discarding empty ones, pages in
order); in particular the single-page input
`"Hello world. This is Test!"` yields exactly the two sentences
`"Hello world."` and `"This is Test!"` tagged page 1. -/
theorem C6_sentence_segmenter :
    (∀ pages : List String, buildSentences pages = specSegmenter pages) ∧
    buildSentences ["Hello world. This is Test!"] =
      [⟨"Hello world.", 1⟩, ⟨"This is Test!", 1⟩] := by
  constructor
  · intro pages
    unfold buildSentences specSegmenter
    congr 1
    funext pi
    congr 1
    unfold pageChunks specChunks
    rw [splitGo_eq_specGo (cleanPageText pi.2).data.length
      (cleanPageText pi.2).data [] none (Nat.le_refl _) rfl]
  · decide

/-- Witness for C1: in a 4-page document, a non-junk line occurring on
pages 1, 2, 3 is removed from all of them, and a non-junk line occurring
once is retained. -/
theorem C1_witness :
    "Header" ∉
      keptLines [["Header", "Body"], ["Header"], ["Header"], ["Tail"]] 0 ∧
    "Body" ∈
      keptLines [["Header", "Body"], ["Header"], ["Header"], ["Tail"]] 0 := by
  constructor
  · intro hmem
    have h := (C1_chrome_frequency
      [["Header", "Body"], ["Header"], ["Header"], ["Tail"]] "Header" 0
      (by decide)).mp hmem
    revert h; decide
  · exact (C1_chrome_frequency
      [["Header", "Body"], ["Header"], ["Header"], ["Tail"]] "Body" 0
      (by decide)).mpr (by decide)

/-- Claim C3 (confirmed): for every ordered list of positioned fragments
of one page, the Fragment Grouper produces at most as many line texts as
input fragments, and joining the output line texts in order has exactly
the same whitespace-separated token stream as joining the input fragment
texts in order — the concatenation reproduces the input texts changed only
by whitespace normalization (single-space joining, run collapsing,
trimming). -/
theorem C3_fragment_grouper :
    ∀ frags : List Frag,
      (groupRaws frags).length ≤ frags.length ∧
      tokens (joinSep ' ' ((groupRaws frags).map String.data)) =
        tokens (joinSep ' ' (frags.map (fun f => f.str.data))) := by
  intro frags
  constructor
  · have h := groupGo_length frags none []
    simpa [groupRaws, groupBuffs] using h
  · rw [tokens_joinSep, tokens_joinSep]
    have hL : (groupRaws frags).map String.data =
        (groupBuffs frags).map
          (fun b => canon (joinSep ' ' (b.map String.data))) := by
      simp only [groupRaws, List.map_map]
      rfl
    rw [hL, List.map_map]
    have hfun : (tokens ∘ fun b : List String =>
        canon (joinSep ' ' (List.map String.data b))) =
        fun b : List String =>
          (b.map (fun s => tokens s.data)).flatten := by
      funext b
      show tokens (canon (joinSep ' ' (b.map String.data))) = _
      rw [tokens_canon, tokens_joinSep, List.map_map]
      rfl
    rw [hfun, flatten_map_flatten (groupBuffs frags)
      (fun s => tokens s.data)]
    have hfl : (groupBuffs frags).flatten = frags.map Frag.str := by
      have h := groupGo_flatten frags none []
      simpa [groupBuffs] using h
    rw [hfl, List.map_map, List.map_map]
    rfl

/-- Claim C4 as stated is false: the claim's superscript-only class
includes every Unicode superscript digit glyph, but the code's glyph
alternative `/^[²³⁴⁵⁶⁷⁸⁹]$/` omits `⁰` and `¹`; the line `"¹"` after a
line ending in a letter satisfies the claim's merge condition yet is
passed through unmerged. -/
theorem C4_counterexample :
    claimIsSupLine "¹" = true ∧ claimEndsOk "x" = true ∧
    mergeSuperscriptLines ["x", "¹"] = ["x", "¹"] := by decide

/-- Claim C4 (amended): with the superscript-glyph alternative restricted
to `²`–`⁹` (the set the regex recognizes; a single ASCII digit with
optional caret is still accepted), the Superscript Line Merger is exactly
the claim-worded left-to-right merger: a line is merged into the
immediately preceding output line exactly when its trimmed text is a
single optional-caret ASCII digit or a single glyph in `²`–`⁹` and the
preceding output line's trimmed text ends in a letter or a closing
parenthesis; the merge concatenates the superscript glyph (mapping an
ASCII digit to its superscript form first), and every other line passes
through unchanged in order. -/
theorem C4_superscript_merger :
    ∀ lines : List String, mergeSuperscriptLines lines = claimMerge lines :=
  fun lines => mergeAux_eq_foldl lines []

/-- Claim C8 (confirmed): applying the Superscript Line Merger to its own
output yields that output again. A merge appends a superscript glyph after
the accepting letter or closing parenthesis, so a merged line is never
itself superscript-only, and every line the merger keeps separate from its
predecessor was kept because the merge condition failed — the output has
no mergeable adjacent pair, on which the merger is the identity. -/
theorem C8_merger_idempotent :
    ∀ lines : List String,
      mergeSuperscriptLines (mergeSuperscriptLines lines) =
        mergeSuperscriptLines lines := by
  intro lines
  have hch := mergeAux_chain lines [] List.chain'_nil
  show mergeAux [] (mergeAux [] lines) = mergeAux [] lines
  rw [mergeAux_id (mergeAux [] lines) [] ?_ hch]
  · rfl
  · intro p c hp hc
    exact absurd hp (by simp)

/-! ## Artifact Repairer per-step idempotence (claim C2) -/

theorem dashChar_idem (c : Char) : dashChar (dashChar c) = dashChar c := by
  by_cases h : (c = '−' || c = '–' || c = '—') = true
  · have h1 : dashChar c = '-' := by simp [dashChar, h]
    rw [h1]
    decide
  · have h2 : (c = '−' || c = '–' || c = '—') = false := by
      revert h; cases (c = '−' || c = '–' || c = '—') <;> simp
    have h1 : dashChar c = c := by simp [dashChar, h2]
    simp only [h1]

theorem fixDashes_idem (s : String) : fixDashes (fixDashes s) = fixDashes s := by
  apply congrArg String.mk
  show (s.data.map dashChar).map dashChar = s.data.map dashChar
  rw [List.map_map]
  exact List.map_congr_left (fun c _ => dashChar_idem c)

theorem vulgarRepl_inert (c d : Char) (hd : d ∈ vulgarRepl c) :
    vulgarRepl d = [d] := by
  by_cases h1 : c = '¼'
  · subst h1
    rw [show vulgarRepl '¼' = ['1', '/', '4'] from by decide] at hd
    simp only [List.mem_cons, List.not_mem_nil, or_false] at hd
    rcases hd with rfl | rfl | rfl <;> decide
  ·
    by_cases h2 : c = '½'
    · subst h2
      rw [show vulgarRepl '½' = ['1', '/', '2'] from by decide] at hd
      simp only [List.mem_cons, List.not_mem_nil, or_false] at hd
      rcases hd with rfl | rfl | rfl <;> decide
    ·
      by_cases h3 : c = '¾'
      · subst h3
        rw [show vulgarRepl '¾' = ['3', '/', '4'] from by decide] at hd
        simp only [List.mem_cons, List.not_mem_nil, or_false] at hd
        rcases hd with rfl | rfl | rfl <;> decide
      ·
        by_cases h4 : c = '⅓'
        · subst h4
          rw [show vulgarRepl '⅓' = ['1', '/', '3'] from by decide] at hd
          simp only [List.mem_cons, List.not_mem_nil, or_false] at hd
          rcases hd with rfl | rfl | rfl <;> decide
        ·
          by_cases h5 : c = '⅔'
          · subst h5
            rw [show vulgarRepl '⅔' = ['2', '/', '3'] from by decide] at hd
            simp only [List.mem_cons, List.not_mem_nil, or_false] at hd
            rcases hd with rfl | rfl | rfl <;> decide
          ·
            by_cases h6 : c = '⅕'
            · subst h6
              rw [show vulgarRepl '⅕' = ['1', '/', '5'] from by decide] at hd
              simp only [List.mem_cons, List.not_mem_nil, or_false] at hd
              rcases hd with rfl | rfl | rfl <;> decide
            ·
              by_cases h7 : c = '⅖'
              · subst h7
                rw [show vulgarRepl '⅖' = ['2', '/', '5'] from by decide] at hd
                simp only [List.mem_cons, List.not_mem_nil, or_false] at hd
                rcases hd with rfl | rfl | rfl <;> decide
              ·
                by_cases h8 : c = '⅗'
                · subst h8
                  rw [show vulgarRepl '⅗' = ['3', '/', '5'] from by decide] at hd
                  simp only [List.mem_cons, List.not_mem_nil, or_false] at hd
                  rcases hd with rfl | rfl | rfl <;> decide
                ·
                  by_cases h9 : c = '⅘'
                  · subst h9
                    rw [show vulgarRepl '⅘' = ['4', '/', '5'] from by decide] at hd
                    simp only [List.mem_cons, List.not_mem_nil, or_false] at hd
                    rcases hd with rfl | rfl | rfl <;> decide
                  ·
                    by_cases h10 : c = '⅙'
                    · subst h10
                      rw [show vulgarRepl '⅙' = ['1', '/', '6'] from by decide] at hd
                      simp only [List.mem_cons, List.not_mem_nil, or_false] at hd
                      rcases hd with rfl | rfl | rfl <;> decide
                    ·
                      by_cases h11 : c = '⅚'
                      · subst h11
                        rw [show vulgarRepl '⅚' = ['5', '/', '6'] from by decide] at hd
                        simp only [List.mem_cons, List.not_mem_nil, or_false] at hd
                        rcases hd with rfl | rfl | rfl <;> decide
                      ·
                        by_cases h12 : c = '⅛'
                        · subst h12
                          rw [show vulgarRepl '⅛' = ['1', '/', '8'] from by decide] at hd
                          simp only [List.mem_cons, List.not_mem_nil, or_false] at hd
                          rcases hd with rfl | rfl | rfl <;> decide
                        ·
                          by_cases h13 : c = '⅜'
                          · subst h13
                            rw [show vulgarRepl '⅜' = ['3', '/', '8'] from by decide] at hd
                            simp only [List.mem_cons, List.not_mem_nil, or_false] at hd
                            rcases hd with rfl | rfl | rfl <;> decide
                          ·
                            by_cases h14 : c = '⅝'
                            · subst h14
                              rw [show vulgarRepl '⅝' = ['5', '/', '8'] from by decide] at hd
                              simp only [List.mem_cons, List.not_mem_nil, or_false] at hd
                              rcases hd with rfl | rfl | rfl <;> decide
                            ·
                              by_cases h15 : c = '⅞'
                              · subst h15
                                rw [show vulgarRepl '⅞' = ['7', '/', '8'] from by decide] at hd
                                simp only [List.mem_cons, List.not_mem_nil, or_false] at hd
                                rcases hd with rfl | rfl | rfl <;> decide
                              ·
                               have he : vulgarRepl c = [c] := by
                                 unfold vulgarRepl
                                 rw [if_neg h1, if_neg h2, if_neg h3, if_neg h4, if_neg h5, if_neg h6, if_neg h7, if_neg h8, if_neg h9, if_neg h10, if_neg h11, if_neg h12, if_neg h13, if_neg h14, if_neg h15]
                               rw [he] at hd
                               simp only [List.mem_singleton] at hd
                               subst hd
                               exact he

theorem flatMap_vulgar_fix (m : Str) (h : ∀ d ∈ m, vulgarRepl d = [d]) :
    m.flatMap vulgarRepl = m := by
  induction m with
  | nil => rfl
  | cons x xs ih =>
      rw [List.flatMap_cons, h x (by simp),
        ih (fun d hd => h d (by simp [hd]))]
      rfl

theorem fixVulgar_idem (s : String) : fixVulgar (fixVulgar s) = fixVulgar s := by
  apply congrArg String.mk
  show (s.data.flatMap vulgarRepl).flatMap vulgarRepl =
    s.data.flatMap vulgarRepl
  apply flatMap_vulgar_fix
  intro d hd
  rw [List.mem_flatMap] at hd
  obtain ⟨c, _, hdc⟩ := hd
  exact vulgarRepl_inert c d hdc

/-! ### `minusCloseStep` idempotence -/

theorem mc_nil (p : Option Char) : minusCloseTry p [] = none := rfl

theorem mc_nonalpha (p : Option Char) (c : Char) (cs : Str)
    (h : isAlpha c = false) : minusCloseTry p (c :: cs) = none := by
  simp only [minusCloseTry, h, Bool.false_eq_true, if_false]

theorem bool_false_of_ne_true {b : Bool} (h : ¬ b = true) : b = false := by
  revert h; cases b <;> simp

/-- Body of `minusCloseTry` with the head test passed, stated with the
intermediate scans exposed. -/
theorem mc_eq (p : Option Char) (c : Char) (cs : Str)
    (ha : isAlpha c = true) :
    minusCloseTry p (c :: cs) =
    (if (cs.takeWhile isWs).isEmpty then none else
     if ((cs.dropWhile isWs).takeWhile isDigit).isEmpty then none else
     match (cs.dropWhile isWs).dropWhile isDigit with
     | h1 :: _ =>
         if h1 = ')' then
           some (c :: ' ' :: '-' :: ' ' ::
               ((cs.dropWhile isWs).takeWhile isDigit) ++ [')'],
             1 + (cs.takeWhile isWs).length +
               ((cs.dropWhile isWs).takeWhile isDigit).length + 1)
         else none
     | [] => none) := by
  simp only [minusCloseTry, ha, if_true]

theorem mc_ws_empty (p : Option Char) (c : Char) (cs : Str)
    (hws : cs.takeWhile isWs = []) : minusCloseTry p (c :: cs) = none := by
  by_cases ha : isAlpha c = true
  · rw [mc_eq p c cs ha, hws]
    rfl
  · exact mc_nonalpha p c cs (bool_false_of_ne_true ha)

theorem mc_fail_digit (p : Option Char) (c : Char) (ws r : Str)
    (hws : ws ≠ []) (hallw : ∀ x ∈ ws, isWs x = true)
    (hheadr : ∀ y, r.head? = some y → isWs y = false)
    (hd : r.takeWhile isDigit = []) :
    minusCloseTry p (c :: (ws ++ r)) = none := by
  by_cases ha : isAlpha c = true
  · rw [mc_eq p c _ ha]
    obtain ⟨ht, hdrop⟩ := takeWhile_append_stop isWs ws r hallw hheadr
    rw [ht, hdrop, hd, isEmpty_false_of_ne ws hws]
    rfl
  · exact mc_nonalpha p c _ (bool_false_of_ne_true ha)

theorem mc_fail_close (p : Option Char) (c : Char) (ws d r : Str)
    (hws : ws ≠ []) (hallw : ∀ x ∈ ws, isWs x = true)
    (hd : d ≠ []) (halld : ∀ x ∈ d, isDigit x = true)
    (hheadr : ∀ y, r.head? = some y → isDigit y = false ∧ y ≠ ')') :
    minusCloseTry p (c :: (ws ++ (d ++ r))) = none := by
  by_cases ha : isAlpha c = true
  · rw [mc_eq p c _ ha]
    have hheadw : ∀ y, (d ++ r).head? = some y → isWs y = false := by
      intro y hy
      cases d with
      | nil => exact absurd rfl hd
      | cons d0 d2 =>
          have hde : d0 = y := by simpa using hy
          subst hde
          exact isDigit_not_ws d0 (halld d0 (by simp))
    obtain ⟨ht, hdrop⟩ := takeWhile_append_stop isWs ws (d ++ r) hallw hheadw
    rw [ht, hdrop]
    obtain ⟨ht2, hdrop2⟩ := takeWhile_append_stop isDigit d r halld
      (fun y hy => (hheadr y hy).1)
    rw [ht2, hdrop2, isEmpty_false_of_ne ws hws, isEmpty_false_of_ne d hd]
    cases hr : r with
    | nil => rfl
    | cons y ys =>
        have hy := hheadr y (by rw [hr]; rfl)
        simp only [Bool.false_eq_true, if_false]
        rw [if_neg hy.2]
  · exact mc_nonalpha p c _ (bool_false_of_ne_true ha)

/-- A list whose `isEmpty` is not `true` is nonempty. -/
theorem ne_nil_of_not_isEmpty (l : Str) (h : ¬ l.isEmpty = true) :
    l ≠ [] := by
  intro hcon
  rw [hcon] at h
  exact h rfl

/-- Inversion of a successful `minusCloseTry` match. -/
theorem mc_inv (p : Option Char) (c : Char) (cs rep : Str) (k : Nat)
    (h : minusCloseTry p (c :: cs) = some (rep, k)) :
    isAlpha c = true ∧
    ∃ ws d r2, ws ≠ [] ∧ d ≠ [] ∧
      (∀ x ∈ ws, isWs x = true) ∧ (∀ x ∈ d, isDigit x = true) ∧
      cs = ws ++ (d ++ ')' :: r2) ∧
      rep = c :: ' ' :: '-' :: ' ' :: d ++ [')'] := by
  by_cases ha : isAlpha c = true
  · rw [mc_eq p c cs ha] at h
    by_cases hA : (cs.takeWhile isWs).isEmpty = true
    · rw [if_pos hA] at h; cases h
    rw [if_neg hA] at h
    by_cases hB : ((cs.dropWhile isWs).takeWhile isDigit).isEmpty = true
    · rw [if_pos hB] at h; cases h
    rw [if_neg hB] at h
    split at h
    · rename_i h1 t hC
      by_cases h1c : h1 = ')'
      · rw [if_pos h1c] at h
        subst h1c
        simp only [Option.some.injEq, Prod.mk.injEq] at h
        obtain ⟨hrep, hk⟩ := h
        refine ⟨ha, cs.takeWhile isWs,
          (cs.dropWhile isWs).takeWhile isDigit, t,
          ne_nil_of_not_isEmpty _ hA, ne_nil_of_not_isEmpty _ hB,
          fun x hx => mem_takeWhile_sat isWs cs x hx,
          fun x hx => mem_takeWhile_sat isDigit _ x hx, ?_, hrep.symm⟩
        rw [← hC, List.takeWhile_append_dropWhile,
          List.takeWhile_append_dropWhile]
      · rw [if_neg h1c] at h; cases h
    · cases h
  · rw [mc_nonalpha p c cs (bool_false_of_ne_true ha)] at h
    cases h

theorem mc_head : ∀ (p : Option Char) (c : Char) (cs rep : Str) (k : Nat),
    minusCloseTry p (c :: cs) = some (rep, k) → rep.head? = some c := by
  intro p c cs rep k h
  obtain ⟨-, ws, d, r2, -, -, -, -, -, hrep⟩ := mc_inv p c cs rep k h
  rw [hrep]
  rfl

/-- Forward matching form of `minusCloseTry`. -/
theorem mc_match (p : Option Char) (c : Char) (ws d t : Str)
    (ha : isAlpha c = true) (hws : ws ≠ [])
    (hallw : ∀ x ∈ ws, isWs x = true) (hd : d ≠ [])
    (halld : ∀ x ∈ d, isDigit x = true) :
    minusCloseTry p (c :: (ws ++ (d ++ ')' :: t))) =
    some (c :: ' ' :: '-' :: ' ' :: d ++ [')'],
      1 + ws.length + d.length + 1) := by
  rw [mc_eq p c _ ha]
  have hheadw : ∀ y, (d ++ ')' :: t).head? = some y → isWs y = false := by
    intro y hy
    cases d with
    | nil => exact absurd rfl hd
    | cons d0 d2 =>
        have hde : d0 = y := by simpa using hy
        subst hde
        exact isDigit_not_ws d0 (halld d0 (by simp))
  obtain ⟨ht, hdrop⟩ := takeWhile_append_stop isWs ws (d ++ ')' :: t)
    hallw hheadw
  rw [ht, hdrop]
  obtain ⟨ht2, hdrop2⟩ := takeWhile_append_stop isDigit d (')' :: t) halld
    (fun y hy => by
      have hye : y = ')' := by simpa using hy.symm
      subst hye
      decide)
  rw [ht2, hdrop2, isEmpty_false_of_ne ws hws, isEmpty_false_of_ne d hd]
  simp

/-- Failure of `minusCloseTry` persists onto the rescanned tail. -/
theorem mc_persist (p : Option Char) (c : Char) (cs : Str)
    (h : minusCloseTry p (c :: cs) = none) :
    minusCloseTry p (c :: runList minusCloseTry (some c) cs) = none := by
  by_cases ha : isAlpha c = true
  case neg => exact mc_nonalpha _ _ _ (bool_false_of_ne_true ha)
  case pos =>
  by_cases hws : cs.takeWhile isWs = []
  · apply mc_ws_empty
    apply takeWhile_nil_of_head
    intro y hy
    rw [runList_head minusCloseTry mc_head] at hy
    exact head_of_takeWhile_nil isWs cs hws y hy
  · have hsplit : cs = cs.takeWhile isWs ++ cs.dropWhile isWs :=
      (List.takeWhile_append_dropWhile isWs cs).symm
    have hcopy1 : runList minusCloseTry (some c) cs =
        cs.takeWhile isWs ++
          runList minusCloseTry (lastOf (some c) (cs.takeWhile isWs))
            (cs.dropWhile isWs) := by
      conv_lhs => rw [hsplit]
      apply runList_copy
      intro a x t hx
      have hmem : x ∈ cs.takeWhile isWs := suffix_head_mem _ a t x hx
      exact mc_nonalpha _ _ _
        (isWs_not_alpha x (mem_takeWhile_sat isWs cs x hmem))
    by_cases hd : (cs.dropWhile isWs).takeWhile isDigit = []
    · rw [hcopy1]
      apply mc_fail_digit p c _ _ hws
        (fun x hx => mem_takeWhile_sat isWs cs x hx)
      · intro y hy
        rw [runList_head minusCloseTry mc_head] at hy
        exact head?_dropWhile_not isWs cs y hy
      · apply takeWhile_nil_of_head
        intro y hy
        rw [runList_head minusCloseTry mc_head] at hy
        exact head_of_takeWhile_nil isDigit _ hd y hy
    · have hsplit2 : cs.dropWhile isWs =
          (cs.dropWhile isWs).takeWhile isDigit ++
            (cs.dropWhile isWs).dropWhile isDigit :=
        (List.takeWhile_append_dropWhile isDigit _).symm
      have hcopy2 : runList minusCloseTry
            (lastOf (some c) (cs.takeWhile isWs)) (cs.dropWhile isWs) =
          (cs.dropWhile isWs).takeWhile isDigit ++
            runList minusCloseTry
              (lastOf (lastOf (some c) (cs.takeWhile isWs))
                ((cs.dropWhile isWs).takeWhile isDigit))
              ((cs.dropWhile isWs).dropWhile isDigit) := by
        conv_lhs => rw [hsplit2]
        apply runList_copy
        intro a x t hx
        have hmem : x ∈ (cs.dropWhile isWs).takeWhile isDigit :=
          suffix_head_mem _ a t x hx
        exact mc_nonalpha _ _ _
          (isDigit_not_alpha x (mem_takeWhile_sat isDigit _ x hmem))
      rw [hcopy1, hcopy2]
      apply mc_fail_close p c _ _ _ hws
        (fun x hx => mem_takeWhile_sat isWs cs x hx) hd
        (fun x hx => mem_takeWhile_sat isDigit _ x hx)
      intro y hy
      rw [runList_head minusCloseTry mc_head] at hy
      refine ⟨head?_dropWhile_not isDigit _ y hy, ?_⟩
      intro hclose
      subst hclose
      cases hr2 : (cs.dropWhile isWs).dropWhile isDigit with
      | nil => rw [hr2] at hy; cases hy
      | cons z zs =>
          rw [hr2] at hy
          have hz : z = ')' := by simpa using hy
          subst hz
          have hmatch := mc_match p c (cs.takeWhile isWs)
            ((cs.dropWhile isWs).takeWhile isDigit) zs ha hws
            (fun x hx => mem_takeWhile_sat isWs cs x hx) hd
            (fun x hx => mem_takeWhile_sat isDigit _ x hx)
          rw [show cs.takeWhile isWs ++
              ((cs.dropWhile isWs).takeWhile isDigit ++ ')' :: zs) = cs by
            rw [← hr2, ← hsplit2, ← hsplit]] at hmatch
          rw [hmatch] at h
          cases h

/-- No match can start strictly inside (or at) a `minusCloseTry`
replacement, whatever follows it. -/
theorem mc_rep_suffix (p2 : Option Char) (c : Char) (d y : Str)
    (halld : ∀ x ∈ d, isDigit x = true) :
    ∀ a t, (c :: ' ' :: '-' :: ' ' :: d ++ [')']) = a ++ t → t ≠ [] →
      minusCloseTry (lastOf p2 a) (t ++ y) = none := by
  intro a t hsplit htne
  cases a with
  | nil =>
      simp only [List.nil_append] at hsplit
      subst hsplit
      show minusCloseTry (lastOf p2 [])
        (c :: ([' '] ++ ('-' :: ' ' :: d ++ [')'] ++ y))) = none
      apply mc_fail_digit _ c [' '] _ (by simp) (by decide)
      · intro z hz
        have hze : '-' = z := by simpa using hz
        subst hze
        decide
      · apply takeWhile_nil_of_head
        intro z hz
        have hze : '-' = z := by simpa using hz
        subst hze
        decide
  | cons a0 a2 =>
      cases t with
      | nil => exact absurd rfl htne
      | cons t0 t2 =>
          have hinj := hsplit
          rw [List.cons_append] at hinj
          have htail : ' ' :: '-' :: ' ' :: d ++ [')'] = a2 ++ t0 :: t2 := by
            injection hinj
          have hmem : t0 ∈ (' ' :: '-' :: ' ' :: d ++ [')']) :=
            suffix_head_mem _ a2 t2 t0 htail
          have hna : isAlpha t0 = false := by
            by_cases hdd : t0 ∈ d
            · exact isDigit_not_alpha t0 (halld t0 hdd)
            · have hor : t0 = ' ' ∨ t0 = '-' ∨ t0 = ')' := by
                simp only [List.mem_cons, List.mem_append,
                  List.mem_singleton] at hmem
                tauto
              rcases hor with rfl | rfl | rfl <;> decide
          exact mc_nonalpha _ _ _ hna

/-- The output of one `minusCloseTry` pass is match-free. -/
theorem mc_out_mf : ∀ (n : Nat) (l : Str) (p : Option Char), l.length ≤ n →
    MatchFree minusCloseTry p (runList minusCloseTry p l) := by
  intro n
  induction n with
  | zero =>
      intro l p hl
      have hnil : l = [] := List.length_eq_zero.mp (Nat.le_zero.mp hl)
      subst hnil
      exact matchFree_nil _ p mc_nil
  | succ n ih =>
      intro l p hl
      cases l with
      | nil => exact matchFree_nil _ p mc_nil
      | cons c cs =>
          cases hR : minusCloseTry p (c :: cs) with
          | none =>
              rw [runList_cons_none _ _ _ _ hR]
              apply matchFree_cons
              · exact mc_persist p c cs hR
              · exact ih cs (some c)
                  (by simpa [Nat.succ_le_succ_iff] using hl)
          | some rk =>
              obtain ⟨rep, k⟩ := rk
              rw [runList_cons_some _ _ _ _ rep k hR]
              obtain ⟨ha, ws, d, r2, hwsne, hdne, hallw, halld, hcs, hrep⟩ :=
                mc_inv p c cs rep k hR
              apply matchFree_append
              · rw [hrep]
                intro a t hsplit htne
                exact mc_rep_suffix p c d _ halld a t hsplit htne
              · have hlen : ((c :: cs).drop (max k 1)).length ≤ n := by
                  simp only [List.length_drop, List.length_cons]
                  have hcl : cs.length ≤ n := by
                    simpa [Nat.succ_le_succ_iff] using hl
                  omega
                exact matchFree_of_prevFree minusCloseTry
                  (fun _ _ _ => rfl) _ _ _
                  (ih ((c :: cs).drop (max k 1))
                    (nextPrev p ((c :: cs).take (max k 1))) hlen)

theorem minusCloseStep_idem (s : String) :
    minusCloseStep (minusCloseStep s) = minusCloseStep s := by
  apply runRule_idem
  intro l
  exact mc_out_mf l.length l none (Nat.le_refl _)

/-! ### `caretPowStep` idempotence -/

theorem supChar_extra (d : Char) (h : isDigit d = true) :
    supChar d ≠ Char.ofNat 94 ∧ isAlpha (supChar d) = false ∧
    isWord (supChar d) = false := by
  rcases digit_enum d h with h | h | h | h | h | h | h | h | h | h <;>
    (subst h; exact ⟨by decide, by decide, by decide⟩)

theorem cp_nil (p : Option Char) : caretPowTry p [] = none := rfl

theorem cp_nonalpha (p : Option Char) (c : Char) (cs : Str)
    (h : isAlpha c = false) : caretPowTry p (c :: cs) = none := by
  simp only [caretPowTry, h, Bool.false_eq_true, if_false]

theorem cp_eq (p : Option Char) (c : Char) (cs : Str)
    (ha : isAlpha c = true) :
    caretPowTry p (c :: cs) =
    (match cs.dropWhile isWs with
     | h1 :: r2 =>
        if h1 = '^' then
          match r2.dropWhile isWs with
          | d :: r4 =>
            if isDigit d && !headIsWord r4 then
              some ([c, supChar d], 1 + (cs.takeWhile isWs).length + 1 +
                (r2.takeWhile isWs).length + 1)
            else none
          | [] => none
        else none
     | [] => none) := by
  simp only [caretPowTry, ha, if_true]

/-- Inversion of a successful `caretPowTry` match. -/
theorem cp_inv (p : Option Char) (c : Char) (cs rep : Str) (k : Nat)
    (h : caretPowTry p (c :: cs) = some (rep, k)) :
    isAlpha c = true ∧
    ∃ ws1 ws2 d r4,
      (∀ x ∈ ws1, isWs x = true) ∧ (∀ x ∈ ws2, isWs x = true) ∧
      isDigit d = true ∧ headIsWord r4 = false ∧
      cs = ws1 ++ '^' :: (ws2 ++ d :: r4) ∧
      rep = [c, supChar d] := by
  by_cases ha : isAlpha c = true
  · rw [cp_eq p c cs ha] at h
    split at h
    · rename_i h1 r2 hC
      by_cases h1c : h1 = '^'
      · rw [if_pos h1c] at h
        subst h1c
        split at h
        · rename_i d r4 hC2
          by_cases hcond : (isDigit d && !headIsWord r4) = true
          · rw [if_pos hcond] at h
            simp only [Option.some.injEq, Prod.mk.injEq] at h
            obtain ⟨hrep, hk⟩ := h
            have hdig : isDigit d = true := by
              revert hcond; cases isDigit d <;> simp
            have hw : headIsWord r4 = false := by
              revert hcond
              cases headIsWord r4 <;> cases isDigit d <;> simp
            refine ⟨ha, cs.takeWhile isWs, r2.takeWhile isWs, d, r4,
              fun x hx => mem_takeWhile_sat isWs cs x hx,
              fun x hx => mem_takeWhile_sat isWs r2 x hx,
              hdig, hw, ?_, hrep.symm⟩
            rw [← hC2, List.takeWhile_append_dropWhile, ← hC,
              List.takeWhile_append_dropWhile]
          · rw [if_neg hcond] at h; cases h
        · cases h
      · rw [if_neg h1c] at h; cases h
    · cases h
  · rw [cp_nonalpha p c cs (bool_false_of_ne_true ha)] at h
    cases h

theorem cp_head : ∀ (p : Option Char) (c : Char) (cs rep : Str) (k : Nat),
    caretPowTry p (c :: cs) = some (rep, k) → rep.head? = some c := by
  intro p c cs rep k h
  obtain ⟨-, ws1, ws2, d, r4, -, -, -, -, -, hrep⟩ := cp_inv p c cs rep k h
  rw [hrep]
  rfl

/-- Failure forward form: after the whitespace the head is not a
caret. -/
theorem cp_fail_caret (p : Option Char) (c : Char) (ws1 r : Str)
    (hallw : ∀ x ∈ ws1, isWs x = true)
    (hheadr : ∀ y, r.head? = some y → isWs y = false ∧ y ≠ Char.ofNat 94) :
    caretPowTry p (c :: (ws1 ++ r)) = none := by
  by_cases ha : isAlpha c = true
  · rw [cp_eq p c _ ha]
    obtain ⟨ht, hdrop⟩ := takeWhile_append_stop isWs ws1 r hallw
      (fun y hy => (hheadr y hy).1)
    cases r with
    | nil => rw [hdrop]
    | cons y ys =>
        have hy := hheadr y rfl
        simp only [hdrop]
        rw [if_neg hy.2]
  · exact cp_nonalpha p c _ (bool_false_of_ne_true ha)

/-- Failure forward form: after the caret and whitespace the head is not
a digit (or the input ends). -/
theorem cp_fail_notdigit (p : Option Char) (c : Char) (ws1 ws2 r : Str)
    (hallw1 : ∀ x ∈ ws1, isWs x = true)
    (hallw2 : ∀ x ∈ ws2, isWs x = true)
    (hheadr : ∀ y, r.head? = some y → isWs y = false ∧ isDigit y = false) :
    caretPowTry p (c :: (ws1 ++ '^' :: (ws2 ++ r))) = none := by
  by_cases ha : isAlpha c = true
  · rw [cp_eq p c _ ha]
    obtain ⟨ht, hdrop⟩ := takeWhile_append_stop isWs ws1 ('^' :: (ws2 ++ r))
      hallw1 (fun y hy => by
        have hye : '^' = y := by simpa using hy
        subst hye
        decide)
    obtain ⟨ht2, hdrop2⟩ := takeWhile_append_stop isWs ws2 r hallw2
      (fun y hy => (hheadr y hy).1)
    simp only [hdrop, if_true]
    cases r with
    | nil => rw [hdrop2]
    | cons y ys =>
        have hy := hheadr y rfl
        simp only [hdrop2]
        rw [hy.2]
        rfl
  · exact cp_nonalpha p c _ (bool_false_of_ne_true ha)

/-- Failure forward form: the digit is followed by a word character. -/
theorem cp_fail_word (p : Option Char) (c : Char) (ws1 ws2 r : Str)
    (d : Char) (hallw1 : ∀ x ∈ ws1, isWs x = true)
    (hallw2 : ∀ x ∈ ws2, isWs x = true) (hd : isDigit d = true)
    (hheadr : ∀ y, r.head? = some y → isWord y = true) (hne : r ≠ []) :
    caretPowTry p (c :: (ws1 ++ '^' :: (ws2 ++ d :: r))) = none := by
  by_cases ha : isAlpha c = true
  · rw [cp_eq p c _ ha]
    obtain ⟨ht, hdrop⟩ := takeWhile_append_stop isWs ws1
      ('^' :: (ws2 ++ d :: r)) hallw1 (fun y hy => by
        have hye : '^' = y := by simpa using hy
        subst hye
        decide)
    obtain ⟨ht2, hdrop2⟩ := takeWhile_append_stop isWs ws2 (d :: r) hallw2
      (fun y hy => by
        have hye : d = y := by simpa using hy
        subst hye
        exact isDigit_not_ws d hd)
    simp only [hdrop, if_true]
    cases r with
    | nil => exact absurd rfl hne
    | cons y ys =>
        have hy := hheadr y rfl
        have hword : headIsWord (y :: ys) = true := by
          simp [headIsWord, hy]
        simp [hdrop2, hd, hword]
  · exact cp_nonalpha p c _ (bool_false_of_ne_true ha)

theorem cp_persist (p : Option Char) (c : Char) (cs : Str)
    (h : caretPowTry p (c :: cs) = none) :
    caretPowTry p (c :: runList caretPowTry (some c) cs) = none := by
  by_cases ha : isAlpha c = true
  case neg => exact cp_nonalpha _ _ _ (bool_false_of_ne_true ha)
  case pos =>
  have hns : ∀ (p2 : Option Char) (c2 : Char) (cs2 : Str),
      isAlpha c2 = false → caretPowTry p2 (c2 :: cs2) = none :=
    fun p2 c2 cs2 hh => cp_nonalpha p2 c2 cs2 hh
  cases hC : cs.dropWhile isWs with
  | nil =>
      have hall := List.dropWhile_eq_nil_iff.mp hC
      rw [runList_id_of caretPowTry isAlpha hns cs (some c)
        (fun x hx => isWs_not_alpha x (hall x hx))]
      exact h
  | cons h1 r2 =>
      have hsplit : cs = cs.takeWhile isWs ++ h1 :: r2 := by
        conv_lhs => rw [← List.takeWhile_append_dropWhile isWs cs]
        rw [hC]
      have h1ws : isWs h1 = false :=
        head?_dropWhile_not isWs cs h1 (by rw [hC]; rfl)
      by_cases hcaret : h1 = Char.ofNat 94
      · subst hcaret
        cases hC2 : r2.dropWhile isWs with
        | nil =>
            have hallr2 := List.dropWhile_eq_nil_iff.mp hC2
            have hallcs : ∀ x ∈ cs, isAlpha x = false := by
              intro x hx
              rw [hsplit] at hx
              simp only [List.mem_append, List.mem_cons] at hx
              rcases hx with hx | hx | hx
              · exact isWs_not_alpha x (mem_takeWhile_sat isWs cs x hx)
              · subst hx; decide
              · exact isWs_not_alpha x (hallr2 x hx)
            rw [runList_id_of caretPowTry isAlpha hns cs (some c) hallcs]
            exact h
        | cons d r4 =>
            have hr2split : r2 = r2.takeWhile isWs ++ d :: r4 := by
              conv_lhs => rw [← List.takeWhile_append_dropWhile isWs r2]
              rw [hC2]
            have hdws : isWs d = false :=
              head?_dropWhile_not isWs r2 d (by rw [hC2]; rfl)
            have hcs2 : cs = (cs.takeWhile isWs ++
                Char.ofNat 94 :: r2.takeWhile isWs) ++ (d :: r4) := by
              conv_lhs => rw [hsplit, hr2split]
              simp [List.append_assoc]
            have hcond : (isDigit d && !headIsWord r4) = false := by
              by_contra hcon
              have hcond2 : (isDigit d && !headIsWord r4) = true := by
                revert hcon
                cases (isDigit d && !headIsWord r4) <;> simp
              rw [cp_eq p c cs ha] at h
              simp only [hC, if_true] at h
              simp only [hC2, hcond2, if_true] at h
              cases h
            have hu : ∀ x ∈ cs.takeWhile isWs ++
                Char.ofNat 94 :: r2.takeWhile isWs, isAlpha x = false := by
              intro x hx
              rcases List.mem_append.mp hx with hx2 | hx2
              · exact isWs_not_alpha x (mem_takeWhile_sat isWs cs x hx2)
              · rcases List.mem_cons.mp hx2 with rfl | hx3
                · decide
                · exact isWs_not_alpha x (mem_takeWhile_sat isWs r2 x hx3)
            by_cases hdig : isDigit d = true
            · have hw : headIsWord r4 = true := by
                revert hcond
                rw [hdig]
                cases headIsWord r4 <;> simp
              cases r4 with
              | nil => simp [headIsWord] at hw
              | cons w r5 =>
                  have hword : isWord w = true := by
                    simpa [headIsWord] using hw
                  have hcs3 : cs = (cs.takeWhile isWs ++
                      Char.ofNat 94 :: (r2.takeWhile isWs ++ [d])) ++
                      (w :: r5) := by
                    conv_lhs => rw [hcs2]
                    simp [List.append_assoc]
                  have hu2 : ∀ x ∈ cs.takeWhile isWs ++
                      Char.ofNat 94 :: (r2.takeWhile isWs ++ [d]),
                      isAlpha x = false := by
                    intro x hx
                    rcases List.mem_append.mp hx with hx2 | hx2
                    · exact isWs_not_alpha x
                        (mem_takeWhile_sat isWs cs x hx2)
                    · rcases List.mem_cons.mp hx2 with rfl | hx3
                      · decide
                      · rcases List.mem_append.mp hx3 with hx4 | hx4
                        · exact isWs_not_alpha x
                            (mem_takeWhile_sat isWs r2 x hx4)
                        · have hxd : x = d := by simpa using hx4
                          rw [hxd]
                          exact isDigit_not_alpha d hdig
                  have hout : runList caretPowTry (some c) cs =
                      (cs.takeWhile isWs ++ Char.ofNat 94 ::
                        (r2.takeWhile isWs ++ [d])) ++
                      runList caretPowTry
                        (lastOf (some c) (cs.takeWhile isWs ++
                          Char.ofNat 94 :: (r2.takeWhile isWs ++ [d])))
                        (w :: r5) := by
                    conv_lhs => rw [hcs3]
                    exact runList_copy_of caretPowTry isAlpha hns _
                      (some c) _ hu2
                  rw [hout]
                  have hshape : cs.takeWhile isWs ++
                      Char.ofNat 94 :: (r2.takeWhile isWs ++ [d]) ++
                      runList caretPowTry
                        (lastOf (some c) (cs.takeWhile isWs ++
                          Char.ofNat 94 :: (r2.takeWhile isWs ++ [d])))
                        (w :: r5) =
                      cs.takeWhile isWs ++ Char.ofNat 94 ::
                        (r2.takeWhile isWs ++ d ::
                          runList caretPowTry
                            (lastOf (some c) (cs.takeWhile isWs ++
                              Char.ofNat 94 ::
                                (r2.takeWhile isWs ++ [d])))
                            (w :: r5)) := by
                    simp [List.append_assoc]
                  rw [hshape]
                  apply cp_fail_word p c _ _ _ d
                    (fun x hx => mem_takeWhile_sat isWs cs x hx)
                    (fun x hx => mem_takeWhile_sat isWs r2 x hx) hdig
                  · intro y hy
                    rw [runList_head caretPowTry cp_head] at hy
                    have hyw : w = y := by simpa using hy
                    subst hyw
                    exact hword
                  · intro hcon
                    have hh := runList_head caretPowTry cp_head
                      (lastOf (some c) (cs.takeWhile isWs ++
                        Char.ofNat 94 :: (r2.takeWhile isWs ++ [d])))
                      (w :: r5)
                    rw [hcon] at hh
                    simp at hh
            · have hdig2 : isDigit d = false := bool_false_of_ne_true hdig
              have hout : runList caretPowTry (some c) cs =
                  (cs.takeWhile isWs ++
                    Char.ofNat 94 :: r2.takeWhile isWs) ++
                  runList caretPowTry
                    (lastOf (some c) (cs.takeWhile isWs ++
                      Char.ofNat 94 :: r2.takeWhile isWs)) (d :: r4) := by
                conv_lhs => rw [hcs2]
                exact runList_copy_of caretPowTry isAlpha hns _
                  (some c) _ hu
              rw [hout]
              have hshape : cs.takeWhile isWs ++
                  Char.ofNat 94 :: r2.takeWhile isWs ++
                  runList caretPowTry
                    (lastOf (some c) (cs.takeWhile isWs ++
                      Char.ofNat 94 :: r2.takeWhile isWs)) (d :: r4) =
                  cs.takeWhile isWs ++ Char.ofNat 94 ::
                    (r2.takeWhile isWs ++
                      runList caretPowTry
                        (lastOf (some c) (cs.takeWhile isWs ++
                          Char.ofNat 94 :: r2.takeWhile isWs))
                        (d :: r4)) := by
                simp [List.append_assoc]
              rw [hshape]
              apply cp_fail_notdigit p c _ _ _
                (fun x hx => mem_takeWhile_sat isWs cs x hx)
                (fun x hx => mem_takeWhile_sat isWs r2 x hx)
              intro y hy
              rw [runList_head caretPowTry cp_head] at hy
              have hyd : d = y := by simpa using hy
              subst hyd
              exact ⟨hdws, hdig2⟩
      · have hout : runList caretPowTry (some c) cs =
            cs.takeWhile isWs ++
            runList caretPowTry (lastOf (some c) (cs.takeWhile isWs))
              (h1 :: r2) := by
          conv_lhs => rw [hsplit]
          exact runList_copy_of caretPowTry isAlpha hns _ (some c) _
            (fun x hx => isWs_not_alpha x (mem_takeWhile_sat isWs cs x hx))
        rw [hout]
        apply cp_fail_caret p c _ _
          (fun x hx => mem_takeWhile_sat isWs cs x hx)
        intro y hy
        rw [runList_head caretPowTry cp_head] at hy
        have hy1 : h1 = y := by simpa using hy
        subst hy1
        exact ⟨h1ws, hcaret⟩

/-- No match can start inside (or at) a `caretPowTry` replacement. -/
theorem cp_rep_suffix (p2 : Option Char) (c d : Char) (y : Str)
    (hd : isDigit d = true) :
    ∀ a t, ([c, supChar d] : Str) = a ++ t → t ≠ [] →
      caretPowTry (lastOf p2 a) (t ++ y) = none := by
  intro a t hsplit htne
  obtain ⟨hcaret, halpha, hword⟩ := supChar_extra d hd
  have hsup_ws : isWs (supChar d) = false := (supChar_props d hd).2
  cases a with
  | nil =>
      simp only [List.nil_append] at hsplit
      subst hsplit
      show caretPowTry (lastOf p2 [])
        (c :: ([] ++ (supChar d :: y))) = none
      apply cp_fail_caret _ c [] _ (by simp)
      intro z hz
      have hze : supChar d = z := by simpa using hz
      subst hze
      exact ⟨hsup_ws, hcaret⟩
  | cons a0 a2 =>
      cases t with
      | nil => exact absurd rfl htne
      | cons t0 t2 =>
          have htail : [supChar d] = a2 ++ t0 :: t2 := by
            rw [List.cons_append] at hsplit
            injection hsplit
          have hmem : t0 ∈ ([supChar d] : Str) :=
            suffix_head_mem _ a2 t2 t0 htail
          have ht0 : t0 = supChar d := by simpa using hmem
          subst ht0
          exact cp_nonalpha _ _ _ halpha

/-- The output of one `caretPowTry` pass is match-free. -/
theorem cp_out_mf : ∀ (n : Nat) (l : Str) (p : Option Char), l.length ≤ n →
    MatchFree caretPowTry p (runList caretPowTry p l) := by
  intro n
  induction n with
  | zero =>
      intro l p hl
      have hnil : l = [] := List.length_eq_zero.mp (Nat.le_zero.mp hl)
      subst hnil
      exact matchFree_nil _ p cp_nil
  | succ n ih =>
      intro l p hl
      cases l with
      | nil => exact matchFree_nil _ p cp_nil
      | cons c cs =>
          cases hR : caretPowTry p (c :: cs) with
          | none =>
              rw [runList_cons_none _ _ _ _ hR]
              apply matchFree_cons
              · exact cp_persist p c cs hR
              · exact ih cs (some c)
                  (by simpa [Nat.succ_le_succ_iff] using hl)
          | some rk =>
              obtain ⟨rep, k⟩ := rk
              rw [runList_cons_some _ _ _ _ rep k hR]
              obtain ⟨ha, ws1, ws2, d, r4, hw1, hw2, hdig, hwd, hcs, hrep⟩ :=
                cp_inv p c cs rep k hR
              apply matchFree_append
              · rw [hrep]
                intro a t hsplit htne
                exact cp_rep_suffix p c d _ hdig a t hsplit htne
              · have hlen : ((c :: cs).drop (max k 1)).length ≤ n := by
                  simp only [List.length_drop, List.length_cons]
                  have hcl : cs.length ≤ n := by
                    simpa [Nat.succ_le_succ_iff] using hl
                  omega
                exact matchFree_of_prevFree caretPowTry
                  (fun _ _ _ => rfl) _ _ _
                  (ih ((c :: cs).drop (max k 1))
                    (nextPrev p ((c :: cs).take (max k 1))) hlen)

theorem caretPowStep_idem (s : String) :
    caretPowStep (caretPowStep s) = caretPowStep s := by
  apply runRule_idem
  intro l
  exact cp_out_mf l.length l none (Nat.le_refl _)

/-! ### `parenPowStep` idempotence -/

theorem supChar_paren (d : Char) (h : isDigit d = true) :
    supChar d ≠ '(' ∧ supChar d ≠ ')' := by
  rcases digit_enum d h with h | h | h | h | h | h | h | h | h | h <;>
    (subst h; exact ⟨by decide, by decide⟩)

theorem pp_nil (p : Option Char) : parenPowTry p [] = none := rfl

theorem pp_nonopen (p : Option Char) (c : Char) (cs : Str)
    (h : c ≠ '(') : parenPowTry p (c :: cs) = none := by
  simp only [parenPowTry, if_neg h]

theorem pp_eq (p : Option Char) (cs : Str) :
    parenPowTry p ('(' :: cs) =
    (if (cs.takeWhile (· ≠ ')')).isEmpty then none else
     match cs.dropWhile (· ≠ ')') with
     | h1 :: r2 =>
        if h1 = ')' then
          match r2.dropWhile isWs with
          | d :: r4 =>
            if isDigit d && !headIsWord r4 then
              some ('(' :: cs.takeWhile (· ≠ ')') ++ ')' :: [supChar d],
                1 + (cs.takeWhile (· ≠ ')')).length + 1 +
                  (r2.takeWhile isWs).length + 1)
            else none
          | [] => none
        else none
     | [] => none) := by
  simp only [parenPowTry, if_true]

theorem pp_fail_gempty (p : Option Char) (cs : Str)
    (hg : cs.takeWhile (· ≠ ')') = []) :
    parenPowTry p ('(' :: cs) = none := by
  rw [pp_eq, hg]
  rfl

theorem pp_fail_noclose (p : Option Char) (cs : Str)
    (hnc : cs.dropWhile (· ≠ ')') = []) :
    parenPowTry p ('(' :: cs) = none := by
  rw [pp_eq, hnc]
  by_cases hb : (cs.takeWhile (· ≠ ')')).isEmpty = true
  · rw [if_pos hb]
  · rw [if_neg hb]

/-- Tail failure: after the close paren and whitespace the head is not a
digit (or the input ends). `g` may be empty. -/
theorem pp_fail_notdigit (p : Option Char) (g ws r : Str)
    (hg : ∀ x ∈ g, x ≠ ')') (hallw : ∀ x ∈ ws, isWs x = true)
    (hheadr : ∀ y, r.head? = some y → isWs y = false ∧ isDigit y = false) :
    parenPowTry p ('(' :: (g ++ ')' :: (ws ++ r))) = none := by
  rw [pp_eq]
  obtain ⟨ht, hdrop⟩ := takeWhile_append_stop (· ≠ ')') g
    (')' :: (ws ++ r)) (fun x hx => by simpa using hg x hx)
    (fun y hy => by
      have hye : ')' = y := by simpa using hy
      subst hye
      simp)
  obtain ⟨ht2, hdrop2⟩ := takeWhile_append_stop isWs ws r hallw
    (fun y hy => (hheadr y hy).1)
  by_cases hge : (List.takeWhile (fun x => decide ¬x = ')')
      (g ++ ')' :: (ws ++ r))).isEmpty = true
  · rw [if_pos hge]
  · rw [if_neg hge]
    simp only [hdrop, if_true]
    cases r with
    | nil => simp only [hdrop2]
    | cons y ys =>
        have hy := hheadr y rfl
        simp [hdrop2, hy.2]

/-- Tail failure: the digit after the close paren is followed by a word
character. `g` may be empty. -/
theorem pp_fail_word (p : Option Char) (g ws r : Str) (d : Char)
    (hg : ∀ x ∈ g, x ≠ ')') (hallw : ∀ x ∈ ws, isWs x = true)
    (hd : isDigit d = true)
    (hheadr : ∀ y, r.head? = some y → isWord y = true) (hne : r ≠ []) :
    parenPowTry p ('(' :: (g ++ ')' :: (ws ++ d :: r))) = none := by
  rw [pp_eq]
  obtain ⟨ht, hdrop⟩ := takeWhile_append_stop (· ≠ ')') g
    (')' :: (ws ++ d :: r)) (fun x hx => by simpa using hg x hx)
    (fun y hy => by
      have hye : ')' = y := by simpa using hy
      subst hye
      simp)
  obtain ⟨ht2, hdrop2⟩ := takeWhile_append_stop isWs ws (d :: r) hallw
    (fun y hy => by
      have hye : d = y := by simpa using hy
      subst hye
      exact isDigit_not_ws d hd)
  by_cases hge : (List.takeWhile (fun x => decide ¬x = ')')
      (g ++ ')' :: (ws ++ d :: r))).isEmpty = true
  · rw [if_pos hge]
  · rw [if_neg hge]
    simp only [hdrop, if_true]
    simp only [hdrop2]
    cases r with
    | nil => exact absurd rfl hne
    | cons y ys =>
        have hy := hheadr y rfl
        have hword : headIsWord (y :: ys) = true := by
          simp [headIsWord, hy]
        rw [hd, hword]
        rfl

/-- Inversion of a successful `parenPowTry` match. -/
theorem pp_inv (p : Option Char) (c : Char) (cs rep : Str) (k : Nat)
    (h : parenPowTry p (c :: cs) = some (rep, k)) :
    c = '(' ∧
    ∃ g ws d r4, g ≠ [] ∧ (∀ x ∈ g, x ≠ ')') ∧
      (∀ x ∈ ws, isWs x = true) ∧ isDigit d = true ∧
      headIsWord r4 = false ∧
      cs = g ++ ')' :: (ws ++ d :: r4) ∧
      rep = '(' :: g ++ ')' :: [supChar d] := by
  by_cases hopen : c = '('
  · subst hopen
    rw [pp_eq] at h
    by_cases hge : (cs.takeWhile (· ≠ ')')).isEmpty = true
    · rw [if_pos hge] at h; cases h
    rw [if_neg hge] at h
    split at h
    · rename_i h1 r2 hC
      by_cases h1c : h1 = ')'
      · rw [if_pos h1c] at h
        subst h1c
        split at h
        · rename_i d r4 hC2
          by_cases hcond : (isDigit d && !headIsWord r4) = true
          · rw [if_pos hcond] at h
            simp only [Option.some.injEq, Prod.mk.injEq] at h
            obtain ⟨hrep, hk⟩ := h
            have hdig : isDigit d = true := by
              revert hcond; cases isDigit d <;> simp
            have hw : headIsWord r4 = false := by
              revert hcond
              cases headIsWord r4 <;> cases isDigit d <;> simp
            refine ⟨rfl, cs.takeWhile (· ≠ ')'), r2.takeWhile isWs, d, r4,
              ne_nil_of_not_isEmpty _ hge, ?_,
              fun x hx => mem_takeWhile_sat isWs r2 x hx, hdig, hw, ?_,
              hrep.symm⟩
            · intro x hx
              have := mem_takeWhile_sat (· ≠ ')') cs x hx
              simpa using this
            · rw [← hC2, List.takeWhile_append_dropWhile, ← hC,
                List.takeWhile_append_dropWhile]
          · rw [if_neg hcond] at h; cases h
        · cases h
      · rw [if_neg h1c] at h; cases h
    · cases h
  · rw [pp_nonopen p c cs hopen] at h
    cases h

theorem pp_head : ∀ (p : Option Char) (c : Char) (cs rep : Str) (k : Nat),
    parenPowTry p (c :: cs) = some (rep, k) → rep.head? = some c := by
  intro p c cs rep k h
  obtain ⟨hc, g, ws, d, r4, -, -, -, -, -, -, hrep⟩ := pp_inv p c cs rep k h
  rw [hrep, hc]
  rfl

theorem pp_persist (p : Option Char) (c : Char) (cs : Str)
    (h : parenPowTry p (c :: cs) = none) :
    parenPowTry p (c :: runList parenPowTry (some c) cs) = none := by
  by_cases hopen : c = '('
  case neg => exact pp_nonopen _ _ _ hopen
  case pos =>
  subst hopen
  by_cases hg : cs.takeWhile (· ≠ ')') = []
  · apply pp_fail_gempty
    apply takeWhile_nil_of_head
    intro y hy
    rw [runList_head parenPowTry pp_head] at hy
    exact head_of_takeWhile_nil _ cs hg y hy
  · cases hC : cs.dropWhile (· ≠ ')') with
    | nil =>
        have hnc : ∀ y ∈ cs, y ≠ ')' := by
          intro y hy
          have := List.dropWhile_eq_nil_iff.mp hC y hy
          simpa using this
        have hmf : MatchFree parenPowTry (some '(') cs := by
          intro a t hat
          cases t with
          | nil => exact pp_nil _
          | cons x t2 =>
              by_cases hx : x = '('
              · subst hx
                apply pp_fail_noclose
                rw [List.dropWhile_eq_nil_iff]
                intro y hy
                have hyc : y ∈ cs := by
                  rw [hat]
                  simp [hy]
                simpa using hnc y hyc
              · exact pp_nonopen _ _ _ hx
        rw [runList_id_of_matchFree _ _ _ hmf]
        exact h
    | cons h1 r2 =>
        have h1c : h1 = ')' := by
          have := head?_dropWhile_not (· ≠ ')') cs h1 (by rw [hC]; rfl)
          simpa using this
        subst h1c
        have hsplit : cs = cs.takeWhile (· ≠ ')') ++ ')' :: r2 := by
          conv_lhs => rw [← List.takeWhile_append_dropWhile (· ≠ ')') cs]
          rw [hC]
        have hgnc : ∀ x ∈ cs.takeWhile (· ≠ ')'), x ≠ ')' := by
          intro x hx
          have := mem_takeWhile_sat (· ≠ ')') cs x hx
          simpa using this
        have hopen_not_ws : ∀ x : Char, isWs x = true → x ≠ '(' :=
          fun x hx => isWs_ne_open x hx
        cases hC2 : r2.dropWhile isWs with
        | nil =>
            have hallr2 := List.dropWhile_eq_nil_iff.mp hC2
            have hmf : MatchFree parenPowTry (some '(') cs := by
              intro a t hat
              cases t with
              | nil => exact pp_nil _
              | cons x t2 =>
                  by_cases hx : x = '('
                  · subst hx
                    have hnin : '(' ∉ (')' :: r2 : Str) := by
                      intro hmem
                      rcases List.mem_cons.mp hmem with hc | hc
                      · cases hc
                      · exact absurd rfl
                          (isWs_ne_open '(' (hallr2 '(' hc))
                    obtain ⟨gs, hg1, ht2⟩ := append_split_first
                      (cs.takeWhile (· ≠ ')')) (')' :: r2) a t2 '('
                      (by rw [← hsplit, hat]) hnin
                    rw [ht2]
                    have hshape : (gs ++ ')' :: r2 : Str) =
                        gs ++ ')' :: (r2 ++ []) := by simp
                    rw [hshape]
                    apply pp_fail_notdigit _ gs r2 []
                      (fun x hx => hgnc x (by rw [hg1]; simp [hx]))
                      hallr2
                    intro y hy
                    cases hy
                  · exact pp_nonopen _ _ _ hx
            rw [runList_id_of_matchFree _ _ _ hmf]
            exact h
        | cons d r4 =>
            have hdws : isWs d = false :=
              head?_dropWhile_not isWs r2 d (by rw [hC2]; rfl)
            have hr2split : r2 = r2.takeWhile isWs ++ d :: r4 := by
              conv_lhs => rw [← List.takeWhile_append_dropWhile isWs r2]
              rw [hC2]
            have hallws : ∀ x ∈ r2.takeWhile isWs, isWs x = true :=
              fun x hx => mem_takeWhile_sat isWs r2 x hx
            have hcond : (isDigit d && !headIsWord r4) = false := by
              by_contra hcon
              have hcond2 : (isDigit d && !headIsWord r4) = true := by
                revert hcon
                cases (isDigit d && !headIsWord r4) <;> simp
              rw [pp_eq] at h
              rw [if_neg (by
                intro hie
                exact hg (by
                  cases hh : cs.takeWhile (· ≠ ')') with
                  | nil => rfl
                  | cons z zs => rw [hh] at hie; cases hie))] at h
              simp only [hC, if_true] at h
              simp only [hC2, hcond2, if_true] at h
              cases h
            -- the characters before the failure point can never start
            -- a match
            have hcopyhyp : ∀ (u rest : Str), cs = u ++ rest →
                (∀ a x t, u = a ++ x :: t → x = '(' →
                  parenPowTry (lastOf (some '(') a) (x :: (t ++ rest)) =
                    none) →
                runList parenPowTry (some '(') cs =
                  u ++ runList parenPowTry (lastOf (some '(') u) rest := by
              intro u rest hcs hfail
              conv_lhs => rw [hcs]
              apply runList_copy
              intro a x t hsplit2
              by_cases hx : x = '('
              · exact hfail a x t hsplit2 hx
              · exact pp_nonopen _ _ _ hx
            by_cases hdig : isDigit d = true
            · have hw : headIsWord r4 = true := by
                revert hcond
                rw [hdig]
                cases headIsWord r4 <;> simp
              cases r4 with
              | nil => simp [headIsWord] at hw
              | cons w r5 =>
                  have hword : isWord w = true := by
                    simpa [headIsWord] using hw
                  have hcs3 : cs = (cs.takeWhile (· ≠ ')') ++
                      ')' :: (r2.takeWhile isWs ++ [d])) ++ (w :: r5) := by
                    conv_lhs => rw [hsplit, hr2split]
                    simp [List.append_assoc]
                  have hnin : '(' ∉ (')' :: (r2.takeWhile isWs ++ [d]) :
                      Str) := by
                    intro hmem
                    rcases List.mem_cons.mp hmem with hc | hc
                    · cases hc
                    rcases List.mem_append.mp hc with hc2 | hc2
                    · exact absurd rfl
                        (isWs_ne_open '(' (hallws '(' hc2))
                    · have : ('(' : Char) = d := by simpa using hc2
                      rw [← this] at hdig
                      exact absurd hdig (by decide)
                  have hout := hcopyhyp (cs.takeWhile (· ≠ ')') ++
                      ')' :: (r2.takeWhile isWs ++ [d])) (w :: r5) hcs3 ?_
                  · rw [hout]
                    have hshape : cs.takeWhile (· ≠ ')') ++
                        ')' :: (r2.takeWhile isWs ++ [d]) ++
                        runList parenPowTry
                          (lastOf (some '(') (cs.takeWhile (· ≠ ')') ++
                            ')' :: (r2.takeWhile isWs ++ [d])))
                          (w :: r5) =
                        cs.takeWhile (· ≠ ')') ++
                        ')' :: (r2.takeWhile isWs ++ d ::
                          runList parenPowTry
                            (lastOf (some '(') (cs.takeWhile (· ≠ ')') ++
                              ')' :: (r2.takeWhile isWs ++ [d])))
                            (w :: r5)) := by
                      simp [List.append_assoc]
                    rw [hshape]
                    apply pp_fail_word _ _ _ _ d hgnc hallws hdig
                    · intro y hy
                      rw [runList_head parenPowTry pp_head] at hy
                      have hyw : w = y := by simpa using hy
                      subst hyw
                      exact hword
                    · intro hcon
                      have hh := runList_head parenPowTry pp_head
                        (lastOf (some '(') (cs.takeWhile (· ≠ ')') ++
                          ')' :: (r2.takeWhile isWs ++ [d]))) (w :: r5)
                      rw [hcon] at hh
                      simp at hh
                  · intro a x t hsplit2 hx
                    subst hx
                    obtain ⟨gs, hg1, ht2⟩ := append_split_first
                      (cs.takeWhile (· ≠ ')'))
                      (')' :: (r2.takeWhile isWs ++ [d])) a t '('
                      (by rw [← hsplit2]) hnin
                    rw [ht2]
                    have hshape : (gs ++ ')' ::
                        (r2.takeWhile isWs ++ [d]) : Str) ++ (w :: r5) =
                        gs ++ ')' :: (r2.takeWhile isWs ++ d ::
                          (w :: r5)) := by
                      simp [List.append_assoc]
                    rw [hshape]
                    apply pp_fail_word _ gs _ _ d
                      (fun z hz => hgnc z (by rw [hg1]; simp [hz]))
                      hallws hdig
                    · intro y hy
                      have hyw : w = y := by simpa using hy
                      subst hyw
                      exact hword
                    · simp
            · have hdig2 : isDigit d = false := bool_false_of_ne_true hdig
              have hcs2 : cs = (cs.takeWhile (· ≠ ')') ++
                  ')' :: r2.takeWhile isWs) ++ (d :: r4) := by
                conv_lhs => rw [hsplit, hr2split]
                simp [List.append_assoc]
              have hnin : '(' ∉ (')' :: r2.takeWhile isWs : Str) := by
                intro hmem
                rcases List.mem_cons.mp hmem with hc | hc
                · cases hc
                · exact absurd rfl (isWs_ne_open '(' (hallws '(' hc))
              have hout := hcopyhyp (cs.takeWhile (· ≠ ')') ++
                  ')' :: r2.takeWhile isWs) (d :: r4) hcs2 ?_
              · rw [hout]
                have hshape : cs.takeWhile (· ≠ ')') ++
                    ')' :: r2.takeWhile isWs ++
                    runList parenPowTry
                      (lastOf (some '(') (cs.takeWhile (· ≠ ')') ++
                        ')' :: r2.takeWhile isWs)) (d :: r4) =
                    cs.takeWhile (· ≠ ')') ++
                    ')' :: (r2.takeWhile isWs ++
                      runList parenPowTry
                        (lastOf (some '(') (cs.takeWhile (· ≠ ')') ++
                          ')' :: r2.takeWhile isWs)) (d :: r4)) := by
                  simp [List.append_assoc]
                rw [hshape]
                apply pp_fail_notdigit _ _ _ _ hgnc hallws
                intro y hy
                rw [runList_head parenPowTry pp_head] at hy
                have hyd : d = y := by simpa using hy
                subst hyd
                exact ⟨hdws, hdig2⟩
              · intro a x t hsplit2 hx
                subst hx
                obtain ⟨gs, hg1, ht2⟩ := append_split_first
                  (cs.takeWhile (· ≠ ')')) (')' :: r2.takeWhile isWs)
                  a t '(' (by rw [← hsplit2]) hnin
                rw [ht2]
                have hshape : (gs ++ ')' :: r2.takeWhile isWs : Str) ++
                    (d :: r4) =
                    gs ++ ')' :: (r2.takeWhile isWs ++ (d :: r4)) := by
                  simp [List.append_assoc]
                rw [hshape]
                apply pp_fail_notdigit _ gs _ _
                  (fun z hz => hgnc z (by rw [hg1]; simp [hz])) hallws
                intro y hy
                have hyd : d = y := by simpa using hy
                subst hyd
                exact ⟨hdws, hdig2⟩

/-- No match can start inside (or at) a `parenPowTry` replacement. -/
theorem pp_rep_suffix (p2 : Option Char) (g y : Str) (d : Char)
    (hd : isDigit d = true) (hg : ∀ x ∈ g, x ≠ ')') :
    ∀ a t, ('(' :: g ++ ')' :: [supChar d] : Str) = a ++ t → t ≠ [] →
      parenPowTry (lastOf p2 a) (t ++ y) = none := by
  intro a t hsplit htne
  obtain ⟨hsupo, hsupc⟩ := supChar_paren d hd
  have hsupd : isDigit (supChar d) = false := (supChar_props d hd).1
  have hsupw : isWs (supChar d) = false := (supChar_props d hd).2
  cases a with
  | nil =>
      simp only [List.nil_append] at hsplit
      subst hsplit
      have hshape : (('(' :: g ++ ')' :: [supChar d] : Str)) ++ y =
          '(' :: (g ++ ')' :: ([] ++ (supChar d :: y))) := by simp
      rw [hshape]
      apply pp_fail_notdigit _ g [] _ hg (by simp)
      intro z hz
      have hze : supChar d = z := by simpa using hz
      subst hze
      exact ⟨hsupw, hsupd⟩
  | cons a0 a2 =>
      cases t with
      | nil => exact absurd rfl htne
      | cons t0 t2 =>
          have htail : (g ++ ')' :: [supChar d] : Str) = a2 ++ t0 :: t2 := by
            rw [List.cons_append] at hsplit
            injection hsplit
          by_cases ht0 : t0 = '('
          · subst ht0
            have hnin : '(' ∉ (')' :: [supChar d] : Str) := by
              intro hmem
              rcases List.mem_cons.mp hmem with hc | hc
              · cases hc
              · have hcs : ('(' : Char) = supChar d := by simpa using hc
                exact hsupo hcs.symm
            obtain ⟨gs, hg1, ht2⟩ := append_split_first g
              (')' :: [supChar d]) a2 t2 '(' htail hnin
            rw [ht2]
            have hshape : ('(' :: (gs ++ ')' :: [supChar d]) : Str) ++ y =
                '(' :: (gs ++ ')' :: ([] ++ (supChar d :: y))) := by simp
            rw [hshape]
            apply pp_fail_notdigit _ gs [] _
              (fun z hz => hg z (by rw [hg1]; simp [hz])) (by simp)
            intro z hz
            have hze : supChar d = z := by simpa using hz
            subst hze
            exact ⟨hsupw, hsupd⟩
          · exact pp_nonopen _ _ _ ht0

/-- The output of one `parenPowTry` pass is match-free. -/
theorem pp_out_mf : ∀ (n : Nat) (l : Str) (p : Option Char), l.length ≤ n →
    MatchFree parenPowTry p (runList parenPowTry p l) := by
  intro n
  induction n with
  | zero =>
      intro l p hl
      have hnil : l = [] := List.length_eq_zero.mp (Nat.le_zero.mp hl)
      subst hnil
      exact matchFree_nil _ p pp_nil
  | succ n ih =>
      intro l p hl
      cases l with
      | nil => exact matchFree_nil _ p pp_nil
      | cons c cs =>
          cases hR : parenPowTry p (c :: cs) with
          | none =>
              rw [runList_cons_none _ _ _ _ hR]
              apply matchFree_cons
              · exact pp_persist p c cs hR
              · exact ih cs (some c)
                  (by simpa [Nat.succ_le_succ_iff] using hl)
          | some rk =>
              obtain ⟨rep, k⟩ := rk
              rw [runList_cons_some _ _ _ _ rep k hR]
              obtain ⟨hc, g, ws, d, r4, hgne, hgnc, hwsall, hdig, hwd,
                hcs, hrep⟩ := pp_inv p c cs rep k hR
              apply matchFree_append
              · rw [hrep]
                intro a t hsplit htne
                exact pp_rep_suffix p g _ d hdig hgnc a t hsplit htne
              · have hlen : ((c :: cs).drop (max k 1)).length ≤ n := by
                  simp only [List.length_drop, List.length_cons]
                  have hcl : cs.length ≤ n := by
                    simpa [Nat.succ_le_succ_iff] using hl
                  omega
                exact matchFree_of_prevFree parenPowTry
                  (fun _ _ _ => rfl) _ _ _
                  (ih ((c :: cs).drop (max k 1))
                    (nextPrev p ((c :: cs).take (max k 1))) hlen)

theorem parenPowStep_idem (s : String) :
    parenPowStep (parenPowStep s) = parenPowStep s := by
  apply runRule_idem
  intro l
  exact pp_out_mf l.length l none (Nat.le_refl _)

/-! ### `minusParenAlphaStep` idempotence -/

theorem takeWhile_append_mid (p : Char → Bool) (c : Char)
    (hc : p c = false) :
    ∀ (b w : Str), (b ++ c :: w).takeWhile p = b.takeWhile p := by
  intro b w
  induction b with
  | nil => simp [List.takeWhile, hc]
  | cons x xs ih =>
      cases hx : p x with
      | true =>
          rw [List.cons_append, List.takeWhile_cons_of_pos (by simp [hx]),
            List.takeWhile_cons_of_pos (by simp [hx]), ih]
      | false =>
          rw [List.cons_append, List.takeWhile_cons_of_neg (by simp [hx]),
            List.takeWhile_cons_of_neg (by simp [hx])]

theorem dropWhile_append_mid (p : Char → Bool) (c : Char)
    (hc : p c = false) :
    ∀ (b w : Str), (b ++ c :: w).dropWhile p = b.dropWhile p ++ c :: w := by
  intro b w
  induction b with
  | nil => simp [List.dropWhile, hc]
  | cons x xs ih =>
      cases hx : p x with
      | true =>
          rw [List.cons_append, List.dropWhile_cons_of_pos (by simp [hx]),
            List.dropWhile_cons_of_pos (by simp [hx]), ih]
      | false =>
          rw [List.cons_append, List.dropWhile_cons_of_neg (by simp [hx]),
            List.dropWhile_cons_of_neg (by simp [hx])]
          rfl

/-- The attempt test of the lazy `minusScanA` scan, as a Boolean. -/
def attemptA (c : Char) (cs : Str) : Bool :=
  isAlpha c && !(cs.takeWhile isWs).isEmpty &&
  !((cs.dropWhile isWs).takeWhile isDigit).isEmpty &&
  (match (cs.dropWhile isWs).dropWhile isDigit with
   | h1 :: _ => h1 = ')'
   | [] => false)

/-- One unfolding step of `minusScanA` in terms of `attemptA`. -/
theorem sA_step (acc : Str) (c : Char) (cs : Str) :
    minusScanA acc (c :: cs) =
    (if c = ')' then none
     else if attemptA c cs = true then
       some (acc.reverse ++ [c], (cs.dropWhile isWs).takeWhile isDigit,
         acc.length + 1 + (cs.takeWhile isWs).length +
           ((cs.dropWhile isWs).takeWhile isDigit).length + 1)
     else minusScanA (c :: acc) cs) := by
  have hbody : minusScanA acc (c :: cs) =
      (if c = ')' then none
       else
        match (if isAlpha c = true then
            (if (cs.takeWhile isWs).isEmpty then none else
             if ((cs.dropWhile isWs).takeWhile isDigit).isEmpty then none
             else
              match (cs.dropWhile isWs).dropWhile isDigit with
              | h1 :: _ =>
                  if h1 = ')' then
                    some (acc.reverse ++ [c],
                      (cs.dropWhile isWs).takeWhile isDigit,
                      acc.length + 1 + (cs.takeWhile isWs).length +
                        ((cs.dropWhile isWs).takeWhile isDigit).length + 1)
                  else none
              | [] => none)
          else none : Option (Str × Str × Nat)) with
        | some r => some r
        | none => minusScanA (c :: acc) cs) := rfl
  rw [hbody]
  by_cases hcl : c = ')'
  · rw [if_pos hcl, if_pos hcl]
  rw [if_neg hcl, if_neg hcl]
  by_cases ha : isAlpha c = true
  · by_cases hws : (cs.takeWhile isWs).isEmpty = true
    · have hatt : attemptA c cs = false := by
        unfold attemptA
        rw [ha, hws]
        simp
      simp [ha, hws, hatt]
    · by_cases hd2 : ((cs.dropWhile isWs).takeWhile isDigit).isEmpty = true
      · have hatt : attemptA c cs = false := by
          unfold attemptA
          rw [ha, hd2, bool_false_of_ne_true hws]
          simp
        simp [ha, bool_false_of_ne_true hws, hd2, hatt]
      · cases hC : (cs.dropWhile isWs).dropWhile isDigit with
        | nil =>
            have hatt : attemptA c cs = false := by
              unfold attemptA
              rw [ha, hC, bool_false_of_ne_true hws,
                bool_false_of_ne_true hd2]
              simp
            simp [ha, bool_false_of_ne_true hws,
              bool_false_of_ne_true hd2, hC, hatt]
        | cons h1 t =>
            by_cases h1c : h1 = ')'
            · subst h1c
              have hatt : attemptA c cs = true := by
                unfold attemptA
                rw [ha, hC, bool_false_of_ne_true hws,
                  bool_false_of_ne_true hd2]
                simp
              simp [ha, bool_false_of_ne_true hws,
                bool_false_of_ne_true hd2, hC, hatt]
            · have hatt : attemptA c cs = false := by
                unfold attemptA
                rw [ha, hC, bool_false_of_ne_true hws,
                  bool_false_of_ne_true hd2]
                simp [h1c]
              simp [ha, bool_false_of_ne_true hws,
                bool_false_of_ne_true hd2, hC, hatt, h1c]
  · have ha2 : isAlpha c = false := bool_false_of_ne_true ha
    have hatt : attemptA c cs = false := by
      unfold attemptA
      rw [ha2]
      simp
    simp [ha2, hatt]

theorem isAlpha_ne_close (c : Char) (h : isAlpha c = true) : c ≠ ')' := by
  have ha := isAlpha_arith c h
  exact char_ne_of_toNat c 41 (by omega) ')' (by decide)

theorem attemptA_nonalpha (z : Char) (r : Str) (h : isAlpha z = false) :
    attemptA z r = false := by
  unfold attemptA
  rw [h]
  simp

/-- An attempt that succeeds sees a close paren in its tail. -/
theorem attemptA_close_mem (z : Char) (r : Str)
    (h : attemptA z r = true) : ')' ∈ r := by
  unfold attemptA at h
  simp only [Bool.and_eq_true] at h
  obtain ⟨-, hclose⟩ := h
  cases hC : (r.dropWhile isWs).dropWhile isDigit with
  | nil => rw [hC] at hclose; cases hclose
  | cons h1 t =>
      rw [hC] at hclose
      have h1c : h1 = ')' := by simpa using hclose
      subst h1c
      have hmem : ')' ∈ (r.dropWhile isWs).dropWhile isDigit := by
        rw [hC]
        simp
      exact (List.dropWhile_sublist isWs).mem
        ((List.dropWhile_sublist isDigit).mem hmem)

/-- The attempt fails whenever a minus sign separates the candidate from
the close paren. -/
theorem attemptA_dashblock (z : Char) (A B : Str)
    (hA : ∀ q ∈ A, q ≠ ')') :
    attemptA z (A ++ '-' :: B) = false := by
  unfold attemptA
  rw [takeWhile_append_mid isWs '-' (by decide),
    dropWhile_append_mid isWs '-' (by decide),
    takeWhile_append_mid isDigit '-' (by decide),
    dropWhile_append_mid isDigit '-' (by decide)]
  cases hC : (A.dropWhile isWs).dropWhile isDigit with
  | nil => simp [hC]
  | cons h1 t =>
      have hmem : h1 ∈ A := by
        have hm : h1 ∈ (A.dropWhile isWs).dropWhile isDigit := by
          rw [hC]
          simp
        exact (List.dropWhile_sublist isWs).mem
          ((List.dropWhile_sublist isDigit).mem hm)
      have h1c : (h1 = ')') = False := by
        simp [hA h1 hmem]
      simp [hC, h1c]

/-- The attempt outcome is blind to anything past the first close
paren. -/
theorem attemptA_congr (z : Char) (b w1 w2 : Str) :
    attemptA z (b ++ ')' :: w1) = attemptA z (b ++ ')' :: w2) := by
  unfold attemptA
  rw [takeWhile_append_mid isWs ')' (by decide),
    takeWhile_append_mid isWs ')' (by decide),
    dropWhile_append_mid isWs ')' (by decide),
    dropWhile_append_mid isWs ')' (by decide),
    takeWhile_append_mid isDigit ')' (by decide),
    takeWhile_append_mid isDigit ')' (by decide),
    dropWhile_append_mid isDigit ')' (by decide),
    dropWhile_append_mid isDigit ')' (by decide)]
  cases hC : (b.dropWhile isWs).dropWhile isDigit with
  | nil => simp [hC]
  | cons h1 t => simp [hC]

/-- If every attempt before the first close paren fails, the scan
returns nothing. -/
theorem sA_none : ∀ (m acc : Str),
    (∀ pre x rest, m = pre ++ x :: rest → (∀ z ∈ pre, z ≠ ')') →
      x ≠ ')' → attemptA x rest = false) →
    minusScanA acc m = none := by
  intro m
  induction m with
  | nil => intro acc _; rfl
  | cons c cs ih =>
      intro acc h
      rw [sA_step]
      by_cases hcl : c = ')'
      · rw [if_pos hcl]
      · rw [if_neg hcl]
        have hatt := h [] c cs rfl (by simp) hcl
        rw [hatt]
        simp only [Bool.false_eq_true, if_false]
        apply ih
        intro pre x rest hsplit hpre hx
        refine h (c :: pre) x rest (by simp [hsplit]) ?_ hx
        intro z hz
        rcases List.mem_cons.mp hz with rfl | hz2
        · exact hcl
        · exact hpre z hz2

/-- Conversely, a succeeding attempt before the first close paren makes
the scan succeed. -/
theorem sA_attempt_some : ∀ (pre : Str) (m acc z rest : _),
    m = pre ++ z :: rest → (∀ q ∈ pre, q ≠ ')') → z ≠ ')' →
    attemptA z rest = true → ∃ r, minusScanA acc m = some r := by
  intro pre
  induction pre with
  | nil =>
      intro m acc z rest hm hq hz hatt
      subst hm
      simp only [List.nil_append]
      rw [sA_step, if_neg hz, hatt]
      simp
  | cons q pre2 ih =>
      intro m acc z rest hm hq hz hatt
      subst hm
      simp only [List.cons_append]
      rw [sA_step, if_neg (hq q (by simp))]
      by_cases hattq : attemptA q (pre2 ++ z :: rest) = true
      · rw [hattq]
        simp
      · rw [bool_false_of_ne_true hattq]
        simp only [Bool.false_eq_true, if_false]
        exact ih _ (q :: acc) z rest rfl
          (fun q2 hq2 => hq q2 (by simp [hq2])) hz hatt

/-- Inversion of a successful `minusScanA` scan. -/
theorem sA_inv : ∀ (m acc g d2 : Str) (k : Nat),
    minusScanA acc m = some (g, d2, k) →
    ∃ pre x ws r5,
      (∀ z ∈ pre, z ≠ ')') ∧ isAlpha x = true ∧ ws ≠ [] ∧
      (∀ z ∈ ws, isWs z = true) ∧ d2 ≠ [] ∧
      (∀ z ∈ d2, isDigit z = true) ∧
      m = pre ++ x :: (ws ++ (d2 ++ ')' :: r5)) ∧
      g = acc.reverse ++ (pre ++ [x]) := by
  intro m
  induction m with
  | nil => intro acc g d2 k h; cases h
  | cons c cs ih =>
      intro acc g d2 k h
      rw [sA_step] at h
      by_cases hcl : c = ')'
      · rw [if_pos hcl] at h; cases h
      rw [if_neg hcl] at h
      by_cases hatt : attemptA c cs = true
      · rw [hatt] at h
        simp only [if_true, Option.some.injEq, Prod.mk.injEq] at h
        obtain ⟨hg, hd2, hk⟩ := h
        have hdecomp := hatt
        unfold attemptA at hdecomp
        simp only [Bool.and_eq_true] at hdecomp
        obtain ⟨⟨⟨ha, hws⟩, hd2e⟩, hclose⟩ := hdecomp
        have hg2 : g = acc.reverse ++ [c] := hg.symm
        have hd2b : d2 = (cs.dropWhile isWs).takeWhile isDigit := hd2.symm
        cases hC : (cs.dropWhile isWs).dropWhile isDigit with
        | nil => rw [hC] at hclose; cases hclose
        | cons h1 t =>
            rw [hC] at hclose
            have h1c : h1 = ')' := by simpa using hclose
            subst h1c
            refine ⟨[], c, cs.takeWhile isWs, t, by simp, ha, ?_,
              fun z hz => mem_takeWhile_sat isWs cs z hz, ?_,
              (fun z hz => by
                rw [hd2b] at hz
                exact mem_takeWhile_sat isDigit _ z hz), ?_, ?_⟩
            · intro hcon
              rw [hcon] at hws
              simp at hws
            · intro hcon
              rw [hcon] at hd2b
              rw [← hd2b] at hd2e
              simp at hd2e
            · simp only [List.nil_append]
              rw [hd2b]
              congr 1
              conv_lhs =>
                rw [← List.takeWhile_append_dropWhile isWs cs]
              congr 1
              rw [← hC, List.takeWhile_append_dropWhile]
            · rw [hg2]
              simp
      · rw [bool_false_of_ne_true hatt] at h
        simp only [Bool.false_eq_true, if_false] at h
        obtain ⟨pre, x, ws, r5, hpre, hx, hws, hwsall, hd2e, hd2all, hm,
          hg⟩ := ih (c :: acc) g d2 k h
        refine ⟨c :: pre, x, ws, r5, ?_, hx, hws, hwsall, hd2e, hd2all,
          by simp [hm], by rw [hg]; simp⟩
        intro z hz
        rcases List.mem_cons.mp hz with rfl | hz2
        · exact hcl
        · exact hpre z hz2

theorem mpa_nil (p : Option Char) : minusParenAlphaTry p [] = none := rfl

theorem mpa_nonopen (p : Option Char) (c : Char) (cs : Str)
    (h : c ≠ '(') : minusParenAlphaTry p (c :: cs) = none := by
  simp only [minusParenAlphaTry, if_neg h]

theorem mpa_eq (p : Option Char) (cs : Str) :
    minusParenAlphaTry p ('(' :: cs) =
    (match minusScanA [] cs with
     | some (g, d2, k) =>
         some ('(' :: g ++ ' ' :: '-' :: ' ' :: d2 ++ [')'], 1 + k)
     | none => none) := rfl

/-- A split of `R ++ ')' :: y` whose prefix avoids `')'` and whose pivot
is not `')'` lies inside `R`. -/
theorem split_before_close (R y pre rest : Str) (x : Char)
    (hm : R ++ ')' :: y = pre ++ x :: rest) (hpre : ∀ q ∈ pre, q ≠ ')')
    (hx : x ≠ ')') :
    ∃ b, R = pre ++ x :: b ∧ rest = b ++ ')' :: y := by
  rcases List.append_eq_append_iff.mp hm with ⟨u, h1, h2⟩ | ⟨u, h1, h2⟩
  · cases u with
    | nil =>
        exfalso
        have h3 : (')' :: y : Str) = x :: rest := by simpa using h2
        have h4 : some ')' = some x := congrArg List.head? h3
        exact hx (Option.some.inj h4).symm
    | cons u0 u2 =>
        exfalso
        have hu0 : u0 = ')' := by
          simp only [List.cons_append] at h2
          injection h2 with h3
          exact h3.symm
        apply hpre ')'
        · rw [h1, ← hu0]
          simp
        · rfl
  · cases u with
    | nil =>
        exfalso
        have h3 : (x :: rest : Str) = ')' :: y := by simpa using h2
        have h4 : some x = some ')' := congrArg List.head? h3
        exact hx (Option.some.inj h4)
    | cons x2 b =>
        have hxx : x = x2 ∧ rest = b ++ ')' :: y := by
          simp only [List.cons_append] at h2
          exact ⟨by injection h2, by injection h2 with h3 h4⟩
        obtain ⟨rfl, hrest⟩ := hxx
        exact ⟨b, by rw [h1], hrest⟩

/-- A close-free region ending with ` - ` before digits and the close
paren never lets the heuristic match. -/
theorem mpa_dashfail (p : Option Char) (g2 d2 y : Str)
    (hg2 : ∀ q ∈ g2, q ≠ ')') (hd2 : ∀ q ∈ d2, isDigit q = true) :
    minusParenAlphaTry p
      ('(' :: ((g2 ++ ' ' :: '-' :: ' ' :: d2) ++ ')' :: y)) = none := by
  rw [mpa_eq]
  have hscan : minusScanA []
      ((g2 ++ ' ' :: '-' :: ' ' :: d2) ++ ')' :: y) = none := by
    apply sA_none
    intro pre x rest hsplit hpre hx
    obtain ⟨b, hR, hrest⟩ := split_before_close _ y pre rest x
      hsplit hpre hx
    rw [hrest]
    rcases List.append_eq_append_iff.mp hR with ⟨u, hpre2, hS⟩ |
      ⟨u, hg2e, hxb⟩
    · have hxS : x ∈ (' ' :: '-' :: ' ' :: d2 : Str) :=
        suffix_head_mem _ u b x hS
      have hna : isAlpha x = false := by
        rcases List.mem_cons.mp hxS with rfl | h2
        · decide
        rcases List.mem_cons.mp h2 with rfl | h3
        · decide
        rcases List.mem_cons.mp h3 with rfl | h4
        · decide
        · exact isDigit_not_alpha x (hd2 x h4)
      exact attemptA_nonalpha x _ hna
    · cases u with
      | nil =>
          have hxsp : x = ' ' := by
            have h2 : x = ' ' ∧ b = '-' :: ' ' :: d2 := by simpa using hxb
            exact h2.1
          subst hxsp
          exact attemptA_nonalpha _ _ (by decide)
      | cons x2 gs =>
          have hxx : x = x2 ∧ b = gs ++ ' ' :: '-' :: ' ' :: d2 := by
            simp only [List.cons_append] at hxb
            exact ⟨by injection hxb, by injection hxb with h3 h4⟩
          obtain ⟨rfl, hb⟩ := hxx
          rw [hb]
          have hshape : ((gs ++ ' ' :: '-' :: ' ' :: d2 : Str)) ++
              ')' :: y =
              (gs ++ [' ']) ++ '-' :: (' ' :: (d2 ++ ')' :: y)) := by
            simp
          rw [hshape]
          apply attemptA_dashblock
          intro q hq
          rcases List.mem_append.mp hq with hq2 | hq2
          · exact hg2 q (by rw [hg2e]; simp [hq2])
          · have hqe : q = ' ' := by simpa using hq2
            subst hqe
            decide
  rw [hscan]

/-- Inversion of a successful `minusParenAlphaTry` match. -/
theorem mpa_inv (p : Option Char) (c : Char) (cs rep : Str) (k : Nat)
    (h : minusParenAlphaTry p (c :: cs) = some (rep, k)) :
    c = '(' ∧
    ∃ pre x ws d2 r5,
      (∀ z ∈ pre, z ≠ ')') ∧ isAlpha x = true ∧ ws ≠ [] ∧
      (∀ z ∈ ws, isWs z = true) ∧ d2 ≠ [] ∧
      (∀ z ∈ d2, isDigit z = true) ∧
      cs = pre ++ x :: (ws ++ (d2 ++ ')' :: r5)) ∧
      rep = '(' :: (pre ++ [x]) ++ ' ' :: '-' :: ' ' :: d2 ++ [')'] := by
  by_cases hopen : c = '('
  · subst hopen
    rw [mpa_eq] at h
    cases hs : minusScanA [] cs with
    | none => rw [hs] at h; cases h
    | some r =>
        obtain ⟨g, d2s, ks⟩ := r
        rw [hs] at h
        simp only [Option.some.injEq, Prod.mk.injEq] at h
        obtain ⟨hrep, hk⟩ := h
        obtain ⟨pre, x, ws, r5, hpre, hx, hws, hwsall, hd2, hd2all, hm,
          hg⟩ := sA_inv cs [] g d2s ks hs
        refine ⟨rfl, pre, x, ws, d2s, r5, hpre, hx, hws, hwsall, hd2,
          hd2all, hm, ?_⟩
        rw [← hrep, hg]
        simp
  · rw [mpa_nonopen p c cs hopen] at h
    cases h

theorem mpa_head : ∀ (p : Option Char) (c : Char) (cs rep : Str) (k : Nat),
    minusParenAlphaTry p (c :: cs) = some (rep, k) → rep.head? = some c := by
  intro p c cs rep k h
  obtain ⟨hc, pre, x, ws, d2, r5, -, -, -, -, -, -, -, hrep⟩ :=
    mpa_inv p c cs rep k h
  rw [hrep, hc]
  rfl

/-- No match can start inside (or at) a `minusParenAlphaTry`
replacement. -/
theorem mpa_rep_suffix (p2 : Option Char) (g d2 y : Str)
    (hg : ∀ q ∈ g, q ≠ ')') (hd2 : ∀ q ∈ d2, isDigit q = true) :
    ∀ a t, ('(' :: g ++ ' ' :: '-' :: ' ' :: d2 ++ [')'] : Str) =
      a ++ t → t ≠ [] →
      minusParenAlphaTry (lastOf p2 a) (t ++ y) = none := by
  intro a t hsplit htne
  cases a with
  | nil =>
      simp only [List.nil_append] at hsplit
      subst hsplit
      have hshape : ('(' :: g ++ ' ' :: '-' :: ' ' :: d2 ++ [')'] :
          Str) ++ y =
          '(' :: ((g ++ ' ' :: '-' :: ' ' :: d2) ++ ')' :: y) := by
        simp
      rw [hshape]
      exact mpa_dashfail _ g d2 y hg hd2
  | cons a0 a2 =>
      cases t with
      | nil => exact absurd rfl htne
      | cons t0 t2 =>
          have htail : g ++ ((' ' :: '-' :: ' ' :: d2) ++ [')']) =
              a2 ++ t0 :: t2 := by
            rw [List.cons_append, List.cons_append] at hsplit
            have h2 : (g ++ ' ' :: '-' :: ' ' :: d2) ++ [')'] =
                a2 ++ t0 :: t2 := by injection hsplit
            rw [← List.append_assoc]
            exact h2
          by_cases ht0 : t0 = '('
          · subst ht0
            have hnin : '(' ∉ ((' ' :: '-' :: ' ' :: d2) ++ [')'] :
                Str) := by
              intro hmem
              rcases List.mem_append.mp hmem with hc | hc
              · rcases List.mem_cons.mp hc with hc2 | hc2
                · cases hc2
                rcases List.mem_cons.mp hc2 with hc3 | hc3
                · cases hc3
                rcases List.mem_cons.mp hc3 with hc4 | hc4
                · cases hc4
                · exact absurd rfl (isDigit_ne_open '(' (hd2 '(' hc4))
              · have hpc : ('(' : Char) = ')' := by simpa using hc
                cases hpc
            obtain ⟨gs, hg1, ht2⟩ := append_split_first g
              ((' ' :: '-' :: ' ' :: d2) ++ [')']) a2 t2 '(' htail hnin
            rw [ht2]
            have hshape : ('(' :: (gs ++ ((' ' :: '-' :: ' ' :: d2) ++
                [')'])) : Str) ++ y =
                '(' :: ((gs ++ ' ' :: '-' :: ' ' :: d2) ++ ')' :: y) := by
              simp
            rw [hshape]
            exact mpa_dashfail _ gs d2 y
              (fun q hq => hg q (by rw [hg1]; simp [hq])) hd2
          · exact mpa_nonopen _ _ _ ht0

theorem mpa_persist (p : Option Char) (c : Char) (cs : Str)
    (h : minusParenAlphaTry p (c :: cs) = none) :
    minusParenAlphaTry p
      (c :: runList minusParenAlphaTry (some c) cs) = none := by
  by_cases hopen : c = '('
  case neg => exact mpa_nonopen _ _ _ hopen
  case pos =>
  subst hopen
  have hscan : minusScanA [] cs = none := by
    rw [mpa_eq] at h
    cases hs : minusScanA [] cs with
    | none => rfl
    | some r =>
        obtain ⟨g, d2, k⟩ := r
        rw [hs] at h
        cases h
  cases hC : cs.dropWhile (· ≠ ')') with
  | nil =>
      have hnc : ∀ q ∈ cs, q ≠ ')' := by
        intro q hq
        have := List.dropWhile_eq_nil_iff.mp hC q hq
        simpa using this
      have hmf : MatchFree minusParenAlphaTry (some '(') cs := by
        intro a t hat
        cases t with
        | nil => exact mpa_nil _
        | cons x t2 =>
            by_cases hx : x = '('
            · subst hx
              rw [mpa_eq]
              have hsc : minusScanA [] t2 = none := by
                apply sA_none
                intro pre z rest hsp hpre hz
                by_contra hcon
                have hatt : attemptA z rest = true := by
                  revert hcon
                  cases attemptA z rest <;> simp
                have hcm := attemptA_close_mem z rest hatt
                apply hnc ')' ?_ rfl
                rw [hat]
                have h1 : ')' ∈ t2 := by
                  rw [hsp]
                  simp [hcm]
                simp [h1]
              rw [hsc]
            · exact mpa_nonopen _ _ _ hx
      rw [runList_id_of_matchFree _ _ _ hmf]
      exact h
  | cons h1 r2 =>
      have h1c : h1 = ')' := by
        have := head?_dropWhile_not (· ≠ ')') cs h1 (by rw [hC]; rfl)
        simpa using this
      subst h1c
      have hsplitcs : cs = cs.takeWhile (· ≠ ')') ++ ')' :: r2 := by
        conv_lhs => rw [← List.takeWhile_append_dropWhile (· ≠ ')') cs]
        rw [hC]
      have hprenc : ∀ q ∈ cs.takeWhile (· ≠ ')'), q ≠ ')' := by
        intro q hq
        have := mem_takeWhile_sat (· ≠ ')') cs q hq
        simpa using this
      have hfails : ∀ a z b2, cs.takeWhile (· ≠ ')') = a ++ z :: b2 →
          z ≠ ')' → attemptA z (b2 ++ ')' :: r2) = false := by
        intro a z b2 hsp hz
        by_contra hcon
        have hatt : attemptA z (b2 ++ ')' :: r2) = true := by
          revert hcon
          cases attemptA z (b2 ++ ')' :: r2) <;> simp
        have hq2 : ∀ q ∈ a, q ≠ ')' :=
          fun q hq => hprenc q (by rw [hsp]; simp [hq])
        obtain ⟨r, hsome⟩ := sA_attempt_some a cs [] z (b2 ++ ')' :: r2)
          (by rw [hsplitcs, hsp]; simp) hq2 hz hatt
        rw [hsome] at hscan
        cases hscan
      have hcopy : runList minusParenAlphaTry (some '(') cs =
          (cs.takeWhile (· ≠ ')') ++ [')']) ++
          runList minusParenAlphaTry
            (lastOf (some '(') (cs.takeWhile (· ≠ ')') ++ [')'])) r2 := by
        have hcs2 : cs = (cs.takeWhile (· ≠ ')') ++ [')']) ++ r2 := by
          conv_lhs => rw [hsplitcs]
          simp
        conv_lhs => rw [hcs2]
        apply runList_copy
        intro a x t hsp
        by_cases hx : x = '('
        · subst hx
          obtain ⟨gs, hg1, ht2⟩ := append_split_first
            (cs.takeWhile (· ≠ ')')) [')'] a t '(' hsp
            (by
              intro hmem
              have hpc : ('(' : Char) = ')' := by simpa using hmem
              cases hpc)
          rw [ht2]
          have hshape : ((gs ++ [')'] : Str)) ++ r2 = gs ++ ')' :: r2 := by
            simp
          rw [hshape, mpa_eq]
          have hsc : minusScanA [] (gs ++ ')' :: r2) = none := by
            apply sA_none
            intro pre2 z rest hsp2 hpre2 hz
            obtain ⟨b2, hgs2, hrest2⟩ := split_before_close gs r2 pre2
              rest z hsp2 hpre2 hz
            rw [hrest2]
            exact hfails (a ++ '(' :: pre2) z b2
              (by rw [hg1, hgs2]; simp) hz
          rw [hsc]
        · exact mpa_nonopen _ _ _ hx
      rw [hcopy]
      have hshape2 : ((cs.takeWhile (· ≠ ')') ++ [')'] : Str)) ++
          runList minusParenAlphaTry
            (lastOf (some '(') (cs.takeWhile (· ≠ ')') ++ [')'])) r2 =
          cs.takeWhile (· ≠ ')') ++ ')' ::
          runList minusParenAlphaTry
            (lastOf (some '(') (cs.takeWhile (· ≠ ')') ++ [')'])) r2 := by
        simp
      rw [hshape2, mpa_eq]
      have hsc2 : minusScanA []
          (cs.takeWhile (· ≠ ')') ++ ')' ::
            runList minusParenAlphaTry
              (lastOf (some '(') (cs.takeWhile (· ≠ ')') ++ [')'])) r2) =
          none := by
        apply sA_none
        intro pre2 z rest hsp2 hpre2 hz
        obtain ⟨b2, hpre3, hrest2⟩ := split_before_close
          (cs.takeWhile (· ≠ ')')) _ pre2 rest z hsp2 hpre2 hz
        rw [hrest2, attemptA_congr z b2 _ r2]
        exact hfails pre2 z b2 hpre3 hz
      rw [hsc2]

/-- The output of one `minusParenAlphaTry` pass is match-free. -/
theorem mpa_out_mf : ∀ (n : Nat) (l : Str) (p : Option Char),
    l.length ≤ n →
    MatchFree minusParenAlphaTry p (runList minusParenAlphaTry p l) := by
  intro n
  induction n with
  | zero =>
      intro l p hl
      have hnil : l = [] := List.length_eq_zero.mp (Nat.le_zero.mp hl)
      subst hnil
      exact matchFree_nil _ p mpa_nil
  | succ n ih =>
      intro l p hl
      cases l with
      | nil => exact matchFree_nil _ p mpa_nil
      | cons c cs =>
          cases hR : minusParenAlphaTry p (c :: cs) with
          | none =>
              rw [runList_cons_none _ _ _ _ hR]
              apply matchFree_cons
              · exact mpa_persist p c cs hR
              · exact ih cs (some c)
                  (by simpa [Nat.succ_le_succ_iff] using hl)
          | some rk =>
              obtain ⟨rep, k⟩ := rk
              rw [runList_cons_some _ _ _ _ rep k hR]
              obtain ⟨hc, pre, x, ws, d2, r5, hpre, hxa, hws, hwsall,
                hd2, hd2all, hcs, hrep⟩ := mpa_inv p c cs rep k hR
              apply matchFree_append
              · rw [hrep]
                intro a t hsplit htne
                apply mpa_rep_suffix p (pre ++ [x]) d2 _ ?_ hd2all a t
                  hsplit htne
                intro q hq
                rcases List.mem_append.mp hq with hq2 | hq2
                · exact hpre q hq2
                · have hqx : q = x := by simpa using hq2
                  subst hqx
                  exact isAlpha_ne_close q hxa
              · have hlen : ((c :: cs).drop (max k 1)).length ≤ n := by
                  simp only [List.length_drop, List.length_cons]
                  have hcl : cs.length ≤ n := by
                    simpa [Nat.succ_le_succ_iff] using hl
                  omega
                exact matchFree_of_prevFree minusParenAlphaTry
                  (fun _ _ _ => rfl) _ _ _
                  (ih ((c :: cs).drop (max k 1))
                    (nextPrev p ((c :: cs).take (max k 1))) hlen)

theorem minusParenAlphaStep_idem (s : String) :
    minusParenAlphaStep (minusParenAlphaStep s) = minusParenAlphaStep s := by
  apply runRule_idem
  intro l
  exact mpa_out_mf l.length l none (Nat.le_refl _)

/-! ### `minusParenDigitStep` idempotence -/

/-- The attempt test of the lazy `minusScanD` scan, as a Boolean. -/
def attemptD (c : Char) (cs : Str) : Bool :=
  isDigit c && !((cs.dropWhile isLower).takeWhile isWs).isEmpty &&
  !(((cs.dropWhile isLower).dropWhile isWs).takeWhile isDigit).isEmpty &&
  (match ((cs.dropWhile isLower).dropWhile isWs).dropWhile isDigit with
   | h1 :: _ => h1 = ')'
   | [] => false)

/-- One unfolding step of `minusScanD` in terms of `attemptD`. -/
theorem sD_step (acc : Str) (c : Char) (cs : Str) :
    minusScanD acc (c :: cs) =
    (if c = ')' then none
     else if attemptD c cs = true then
       some (acc.reverse ++ c :: cs.takeWhile isLower,
         ((cs.dropWhile isLower).dropWhile isWs).takeWhile isDigit,
         acc.length + 1 + (cs.takeWhile isLower).length +
           ((cs.dropWhile isLower).takeWhile isWs).length +
           (((cs.dropWhile isLower).dropWhile isWs).takeWhile
             isDigit).length + 1)
     else minusScanD (c :: acc) cs) := by
  have hbody : minusScanD acc (c :: cs) =
      (if c = ')' then none
       else
        match (if isDigit c = true then
            (if ((cs.dropWhile isLower).takeWhile isWs).isEmpty then none
             else
             if (((cs.dropWhile isLower).dropWhile isWs).takeWhile
                 isDigit).isEmpty then none
             else
              match ((cs.dropWhile isLower).dropWhile isWs).dropWhile
                  isDigit with
              | h1 :: _ =>
                  if h1 = ')' then
                    some (acc.reverse ++ c :: cs.takeWhile isLower,
                      ((cs.dropWhile isLower).dropWhile isWs).takeWhile
                        isDigit,
                      acc.length + 1 + (cs.takeWhile isLower).length +
                        ((cs.dropWhile isLower).takeWhile isWs).length +
                        (((cs.dropWhile isLower).dropWhile isWs).takeWhile
                          isDigit).length + 1)
                  else none
              | [] => none)
          else none : Option (Str × Str × Nat)) with
        | some r => some r
        | none => minusScanD (c :: acc) cs) := rfl
  rw [hbody]
  by_cases hcl : c = ')'
  · rw [if_pos hcl, if_pos hcl]
  rw [if_neg hcl, if_neg hcl]
  by_cases ha : isDigit c = true
  · by_cases hws : ((cs.dropWhile isLower).takeWhile isWs).isEmpty = true
    · have hatt : attemptD c cs = false := by
        unfold attemptD
        rw [ha, hws]
        simp
      simp [ha, hws, hatt]
    · by_cases hd2 : (((cs.dropWhile isLower).dropWhile isWs).takeWhile
          isDigit).isEmpty = true
      · have hatt : attemptD c cs = false := by
          unfold attemptD
          rw [ha, hd2, bool_false_of_ne_true hws]
          simp
        simp [ha, bool_false_of_ne_true hws, hd2, hatt]
      · cases hC : ((cs.dropWhile isLower).dropWhile isWs).dropWhile
            isDigit with
        | nil =>
            have hatt : attemptD c cs = false := by
              unfold attemptD
              rw [ha, hC, bool_false_of_ne_true hws,
                bool_false_of_ne_true hd2]
              simp
            simp [ha, bool_false_of_ne_true hws,
              bool_false_of_ne_true hd2, hC, hatt]
        | cons h1 t =>
            by_cases h1c : h1 = ')'
            · subst h1c
              have hatt : attemptD c cs = true := by
                unfold attemptD
                rw [ha, hC, bool_false_of_ne_true hws,
                  bool_false_of_ne_true hd2]
                simp
              simp [ha, bool_false_of_ne_true hws,
                bool_false_of_ne_true hd2, hC, hatt]
            · have hatt : attemptD c cs = false := by
                unfold attemptD
                rw [ha, hC, bool_false_of_ne_true hws,
                  bool_false_of_ne_true hd2]
                simp [h1c]
              simp [ha, bool_false_of_ne_true hws,
                bool_false_of_ne_true hd2, hC, hatt, h1c]
  · have ha2 : isDigit c = false := bool_false_of_ne_true ha
    have hatt : attemptD c cs = false := by
      unfold attemptD
      rw [ha2]
      simp
    simp [ha2, hatt]

theorem attemptD_nondigit (z : Char) (r : Str) (h : isDigit z = false) :
    attemptD z r = false := by
  unfold attemptD
  rw [h]
  simp

theorem attemptD_close_mem (z : Char) (r : Str)
    (h : attemptD z r = true) : ')' ∈ r := by
  unfold attemptD at h
  simp only [Bool.and_eq_true] at h
  obtain ⟨-, hclose⟩ := h
  cases hC : ((r.dropWhile isLower).dropWhile isWs).dropWhile isDigit with
  | nil => rw [hC] at hclose; cases hclose
  | cons h1 t =>
      rw [hC] at hclose
      have h1c : h1 = ')' := by simpa using hclose
      subst h1c
      have hmem : ')' ∈ ((r.dropWhile isLower).dropWhile isWs).dropWhile
          isDigit := by
        rw [hC]
        simp
      exact (List.dropWhile_sublist isLower).mem
        ((List.dropWhile_sublist isWs).mem
          ((List.dropWhile_sublist isDigit).mem hmem))

theorem attemptD_dashblock (z : Char) (A B : Str)
    (hA : ∀ q ∈ A, q ≠ ')') :
    attemptD z (A ++ '-' :: B) = false := by
  unfold attemptD
  rw [dropWhile_append_mid isLower '-' (by decide),
    takeWhile_append_mid isWs '-' (by decide),
    dropWhile_append_mid isWs '-' (by decide),
    takeWhile_append_mid isDigit '-' (by decide),
    dropWhile_append_mid isDigit '-' (by decide)]
  cases hC : ((A.dropWhile isLower).dropWhile isWs).dropWhile isDigit with
  | nil => simp [hC]
  | cons h1 t =>
      have hmem : h1 ∈ A := by
        have hm : h1 ∈ ((A.dropWhile isLower).dropWhile isWs).dropWhile
            isDigit := by
          rw [hC]
          simp
        exact (List.dropWhile_sublist isLower).mem
          ((List.dropWhile_sublist isWs).mem
            ((List.dropWhile_sublist isDigit).mem hm))
      have h1c : (h1 = ')') = False := by
        simp [hA h1 hmem]
      simp [hC, h1c]

theorem attemptD_congr (z : Char) (b w1 w2 : Str) :
    attemptD z (b ++ ')' :: w1) = attemptD z (b ++ ')' :: w2) := by
  unfold attemptD
  rw [dropWhile_append_mid isLower ')' (by decide),
    dropWhile_append_mid isLower ')' (by decide),
    takeWhile_append_mid isWs ')' (by decide),
    takeWhile_append_mid isWs ')' (by decide),
    dropWhile_append_mid isWs ')' (by decide),
    dropWhile_append_mid isWs ')' (by decide),
    takeWhile_append_mid isDigit ')' (by decide),
    takeWhile_append_mid isDigit ')' (by decide),
    dropWhile_append_mid isDigit ')' (by decide),
    dropWhile_append_mid isDigit ')' (by decide)]
  cases hC : ((b.dropWhile isLower).dropWhile isWs).dropWhile isDigit with
  | nil => simp [hC]
  | cons h1 t => simp [hC]

theorem isDigit_not_lower (c : Char) (h : isDigit c = true) :
    isLower c = false := by
  by_contra hcon
  have h2 : isLower c = true := by
    revert hcon; cases isLower c <;> simp
  have hd := isDigit_arith c h
  have hl : 97 ≤ c.toNat ∧ c.toNat ≤ 122 := by
    simp only [isLower, Bool.and_eq_true, decide_eq_true_eq] at h2
    exact ⟨by simpa [Char.le_def] using h2.1,
      by simpa [Char.le_def] using h2.2⟩
  omega

/-- A digit run straight against the close paren has no whitespace, so
no attempt can fire on it. -/
theorem attemptD_digits_close (z : Char) (b y : Str)
    (hb : ∀ q ∈ b, isDigit q = true) :
    attemptD z (b ++ ')' :: y) = false := by
  unfold attemptD
  have hlow : (b ++ ')' :: y).dropWhile isLower = b ++ ')' :: y := by
    cases b with
    | nil =>
        rw [List.nil_append, List.dropWhile_cons_of_neg (by decide)]
    | cons b0 b2 =>
        have hb0 : isLower b0 = false :=
          isDigit_not_lower b0 (hb b0 (by simp))
        rw [List.cons_append, List.dropWhile_cons_of_neg (by simp [hb0])]
  rw [hlow]
  have hws : (b ++ ')' :: y).takeWhile isWs = [] := by
    cases b with
    | nil =>
        rw [List.nil_append, List.takeWhile_cons_of_neg (by decide)]
    | cons b0 b2 =>
        have hb0 : isWs b0 = false := isDigit_not_ws b0 (hb b0 (by simp))
        rw [List.cons_append, List.takeWhile_cons_of_neg (by simp [hb0])]
  rw [hws]
  simp

theorem sD_none : ∀ (m acc : Str),
    (∀ pre x rest, m = pre ++ x :: rest → (∀ z ∈ pre, z ≠ ')') →
      x ≠ ')' → attemptD x rest = false) →
    minusScanD acc m = none := by
  intro m
  induction m with
  | nil => intro acc _; rfl
  | cons c cs ih =>
      intro acc h
      rw [sD_step]
      by_cases hcl : c = ')'
      · rw [if_pos hcl]
      · rw [if_neg hcl]
        have hatt := h [] c cs rfl (by simp) hcl
        rw [hatt]
        simp only [Bool.false_eq_true, if_false]
        apply ih
        intro pre x rest hsplit hpre hx
        refine h (c :: pre) x rest (by simp [hsplit]) ?_ hx
        intro z hz
        rcases List.mem_cons.mp hz with rfl | hz2
        · exact hcl
        · exact hpre z hz2

theorem sD_attempt_some : ∀ (pre : Str) (m acc z rest : _),
    m = pre ++ z :: rest → (∀ q ∈ pre, q ≠ ')') → z ≠ ')' →
    attemptD z rest = true → ∃ r, minusScanD acc m = some r := by
  intro pre
  induction pre with
  | nil =>
      intro m acc z rest hm hq hz hatt
      subst hm
      simp only [List.nil_append]
      rw [sD_step, if_neg hz, hatt]
      simp
  | cons q pre2 ih =>
      intro m acc z rest hm hq hz hatt
      subst hm
      simp only [List.cons_append]
      rw [sD_step, if_neg (hq q (by simp))]
      by_cases hattq : attemptD q (pre2 ++ z :: rest) = true
      · rw [hattq]
        simp
      · rw [bool_false_of_ne_true hattq]
        simp only [Bool.false_eq_true, if_false]
        exact ih _ (q :: acc) z rest rfl
          (fun q2 hq2 => hq q2 (by simp [hq2])) hz hatt

/-- Inversion of a successful `minusScanD` scan. -/
theorem sD_inv : ∀ (m acc g d2 : Str) (k : Nat),
    minusScanD acc m = some (g, d2, k) →
    ∃ pre x ls ws r5,
      (∀ z ∈ pre, z ≠ ')') ∧ isDigit x = true ∧
      (∀ z ∈ ls, isLower z = true) ∧ ws ≠ [] ∧
      (∀ z ∈ ws, isWs z = true) ∧ d2 ≠ [] ∧
      (∀ z ∈ d2, isDigit z = true) ∧
      m = pre ++ x :: (ls ++ (ws ++ (d2 ++ ')' :: r5))) ∧
      g = acc.reverse ++ (pre ++ x :: ls) := by
  intro m
  induction m with
  | nil => intro acc g d2 k h; cases h
  | cons c cs ih =>
      intro acc g d2 k h
      rw [sD_step] at h
      by_cases hcl : c = ')'
      · rw [if_pos hcl] at h; cases h
      rw [if_neg hcl] at h
      by_cases hatt : attemptD c cs = true
      · rw [hatt] at h
        simp only [if_true, Option.some.injEq, Prod.mk.injEq] at h
        obtain ⟨hg, hd2, hk⟩ := h
        have hg2 : g = acc.reverse ++ c :: cs.takeWhile isLower := hg.symm
        have hd2b : d2 =
            ((cs.dropWhile isLower).dropWhile isWs).takeWhile isDigit :=
          hd2.symm
        have hdecomp := hatt
        unfold attemptD at hdecomp
        simp only [Bool.and_eq_true] at hdecomp
        obtain ⟨⟨⟨ha, hws⟩, hd2e⟩, hclose⟩ := hdecomp
        cases hC : ((cs.dropWhile isLower).dropWhile isWs).dropWhile
            isDigit with
        | nil => rw [hC] at hclose; cases hclose
        | cons h1 t =>
            rw [hC] at hclose
            have h1c : h1 = ')' := by simpa using hclose
            subst h1c
            refine ⟨[], c, cs.takeWhile isLower,
              (cs.dropWhile isLower).takeWhile isWs, t, by simp, ha,
              fun z hz => mem_takeWhile_sat isLower cs z hz, ?_,
              fun z hz => mem_takeWhile_sat isWs _ z hz, ?_,
              (fun z hz => by
                rw [hd2b] at hz
                exact mem_takeWhile_sat isDigit _ z hz), ?_, ?_⟩
            · intro hcon
              rw [hcon] at hws
              simp at hws
            · intro hcon
              rw [hcon] at hd2b
              rw [← hd2b] at hd2e
              simp at hd2e
            · simp only [List.nil_append]
              rw [hd2b]
              congr 1
              conv_lhs =>
                rw [← List.takeWhile_append_dropWhile isLower cs]
              congr 1
              conv_lhs =>
                rw [← List.takeWhile_append_dropWhile isWs
                  (cs.dropWhile isLower)]
              congr 1
              rw [← hC, List.takeWhile_append_dropWhile]
            · rw [hg2]
              simp
      · rw [bool_false_of_ne_true hatt] at h
        simp only [Bool.false_eq_true, if_false] at h
        obtain ⟨pre, x, ls, ws, r5, hpre, hx, hls, hws, hwsall, hd2e,
          hd2all, hm, hg⟩ := ih (c :: acc) g d2 k h
        refine ⟨c :: pre, x, ls, ws, r5, ?_, hx, hls, hws, hwsall, hd2e,
          hd2all, by simp [hm], by rw [hg]; simp⟩
        intro z hz
        rcases List.mem_cons.mp hz with rfl | hz2
        · exact hcl
        · exact hpre z hz2

theorem mpd_nil (p : Option Char) : minusParenDigitTry p [] = none := rfl

theorem mpd_nonopen (p : Option Char) (c : Char) (cs : Str)
    (h : c ≠ '(') : minusParenDigitTry p (c :: cs) = none := by
  simp only [minusParenDigitTry, if_neg h]

theorem mpd_eq (p : Option Char) (cs : Str) :
    minusParenDigitTry p ('(' :: cs) =
    (match minusScanD [] cs with
     | some (g, d2, k) =>
         some ('(' :: g ++ ' ' :: '-' :: ' ' :: d2 ++ [')'], 1 + k)
     | none => none) := rfl

/-- A close-free region ending with ` - ` before digits and the close
paren never lets the digit heuristic match. -/
theorem mpd_dashfail (p : Option Char) (g2 d2 y : Str)
    (hg2 : ∀ q ∈ g2, q ≠ ')') (hd2 : ∀ q ∈ d2, isDigit q = true) :
    minusParenDigitTry p
      ('(' :: ((g2 ++ ' ' :: '-' :: ' ' :: d2) ++ ')' :: y)) = none := by
  rw [mpd_eq]
  have hscan : minusScanD []
      ((g2 ++ ' ' :: '-' :: ' ' :: d2) ++ ')' :: y) = none := by
    apply sD_none
    intro pre x rest hsplit hpre hx
    obtain ⟨b, hR, hrest⟩ := split_before_close _ y pre rest x
      hsplit hpre hx
    rw [hrest]
    rcases List.append_eq_append_iff.mp hR with ⟨u, hpre2, hS⟩ |
      ⟨u, hg2e, hxb⟩
    · cases u with
      | nil =>
          have hxe : ' ' = x := by
            have h2 := hS
            simp only [List.nil_append] at h2
            injection h2
          rw [← hxe]
          exact attemptD_nondigit _ _ (by decide)
      | cons u0 u1 =>
        cases u1 with
        | nil =>
            have hxe : '-' = x := by
              have h2 := hS
              simp only [List.cons_append, List.nil_append] at h2
              injection h2 with h3 h4
              injection h4
            rw [← hxe]
            exact attemptD_nondigit _ _ (by decide)
        | cons u1a u2 =>
          cases u2 with
          | nil =>
              have hxe : ' ' = x := by
                have h2 := hS
                simp only [List.cons_append, List.nil_append] at h2
                injection h2 with h3 h4
                injection h4 with h5 h6
                injection h6
              rw [← hxe]
              exact attemptD_nondigit _ _ (by decide)
          | cons u2a u3 =>
              have hd2s : d2 = u3 ++ x :: b := by
                have h2 := hS
                simp only [List.cons_append] at h2
                injection h2 with h3 h4
                injection h4 with h5 h6
                injection h6 with h7 h8
              apply attemptD_digits_close
              intro q hq
              exact hd2 q (by rw [hd2s]; simp [hq])
    · cases u with
      | nil =>
          have hxsp : x = ' ' := by
            have h2 : x = ' ' ∧ b = '-' :: ' ' :: d2 := by simpa using hxb
            exact h2.1
          subst hxsp
          exact attemptD_nondigit _ _ (by decide)
      | cons x2 gs =>
          have hxx : x = x2 ∧ b = gs ++ ' ' :: '-' :: ' ' :: d2 := by
            simp only [List.cons_append] at hxb
            exact ⟨by injection hxb, by injection hxb with h3 h4⟩
          obtain ⟨rfl, hb⟩ := hxx
          rw [hb]
          have hshape : ((gs ++ ' ' :: '-' :: ' ' :: d2 : Str)) ++
              ')' :: y =
              (gs ++ [' ']) ++ '-' :: (' ' :: (d2 ++ ')' :: y)) := by
            simp
          rw [hshape]
          apply attemptD_dashblock
          intro q hq
          rcases List.mem_append.mp hq with hq2 | hq2
          · exact hg2 q (by rw [hg2e]; simp [hq2])
          · have hqe : q = ' ' := by simpa using hq2
            subst hqe
            decide
  rw [hscan]

/-- Inversion of a successful `minusParenDigitTry` match. -/
theorem mpd_inv (p : Option Char) (c : Char) (cs rep : Str) (k : Nat)
    (h : minusParenDigitTry p (c :: cs) = some (rep, k)) :
    c = '(' ∧
    ∃ pre x ls ws d2 r5,
      (∀ z ∈ pre, z ≠ ')') ∧ isDigit x = true ∧
      (∀ z ∈ ls, isLower z = true) ∧ ws ≠ [] ∧
      (∀ z ∈ ws, isWs z = true) ∧ d2 ≠ [] ∧
      (∀ z ∈ d2, isDigit z = true) ∧
      cs = pre ++ x :: (ls ++ (ws ++ (d2 ++ ')' :: r5))) ∧
      rep = '(' :: (pre ++ x :: ls) ++ ' ' :: '-' :: ' ' :: d2 ++
        [')'] := by
  by_cases hopen : c = '('
  · subst hopen
    rw [mpd_eq] at h
    cases hs : minusScanD [] cs with
    | none => rw [hs] at h; cases h
    | some r =>
        obtain ⟨g, d2s, ks⟩ := r
        rw [hs] at h
        simp only [Option.some.injEq, Prod.mk.injEq] at h
        obtain ⟨hrep, hk⟩ := h
        obtain ⟨pre, x, ls, ws, r5, hpre, hx, hls, hws, hwsall, hd2,
          hd2all, hm, hg⟩ := sD_inv cs [] g d2s ks hs
        refine ⟨rfl, pre, x, ls, ws, d2s, r5, hpre, hx, hls, hws, hwsall,
          hd2, hd2all, hm, ?_⟩
        rw [← hrep, hg]
        simp
  · rw [mpd_nonopen p c cs hopen] at h
    cases h

theorem mpd_head : ∀ (p : Option Char) (c : Char) (cs rep : Str) (k : Nat),
    minusParenDigitTry p (c :: cs) = some (rep, k) → rep.head? = some c := by
  intro p c cs rep k h
  obtain ⟨hc, pre, x, ls, ws, d2, r5, -, -, -, -, -, -, -, -, hrep⟩ :=
    mpd_inv p c cs rep k h
  rw [hrep, hc]
  rfl

theorem isLower_ne_close (c : Char) (h : isLower c = true) : c ≠ ')' := by
  have hl : 97 ≤ c.toNat ∧ c.toNat ≤ 122 := by
    simp only [isLower, Bool.and_eq_true, decide_eq_true_eq] at h
    exact ⟨by simpa [Char.le_def] using h.1,
      by simpa [Char.le_def] using h.2⟩
  exact char_ne_of_toNat c 41 (by omega) ')' (by decide)

/-- No match can start inside (or at) a `minusParenDigitTry`
replacement. -/
theorem mpd_rep_suffix (p2 : Option Char) (g d2 y : Str)
    (hg : ∀ q ∈ g, q ≠ ')') (hd2 : ∀ q ∈ d2, isDigit q = true) :
    ∀ a t, ('(' :: g ++ ' ' :: '-' :: ' ' :: d2 ++ [')'] : Str) =
      a ++ t → t ≠ [] →
      minusParenDigitTry (lastOf p2 a) (t ++ y) = none := by
  intro a t hsplit htne
  cases a with
  | nil =>
      simp only [List.nil_append] at hsplit
      subst hsplit
      have hshape : ('(' :: g ++ ' ' :: '-' :: ' ' :: d2 ++ [')'] :
          Str) ++ y =
          '(' :: ((g ++ ' ' :: '-' :: ' ' :: d2) ++ ')' :: y) := by
        simp
      rw [hshape]
      exact mpd_dashfail _ g d2 y hg hd2
  | cons a0 a2 =>
      cases t with
      | nil => exact absurd rfl htne
      | cons t0 t2 =>
          have htail : g ++ ((' ' :: '-' :: ' ' :: d2) ++ [')']) =
              a2 ++ t0 :: t2 := by
            rw [List.cons_append, List.cons_append] at hsplit
            have h2 : (g ++ ' ' :: '-' :: ' ' :: d2) ++ [')'] =
                a2 ++ t0 :: t2 := by injection hsplit
            rw [← List.append_assoc]
            exact h2
          by_cases ht0 : t0 = '('
          · subst ht0
            have hnin : '(' ∉ ((' ' :: '-' :: ' ' :: d2) ++ [')'] :
                Str) := by
              intro hmem
              rcases List.mem_append.mp hmem with hc | hc
              · rcases List.mem_cons.mp hc with hc2 | hc2
                · cases hc2
                rcases List.mem_cons.mp hc2 with hc3 | hc3
                · cases hc3
                rcases List.mem_cons.mp hc3 with hc4 | hc4
                · cases hc4
                · exact absurd rfl (isDigit_ne_open '(' (hd2 '(' hc4))
              · have hpc : ('(' : Char) = ')' := by simpa using hc
                cases hpc
            obtain ⟨gs, hg1, ht2⟩ := append_split_first g
              ((' ' :: '-' :: ' ' :: d2) ++ [')']) a2 t2 '(' htail hnin
            rw [ht2]
            have hshape : ('(' :: (gs ++ ((' ' :: '-' :: ' ' :: d2) ++
                [')'])) : Str) ++ y =
                '(' :: ((gs ++ ' ' :: '-' :: ' ' :: d2) ++ ')' :: y) := by
              simp
            rw [hshape]
            exact mpd_dashfail _ gs d2 y
              (fun q hq => hg q (by rw [hg1]; simp [hq])) hd2
          · exact mpd_nonopen _ _ _ ht0

theorem mpd_persist (p : Option Char) (c : Char) (cs : Str)
    (h : minusParenDigitTry p (c :: cs) = none) :
    minusParenDigitTry p
      (c :: runList minusParenDigitTry (some c) cs) = none := by
  by_cases hopen : c = '('
  case neg => exact mpd_nonopen _ _ _ hopen
  case pos =>
  subst hopen
  have hscan : minusScanD [] cs = none := by
    rw [mpd_eq] at h
    cases hs : minusScanD [] cs with
    | none => rfl
    | some r =>
        obtain ⟨g, d2, k⟩ := r
        rw [hs] at h
        cases h
  cases hC : cs.dropWhile (· ≠ ')') with
  | nil =>
      have hnc : ∀ q ∈ cs, q ≠ ')' := by
        intro q hq
        have := List.dropWhile_eq_nil_iff.mp hC q hq
        simpa using this
      have hmf : MatchFree minusParenDigitTry (some '(') cs := by
        intro a t hat
        cases t with
        | nil => exact mpd_nil _
        | cons x t2 =>
            by_cases hx : x = '('
            · subst hx
              rw [mpd_eq]
              have hsc : minusScanD [] t2 = none := by
                apply sD_none
                intro pre z rest hsp hpre hz
                by_contra hcon
                have hatt : attemptD z rest = true := by
                  revert hcon
                  cases attemptD z rest <;> simp
                have hcm := attemptD_close_mem z rest hatt
                apply hnc ')' ?_ rfl
                rw [hat]
                have h1 : ')' ∈ t2 := by
                  rw [hsp]
                  simp [hcm]
                simp [h1]
              rw [hsc]
            · exact mpd_nonopen _ _ _ hx
      rw [runList_id_of_matchFree _ _ _ hmf]
      exact h
  | cons h1 r2 =>
      have h1c : h1 = ')' := by
        have := head?_dropWhile_not (· ≠ ')') cs h1 (by rw [hC]; rfl)
        simpa using this
      subst h1c
      have hsplitcs : cs = cs.takeWhile (· ≠ ')') ++ ')' :: r2 := by
        conv_lhs => rw [← List.takeWhile_append_dropWhile (· ≠ ')') cs]
        rw [hC]
      have hprenc : ∀ q ∈ cs.takeWhile (· ≠ ')'), q ≠ ')' := by
        intro q hq
        have := mem_takeWhile_sat (· ≠ ')') cs q hq
        simpa using this
      have hfails : ∀ a z b2, cs.takeWhile (· ≠ ')') = a ++ z :: b2 →
          z ≠ ')' → attemptD z (b2 ++ ')' :: r2) = false := by
        intro a z b2 hsp hz
        by_contra hcon
        have hatt : attemptD z (b2 ++ ')' :: r2) = true := by
          revert hcon
          cases attemptD z (b2 ++ ')' :: r2) <;> simp
        have hq2 : ∀ q ∈ a, q ≠ ')' :=
          fun q hq => hprenc q (by rw [hsp]; simp [hq])
        obtain ⟨r, hsome⟩ := sD_attempt_some a cs [] z (b2 ++ ')' :: r2)
          (by rw [hsplitcs, hsp]; simp) hq2 hz hatt
        rw [hsome] at hscan
        cases hscan
      have hcopy : runList minusParenDigitTry (some '(') cs =
          (cs.takeWhile (· ≠ ')') ++ [')']) ++
          runList minusParenDigitTry
            (lastOf (some '(') (cs.takeWhile (· ≠ ')') ++ [')'])) r2 := by
        have hcs2 : cs = (cs.takeWhile (· ≠ ')') ++ [')']) ++ r2 := by
          conv_lhs => rw [hsplitcs]
          simp
        conv_lhs => rw [hcs2]
        apply runList_copy
        intro a x t hsp
        by_cases hx : x = '('
        · subst hx
          obtain ⟨gs, hg1, ht2⟩ := append_split_first
            (cs.takeWhile (· ≠ ')')) [')'] a t '(' hsp
            (by
              intro hmem
              have hpc : ('(' : Char) = ')' := by simpa using hmem
              cases hpc)
          rw [ht2]
          have hshape : ((gs ++ [')'] : Str)) ++ r2 = gs ++ ')' :: r2 := by
            simp
          rw [hshape, mpd_eq]
          have hsc : minusScanD [] (gs ++ ')' :: r2) = none := by
            apply sD_none
            intro pre2 z rest hsp2 hpre2 hz
            obtain ⟨b2, hgs2, hrest2⟩ := split_before_close gs r2 pre2
              rest z hsp2 hpre2 hz
            rw [hrest2]
            exact hfails (a ++ '(' :: pre2) z b2
              (by rw [hg1, hgs2]; simp) hz
          rw [hsc]
        · exact mpd_nonopen _ _ _ hx
      rw [hcopy]
      have hshape2 : ((cs.takeWhile (· ≠ ')') ++ [')'] : Str)) ++
          runList minusParenDigitTry
            (lastOf (some '(') (cs.takeWhile (· ≠ ')') ++ [')'])) r2 =
          cs.takeWhile (· ≠ ')') ++ ')' ::
          runList minusParenDigitTry
            (lastOf (some '(') (cs.takeWhile (· ≠ ')') ++ [')'])) r2 := by
        simp
      rw [hshape2, mpd_eq]
      have hsc2 : minusScanD []
          (cs.takeWhile (· ≠ ')') ++ ')' ::
            runList minusParenDigitTry
              (lastOf (some '(') (cs.takeWhile (· ≠ ')') ++ [')'])) r2) =
          none := by
        apply sD_none
        intro pre2 z rest hsp2 hpre2 hz
        obtain ⟨b2, hpre3, hrest2⟩ := split_before_close
          (cs.takeWhile (· ≠ ')')) _ pre2 rest z hsp2 hpre2 hz
        rw [hrest2, attemptD_congr z b2 _ r2]
        exact hfails pre2 z b2 hpre3 hz
      rw [hsc2]

/-- The output of one `minusParenDigitTry` pass is match-free. -/
theorem mpd_out_mf : ∀ (n : Nat) (l : Str) (p : Option Char),
    l.length ≤ n →
    MatchFree minusParenDigitTry p (runList minusParenDigitTry p l) := by
  intro n
  induction n with
  | zero =>
      intro l p hl
      have hnil : l = [] := List.length_eq_zero.mp (Nat.le_zero.mp hl)
      subst hnil
      exact matchFree_nil _ p mpd_nil
  | succ n ih =>
      intro l p hl
      cases l with
      | nil => exact matchFree_nil _ p mpd_nil
      | cons c cs =>
          cases hR : minusParenDigitTry p (c :: cs) with
          | none =>
              rw [runList_cons_none _ _ _ _ hR]
              apply matchFree_cons
              · exact mpd_persist p c cs hR
              · exact ih cs (some c)
                  (by simpa [Nat.succ_le_succ_iff] using hl)
          | some rk =>
              obtain ⟨rep, k⟩ := rk
              rw [runList_cons_some _ _ _ _ rep k hR]
              obtain ⟨hc, pre, x, ls, ws, d2, r5, hpre, hxa, hls, hws,
                hwsall, hd2, hd2all, hcs, hrep⟩ := mpd_inv p c cs rep k hR
              apply matchFree_append
              · rw [hrep]
                intro a t hsplit htne
                apply mpd_rep_suffix p (pre ++ x :: ls) d2 _ ?_ hd2all a t
                  hsplit htne
                intro q hq
                rcases List.mem_append.mp hq with hq2 | hq2
                · exact hpre q hq2
                · rcases List.mem_cons.mp hq2 with rfl | hq3
                  · exact isDigit_ne_close q hxa
                  · exact isLower_ne_close q (hls q hq3)
              · have hlen : ((c :: cs).drop (max k 1)).length ≤ n := by
                  simp only [List.length_drop, List.length_cons]
                  have hcl : cs.length ≤ n := by
                    simpa [Nat.succ_le_succ_iff] using hl
                  omega
                exact matchFree_of_prevFree minusParenDigitTry
                  (fun _ _ _ => rfl) _ _ _
                  (ih ((c :: cs).drop (max k 1))
                    (nextPrev p ((c :: cs).take (max k 1))) hlen)

theorem minusParenDigitStep_idem (s : String) :
    minusParenDigitStep (minusParenDigitStep s) = minusParenDigitStep s := by
  apply runRule_idem
  intro l
  exact mpd_out_mf l.length l none (Nat.le_refl _)

/-! ### `invTrigStep` idempotence -/

/-- The case-insensitive trig-name test of `invTrigTry`. -/
def tripleOK (a b c : Char) : Bool :=
  (([lcase a, lcase b, lcase c] = ['s', 'i', 'n']) ||
   ([lcase a, lcase b, lcase c] = ['c', 'o', 's']) ||
   ([lcase a, lcase b, lcase c] = ['t', 'a', 'n']))

theorem it_nil (p : Option Char) : invTrigTry p [] = none := rfl

theorem it_one (p : Option Char) (x : Char) : invTrigTry p [x] = none := rfl

theorem it_two (p : Option Char) (x y : Char) :
    invTrigTry p [x, y] = none := rfl

theorem it_eq (p : Option Char) (a b c : Char) (r0 : Str) :
    invTrigTry p (a :: b :: c :: r0) =
    (if atBoundary p (some a) && tripleOK a b c then
      match r0.dropWhile isWs with
      | h1 :: r2 =>
        if h1 = '¹' then
          match r2.dropWhile isWs with
          | h2 :: _ =>
            if h2 = '(' then
              some ([a, b, c, '⁻', '¹', '('],
                3 + (r0.takeWhile isWs).length + 1 +
                  (r2.takeWhile isWs).length + 1)
            else none
          | [] => none
        else none
      | [] => none
     else none) := rfl

theorem it_notriple (p : Option Char) (a b c : Char) (r0 : Str)
    (h : tripleOK a b c = false) :
    invTrigTry p (a :: b :: c :: r0) = none := by
  rw [it_eq, h, Bool.and_false]
  simp

theorem it_noboundary (p : Option Char) (a b c : Char) (r0 : Str)
    (h : atBoundary p (some a) = false) :
    invTrigTry p (a :: b :: c :: r0) = none := by
  rw [it_eq, h, Bool.false_and]
  simp

theorem tripleOK_notin (a b c : Char)
    (h : lcase a ≠ 's' ∧ lcase a ≠ 'c' ∧ lcase a ≠ 't') :
    tripleOK a b c = false := by
  unfold tripleOK
  simp [List.cons.injEq, h.1, h.2.1, h.2.2]

theorem tripleOK_second (a b c : Char)
    (h : lcase b ≠ 'i' ∧ lcase b ≠ 'o' ∧ lcase b ≠ 'a') :
    tripleOK a b c = false := by
  unfold tripleOK
  simp [List.cons.injEq, h.1, h.2.1, h.2.2]

theorem tripleOK_third (a b c : Char)
    (h : lcase c ≠ 'n' ∧ lcase c ≠ 's') :
    tripleOK a b c = false := by
  unfold tripleOK
  simp [List.cons.injEq, h.1, h.2]

theorem isUpper_arith (c : Char) (h : isUpper c = true) :
    65 ≤ c.toNat ∧ c.toNat ≤ 90 := by
  simp only [isUpper, Bool.and_eq_true, decide_eq_true_eq] at h
  exact ⟨by simpa [Char.le_def] using h.1,
    by simpa [Char.le_def] using h.2⟩

theorem lcase_ws (w : Char) (hw : isWs w = true) : lcase w = w := by
  unfold lcase
  rw [if_neg]
  intro hcon
  have hu := isUpper_arith w hcon
  have := isWs_arith w hw
  omega

theorem tripleOK_ws (w b c : Char) (hw : isWs w = true) :
    tripleOK w b c = false := by
  apply tripleOK_notin
  rw [lcase_ws w hw]
  have := isWs_arith w hw
  exact ⟨char_ne_of_toNat w 115 (by omega) 's' (by decide),
    char_ne_of_toNat w 99 (by omega) 'c' (by decide),
    char_ne_of_toNat w 116 (by omega) 't' (by decide)⟩

theorem isAlpha_of_lcase (a x : Char) (hx : isLower x = true)
    (h : lcase a = x) : isAlpha a = true := by
  unfold lcase at h
  by_cases hu : isUpper a = true
  · simp [isAlpha, hu]
  · rw [if_neg hu] at h
    subst h
    simp [isAlpha, hx]

theorem tripleOK_alpha (a b c : Char) (h : tripleOK a b c = true) :
    isAlpha a = true ∧ isAlpha b = true ∧ isAlpha c = true := by
  unfold tripleOK at h
  simp only [Bool.or_eq_true, decide_eq_true_eq, List.cons.injEq,
    and_true] at h
  rcases h with (⟨h1, h2, h3⟩ | ⟨h1, h2, h3⟩) | ⟨h1, h2, h3⟩ <;>
    exact ⟨isAlpha_of_lcase _ _ (by decide) h1,
      isAlpha_of_lcase _ _ (by decide) h2,
      isAlpha_of_lcase _ _ (by decide) h3⟩

theorem atBoundary_word_word (x y : Char) (hx : isWord x = true)
    (hy : isWord y = true) : atBoundary (some x) (some y) = false := by
  simp [atBoundary, hx, hy]

theorem isWord_of_alpha (c : Char) (h : isAlpha c = true) :
    isWord c = true := by
  simp [isWord, h]

theorem it_fail_first (p : Option Char) (w : Char) (r : Str)
    (hw : lcase w ≠ 's' ∧ lcase w ≠ 'c' ∧ lcase w ≠ 't') :
    invTrigTry p (w :: r) = none := by
  match r with
  | [] => exact it_one p w
  | [x] => exact it_two p w x
  | x :: y :: r2 => exact it_notriple p w x y r2 (tripleOK_notin w x y hw)

theorem it_fail_sup (p : Option Char) (a b c3 : Char) (ws1 r : Str)
    (hws : ∀ w ∈ ws1, isWs w = true)
    (hr : ∀ y, r.head? = some y → isWs y = false ∧ y ≠ '¹') :
    invTrigTry p (a :: b :: c3 :: (ws1 ++ r)) = none := by
  rw [it_eq]
  by_cases hcond : (atBoundary p (some a) && tripleOK a b c3) = true
  · rw [if_pos hcond]
    have hsp := takeWhile_append_stop isWs ws1 r hws
      (fun y hy => (hr y hy).1)
    rw [hsp.2]
    cases r with
    | nil => rfl
    | cons y t =>
        have hy := hr y rfl
        simp only []
        rw [if_neg hy.2]
  · rw [Bool.not_eq_true] at hcond
    rw [hcond]
    simp

theorem it_fail_paren (p : Option Char) (a b c3 : Char)
    (ws1 ws2 r : Str)
    (hws1 : ∀ w ∈ ws1, isWs w = true)
    (hws2 : ∀ w ∈ ws2, isWs w = true)
    (hr : ∀ y, r.head? = some y → isWs y = false ∧ y ≠ '(') :
    invTrigTry p (a :: b :: c3 :: (ws1 ++ '¹' :: (ws2 ++ r))) =
      none := by
  rw [it_eq]
  by_cases hcond : (atBoundary p (some a) && tripleOK a b c3) = true
  · rw [if_pos hcond]
    have hsp := takeWhile_append_stop isWs ws1 ('¹' :: (ws2 ++ r))
      hws1 (fun y hy => by
        simp only [List.head?] at hy
        rw [← Option.some.injEq _ _ |>.mp hy]
        decide)
    rw [hsp.2]
    simp only [if_true, if_pos rfl]
    have hsp2 := takeWhile_append_stop isWs ws2 r hws2
      (fun y hy => (hr y hy).1)
    rw [hsp2.2]
    cases r with
    | nil => rfl
    | cons y t =>
        have hy := hr y rfl
        simp only []
        rw [if_neg hy.2]
  · rw [Bool.not_eq_true] at hcond
    rw [hcond]
    simp

theorem it_inv (p : Option Char) (l rep : Str) (k : Nat)
    (hsome : invTrigTry p l = some (rep, k)) :
    ∃ a b c3 ws1 ws2 r5,
      l = a :: b :: c3 :: (ws1 ++ '¹' :: (ws2 ++ '(' :: r5)) ∧
      atBoundary p (some a) = true ∧ tripleOK a b c3 = true ∧
      (∀ w ∈ ws1, isWs w = true) ∧ (∀ w ∈ ws2, isWs w = true) ∧
      rep = [a, b, c3, '⁻', '¹', '('] ∧
      k = 3 + ws1.length + 1 + ws2.length + 1 := by
  match l with
  | [] => rw [it_nil] at hsome; cases hsome
  | [x] => rw [it_one] at hsome; cases hsome
  | [x, y] => rw [it_two] at hsome; cases hsome
  | a :: b :: c3 :: r0 =>
    rw [it_eq] at hsome
    by_cases hcond : (atBoundary p (some a) && tripleOK a b c3) = true
    · rw [if_pos hcond] at hsome
      obtain ⟨hbd, htr⟩ := Bool.and_eq_true _ _ |>.mp hcond
      cases hdrop : r0.dropWhile isWs with
      | nil => simp only [hdrop] at hsome; cases hsome
      | cons h1 r2 =>
          simp only [hdrop] at hsome
          by_cases hh1 : h1 = '¹'
          · rw [if_pos hh1] at hsome
            subst hh1
            cases hdrop2 : r2.dropWhile isWs with
            | nil => simp only [hdrop2] at hsome; cases hsome
            | cons h2 r3 =>
                simp only [hdrop2] at hsome
                by_cases hh2 : h2 = '('
                · rw [if_pos hh2] at hsome
                  subst hh2
                  simp only [Option.some.injEq, Prod.mk.injEq] at hsome
                  obtain ⟨hrep, hk⟩ := hsome
                  refine ⟨a, b, c3, r0.takeWhile isWs, r2.takeWhile isWs,
                    r3, ?_, hbd, htr,
                    fun w hw => mem_takeWhile_sat isWs r0 w hw,
                    fun w hw => mem_takeWhile_sat isWs r2 w hw,
                    hrep.symm, hk.symm⟩
                  have hr2 : r2 = r2.takeWhile isWs ++ '(' :: r3 := by
                    conv_lhs =>
                      rw [← List.takeWhile_append_dropWhile (p := isWs)
                        (l := r2)]
                    rw [hdrop2]
                  have hr0 : r0 = r0.takeWhile isWs ++ '¹' :: r2 := by
                    conv_lhs =>
                      rw [← List.takeWhile_append_dropWhile (p := isWs)
                        (l := r0)]
                    rw [hdrop]
                  have hgoal : r0 = r0.takeWhile isWs ++
                      '¹' :: (r2.takeWhile isWs ++ '(' :: r3) := by
                    conv_rhs => rw [← hr2]
                    exact hr0
                  exact congrArg (fun t => a :: b :: c3 :: t) hgoal
                · rw [if_neg hh2] at hsome
                  cases hsome
          · rw [if_neg hh1] at hsome
            cases hsome
    · rw [Bool.not_eq_true] at hcond
      rw [hcond] at hsome
      simp at hsome

theorem it_fail_ws (p : Option Char) (w : Char) (r : Str)
    (hw : isWs w = true) : invTrigTry p (w :: r) = none := by
  apply it_fail_first
  rw [lcase_ws w hw]
  have := isWs_arith w hw
  exact ⟨char_ne_of_toNat w 115 (by omega) 's' (by decide),
    char_ne_of_toNat w 99 (by omega) 'c' (by decide),
    char_ne_of_toNat w 116 (by omega) 't' (by decide)⟩

theorem it_head : ∀ (p : Option Char) (c : Char) (cs rep : Str)
    (k : Nat), invTrigTry p (c :: cs) = some (rep, k) →
    rep.head? = some c := by
  intro p c cs rep k h
  obtain ⟨a, b, c3, ws1, ws2, r5, hl, -, -, -, -, hrep, -⟩ :=
    it_inv p (c :: cs) rep k h
  have hac : a = c := (List.cons.injEq _ _ _ _ |>.mp hl).1.symm
  rw [hrep, hac]
  rfl

/-- One pass preserves any prefix of length at most 3 of the subject:
copies preserve the head character and a replacement repeats the three
matched name letters verbatim. -/
theorem it_take : ∀ (N : Nat) (l : Str) (p : Option Char) (n : Nat),
    l.length ≤ N → n ≤ 3 →
    (runList invTrigTry p l).take n = l.take n := by
  intro N
  induction N with
  | zero =>
      intro l p n hl _
      have hnil : l = [] := List.length_eq_zero.mp (Nat.le_zero.mp hl)
      subst hnil
      rfl
  | succ N ih =>
      intro l p n hl hn
      cases l with
      | nil => rfl
      | cons c cs =>
          cases hR : invTrigTry p (c :: cs) with
          | none =>
              rw [runList_cons_none _ _ _ _ hR]
              cases n with
              | zero => rfl
              | succ m =>
                  simp only [List.take_succ_cons]
                  rw [ih cs (some c) m
                    (by simpa [Nat.succ_le_succ_iff] using hl) (by omega)]
          | some rk =>
              obtain ⟨rep, k⟩ := rk
              rw [runList_cons_some _ _ _ _ rep k hR]
              obtain ⟨a, b, c3, ws1, ws2, r5, hl2, -, -, -, -, hrep, -⟩ :=
                it_inv p (c :: cs) rep k hR
              rw [List.take_append_of_le_length
                (by rw [hrep]; simp only [List.length_cons]; omega)]
              conv_rhs => rw [hl2]
              rw [hrep]
              interval_cases n <;> simp

/-- The characters consumed by a match end in the opening parenthesis,
so the scanner prev after a replacement is `some '('`. -/
theorem it_prev (p : Option Char) (a b c3 : Char) (ws1 ws2 r5 : Str) :
    nextPrev p ((a :: b :: c3 :: (ws1 ++ '¹' :: (ws2 ++ '(' :: r5))).take
      (max (3 + ws1.length + 1 + ws2.length + 1) 1)) = some '(' := by
  have hk3 : max (3 + ws1.length + 1 + ws2.length + 1) 1 =
      (ws1.length + ws2.length + 2) + 1 + 1 + 1 := by omega
  rw [hk3]
  simp only [List.take_succ_cons]
  have hshape : ws1 ++ '¹' :: (ws2 ++ '(' :: r5) =
      (ws1 ++ '¹' :: (ws2 ++ ['('])) ++ r5 := by simp
  rw [hshape]
  rw [List.take_left' (by
    simp only [List.length_append, List.length_cons, List.length_nil]
    omega)]
  have hLast : (a :: b :: c3 :: (ws1 ++ '¹' :: (ws2 ++ ['(']))).getLast?
      = some '(' := by
    have hsh2 : a :: b :: c3 :: (ws1 ++ '¹' :: (ws2 ++ ['('])) =
        (a :: b :: c3 :: (ws1 ++ '¹' :: ws2)) ++ ['('] := by simp
    rw [hsh2, List.getLast?_concat]
  simp [nextPrev, hLast]

theorem it_fail_bd (p : Option Char) (a : Char) (r : Str)
    (h : atBoundary p (some a) = false) :
    invTrigTry p (a :: r) = none := by
  match r with
  | [] => exact it_one p a
  | [x] => exact it_two p a x
  | x :: y :: r2 => exact it_noboundary p a x y r2 h

/-- No match can start inside (or at) an `invTrigTry` replacement. -/
theorem it_rep_suffix (p2 : Option Char) (a b c3 : Char) (y : Str) :
    ∀ u t, ([a, b, c3, '⁻', '¹', '('] : Str) = u ++ t → t ≠ [] →
      invTrigTry (lastOf p2 u) (t ++ y) = none := by
  intro u t hsplit htne
  cases u with
  | nil =>
      simp only [List.nil_append] at hsplit
      subst hsplit
      have hsh : ([a, b, c3, '⁻', '¹', '('] : Str) ++ y =
          a :: b :: c3 :: (([] : Str) ++ ('⁻' :: '¹' :: '(' :: y)) := by
        simp
      rw [hsh]
      apply it_fail_sup
      · intro w hw
        simp at hw
      · intro z hz
        have hz2 : '⁻' = z := by simpa using hz
        subst hz2
        exact ⟨by decide, by decide⟩
  | cons u0 u1 =>
      injection hsplit with h0 hsplit
      subst h0
      cases u1 with
      | nil =>
          try simp only [List.nil_append] at hsplit
          subst hsplit
          have hsh : ([b, c3, '⁻', '¹', '('] : Str) ++ y =
              b :: c3 :: '⁻' :: ('¹' :: '(' :: y) := by simp
          rw [hsh]
          exact it_notriple _ b c3 '⁻' _
            (tripleOK_third _ _ _ ⟨by decide, by decide⟩)
      | cons u2 u3 =>
          injection hsplit with h2 hsplit
          subst h2
          cases u3 with
          | nil =>
              try simp only [List.nil_append] at hsplit
              subst hsplit
              have hsh : ([c3, '⁻', '¹', '('] : Str) ++ y =
                  c3 :: '⁻' :: '¹' :: ('(' :: y) := by simp
              rw [hsh]
              exact it_notriple _ c3 '⁻' '¹' _
                (tripleOK_second _ _ _ ⟨by decide, by decide, by decide⟩)
          | cons u4 u5 =>
              injection hsplit with h4 hsplit
              subst h4
              cases u5 with
              | nil =>
                  try simp only [List.nil_append] at hsplit
                  subst hsplit
                  exact it_fail_first _ '⁻' _
                    ⟨by decide, by decide, by decide⟩
              | cons u6 u7 =>
                  injection hsplit with h6 hsplit
                  subst h6
                  cases u7 with
                  | nil =>
                      try simp only [List.nil_append] at hsplit
                      subst hsplit
                      exact it_fail_first _ '¹' _
                        ⟨by decide, by decide, by decide⟩
                  | cons u8 u9 =>
                      injection hsplit with h8 hsplit
                      subst h8
                      cases u9 with
                      | nil =>
                          try simp only [List.nil_append] at hsplit
                          subst hsplit
                          exact it_fail_first _ '(' _
                            ⟨by decide, by decide, by decide⟩
                      | cons u10 u11 =>
                          injection hsplit with h10 hsplit
                          rcases List.append_eq_nil.mp hsplit.symm with
                            ⟨-, ht⟩
                          exact absurd ht htne

/-- After a matched trig name, every position of the copied remainder of
the subject fails: the two later name letters sit inside a word, and
whitespace or the superscript one can never start a name. -/
theorem it_cs_mf (c c2 c3 : Char) (r0 : Str)
    (hca : isAlpha c = true) (hc2a : isAlpha c2 = true)
    (hc3a : isAlpha c3 = true)
    (hmem : ∀ w ∈ r0, isWs w = true ∨ w = '¹') :
    MatchFree invTrigTry (some c) (c2 :: c3 :: r0) := by
  intro a t hat
  cases a with
  | nil =>
      simp only [List.nil_append] at hat
      subst hat
      exact it_fail_bd _ c2 _ (atBoundary_word_word c c2
        (isWord_of_alpha _ hca) (isWord_of_alpha _ hc2a))
  | cons a0 a1 =>
      injection hat with ha0 hat
      subst ha0
      cases a1 with
      | nil =>
          try simp only [List.nil_append] at hat
          subst hat
          exact it_fail_bd _ c3 _ (atBoundary_word_word c2 c3
            (isWord_of_alpha _ hc2a) (isWord_of_alpha _ hc3a))
      | cons a2 a3 =>
          injection hat with ha2 hat
          subst ha2
          cases t with
          | nil => exact it_nil _
          | cons w t2 =>
              rcases hmem w (suffix_head_mem r0 a3 t2 w hat) with hw | hw
              · exact it_fail_ws _ w _ hw
              · subst hw
                exact it_fail_first _ '¹' _
                  ⟨by decide, by decide, by decide⟩

/-- Same failure analysis, phrased as the side condition of
`runList_copy` for a copied region `c2 :: c3 :: z`. -/
theorem it_copy_pos (c c2 c3 : Char) (z rest : Str)
    (hca : isAlpha c = true) (hc2a : isAlpha c2 = true)
    (hc3a : isAlpha c3 = true)
    (hmem : ∀ w ∈ z, isWs w = true ∨ w = '¹') :
    ∀ a w t, (c2 :: c3 :: z : Str) = a ++ w :: t →
      invTrigTry (lastOf (some c) a) (w :: (t ++ rest)) = none := by
  intro a w t hat
  cases a with
  | nil =>
      simp only [List.nil_append] at hat
      injection hat with h1 h2
      subst h1
      exact it_fail_bd _ c2 _ (atBoundary_word_word c c2
        (isWord_of_alpha _ hca) (isWord_of_alpha _ hc2a))
  | cons a0 a1 =>
      injection hat with ha0 hat
      subst ha0
      cases a1 with
      | nil =>
          try simp only [List.nil_append] at hat
          injection hat with h1 h2
          subst h1
          exact it_fail_bd _ c3 _ (atBoundary_word_word c2 c3
            (isWord_of_alpha _ hc2a) (isWord_of_alpha _ hc3a))
      | cons a2 a3 =>
          injection hat with ha2 hat
          subst ha2
          rcases hmem w (suffix_head_mem z a3 t w hat) with hw | hw
          · exact it_fail_ws _ w _ hw
          · subst hw
            exact it_fail_first _ '¹' _ ⟨by decide, by decide, by decide⟩

/-- A failed position stays failed after the remainder of the subject is
rescanned. -/
theorem it_persist (p : Option Char) (c : Char) (cs : Str)
    (h : invTrigTry p (c :: cs) = none) :
    invTrigTry p (c :: runList invTrigTry (some c) cs) = none := by
  match cs with
  | [] => exact it_one p c
  | [c2] =>
      rw [runList_cons_none _ _ _ _ (it_one (some c) c2)]
      exact it_two p c c2
  | c2 :: c3 :: r0 =>
    rw [it_eq] at h
    by_cases hcond : (atBoundary p (some c) && tripleOK c c2 c3) = true
    case neg =>
      have htk := it_take (c2 :: c3 :: r0).length (c2 :: c3 :: r0)
        (some c) 2 (Nat.le_refl _) (by omega)
      cases hout : runList invTrigTry (some c) (c2 :: c3 :: r0) with
      | nil => exact it_one p c
      | cons o1 t1 =>
          cases t1 with
          | nil => exact it_two p c o1
          | cons o2 t2 =>
              rw [hout] at htk
              simp only [List.take_succ_cons, List.take_zero] at htk
              have h12 : o1 = c2 ∧ o2 = c3 := by simpa using htk
              obtain ⟨rfl, rfl⟩ := h12
              rw [Bool.not_eq_true] at hcond
              rw [it_eq, hcond]
              simp
    case pos =>
      rw [if_pos hcond] at h
      obtain ⟨hbd, htr⟩ := Bool.and_eq_true _ _ |>.mp hcond
      obtain ⟨hca, hc2a, hc3a⟩ := tripleOK_alpha _ _ _ htr
      cases hdrop : r0.dropWhile isWs with
      | nil =>
          have hall : ∀ w ∈ r0, isWs w = true :=
            List.dropWhile_eq_nil_iff.mp hdrop
          rw [runList_id_of_matchFree _ _ _
            (it_cs_mf c c2 c3 r0 hca hc2a hc3a
              (fun w hw => Or.inl (hall w hw)))]
          rw [it_eq, if_pos hcond]
          simp only [hdrop]
      | cons h1 r2 =>
          have hh1ws : isWs h1 = false :=
            head?_dropWhile_not isWs r0 h1 (by rw [hdrop]; rfl)
          have hws1 : ∀ w ∈ r0.takeWhile isWs, isWs w = true :=
            fun w hw => mem_takeWhile_sat isWs r0 w hw
          have hr0e : r0 = r0.takeWhile isWs ++ h1 :: r2 := by
            conv_lhs =>
              rw [← List.takeWhile_append_dropWhile (p := isWs) (l := r0)]
            rw [hdrop]
          by_cases hh1 : h1 = '¹'
          case neg =>
            have hcs : c2 :: c3 :: r0 =
                (c2 :: c3 :: r0.takeWhile isWs) ++ (h1 :: r2) := by
              conv_lhs => rw [hr0e]
              simp
            have hcopy := runList_copy invTrigTry
              (c2 :: c3 :: r0.takeWhile isWs) (some c) (h1 :: r2)
              (it_copy_pos c c2 c3 (r0.takeWhile isWs) (h1 :: r2)
                hca hc2a hc3a (fun w hw => Or.inl (hws1 w hw)))
            rw [hcs, hcopy]
            have hXhead : (runList invTrigTry
                (lastOf (some c) (c2 :: c3 :: r0.takeWhile isWs))
                (h1 :: r2)).head? = some h1 := by
              rw [runList_head invTrigTry it_head]
              rfl
            set X := runList invTrigTry
              (lastOf (some c) (c2 :: c3 :: r0.takeWhile isWs))
              (h1 :: r2) with hXdef
            have hsh : c :: ((c2 :: c3 :: r0.takeWhile isWs) ++ X) =
                c :: c2 :: c3 :: (r0.takeWhile isWs ++ X) := by simp
            rw [hsh]
            apply it_fail_sup p c c2 c3 _ _ hws1
            intro z hz
            rw [hXhead] at hz
            have hz2 : h1 = z := by simpa using hz
            subst hz2
            exact ⟨hh1ws, hh1⟩
          case pos =>
            subst hh1
            simp only [hdrop] at h
            rw [if_true] at h
            cases hdrop2 : r2.dropWhile isWs with
            | nil =>
                have hall2 : ∀ w ∈ r2, isWs w = true :=
                  List.dropWhile_eq_nil_iff.mp hdrop2
                have hmem : ∀ w ∈ r0, isWs w = true ∨ w = '¹' := by
                  intro w hw
                  rw [hr0e] at hw
                  rcases List.mem_append.mp hw with hw2 | hw2
                  · exact Or.inl (hws1 w hw2)
                  · rcases List.mem_cons.mp hw2 with hw3 | hw3
                    · exact Or.inr hw3
                    · exact Or.inl (hall2 w hw3)
                rw [runList_id_of_matchFree _ _ _
                  (it_cs_mf c c2 c3 r0 hca hc2a hc3a hmem)]
                rw [it_eq, if_pos hcond]
                simp only [hdrop]
                rw [if_true]
                simp only [hdrop2]
            | cons h2 r3 =>
                simp only [hdrop2] at h
                by_cases hh2 : h2 = '('
                · rw [if_pos hh2] at h
                  cases h
                · have hh2ws : isWs h2 = false :=
                    head?_dropWhile_not isWs r2 h2 (by rw [hdrop2]; rfl)
                  have hws2 : ∀ w ∈ r2.takeWhile isWs, isWs w = true :=
                    fun w hw => mem_takeWhile_sat isWs r2 w hw
                  have hr2e : r2 = r2.takeWhile isWs ++ h2 :: r3 := by
                    conv_lhs =>
                      rw [← List.takeWhile_append_dropWhile (p := isWs)
                        (l := r2)]
                    rw [hdrop2]
                  have hcs : c2 :: c3 :: r0 =
                      (c2 :: c3 :: (r0.takeWhile isWs ++
                        '¹' :: r2.takeWhile isWs)) ++ (h2 :: r3) := by
                    conv_lhs => rw [hr0e]
                    conv_lhs => rw [hr2e]
                    simp
                  have hmemu : ∀ w ∈ r0.takeWhile isWs ++
                      '¹' :: r2.takeWhile isWs,
                      isWs w = true ∨ w = '¹' := by
                    intro w hw
                    rcases List.mem_append.mp hw with hw2 | hw2
                    · exact Or.inl (hws1 w hw2)
                    · rcases List.mem_cons.mp hw2 with hw3 | hw3
                      · exact Or.inr hw3
                      · exact Or.inl (hws2 w hw3)
                  have hcopy := runList_copy invTrigTry
                    (c2 :: c3 :: (r0.takeWhile isWs ++
                      '¹' :: r2.takeWhile isWs)) (some c) (h2 :: r3)
                    (it_copy_pos c c2 c3 _ _ hca hc2a hc3a hmemu)
                  rw [hcs, hcopy]
                  have hXhead : (runList invTrigTry
                      (lastOf (some c) (c2 :: c3 :: (r0.takeWhile isWs ++
                        '¹' :: r2.takeWhile isWs)))
                      (h2 :: r3)).head? = some h2 := by
                    rw [runList_head invTrigTry it_head]
                    rfl
                  set X := runList invTrigTry
                    (lastOf (some c) (c2 :: c3 :: (r0.takeWhile isWs ++
                      '¹' :: r2.takeWhile isWs))) (h2 :: r3) with hXdef
                  have hsh : c :: ((c2 :: c3 :: (r0.takeWhile isWs ++
                      '¹' :: r2.takeWhile isWs)) ++ X) =
                      c :: c2 :: c3 :: (r0.takeWhile isWs ++
                        '¹' :: (r2.takeWhile isWs ++ X)) := by simp
                  rw [hsh]
                  apply it_fail_paren p c c2 c3 _ _ _ hws1 hws2
                  intro z hz
                  rw [hXhead] at hz
                  have hz2 : h2 = z := by simpa using hz
                  subst hz2
                  exact ⟨hh2ws, hh2⟩

/-- One pass of the inverse-trig rule always produces a match-free
result. -/
theorem it_out_mf : ∀ (n : Nat) (l : Str) (p : Option Char),
    l.length ≤ n →
    MatchFree invTrigTry p (runList invTrigTry p l) := by
  intro n
  induction n with
  | zero =>
      intro l p hl
      have hnil : l = [] := List.length_eq_zero.mp (Nat.le_zero.mp hl)
      subst hnil
      exact matchFree_nil _ p it_nil
  | succ n ih =>
      intro l p hl
      cases l with
      | nil => exact matchFree_nil _ p it_nil
      | cons c cs =>
          cases hR : invTrigTry p (c :: cs) with
          | none =>
              rw [runList_cons_none _ _ _ _ hR]
              apply matchFree_cons
              · exact it_persist p c cs hR
              · exact ih cs (some c)
                  (by simpa [Nat.succ_le_succ_iff] using hl)
          | some rk =>
              obtain ⟨rep, k⟩ := rk
              rw [runList_cons_some _ _ _ _ rep k hR]
              obtain ⟨a, b, c3, ws1, ws2, r5, hl2, hbd, htr, hws1, hws2,
                hrep, hk⟩ := it_inv p (c :: cs) rep k hR
              apply matchFree_append
              · rw [hrep]
                intro u t hsplit htne
                exact it_rep_suffix p a b c3 _ u t hsplit htne
              · have hlen : ((c :: cs).drop (max k 1)).length ≤ n := by
                  simp only [List.length_drop, List.length_cons]
                  have hcl : cs.length ≤ n := by
                    simpa [Nat.succ_le_succ_iff] using hl
                  omega
                have hpeq : lastOf p rep =
                    nextPrev p ((c :: cs).take (max k 1)) := by
                  rw [hrep, hl2, hk]
                  have hlast : lastOf p
                      [a, b, c3, '⁻', '¹', '('] = some '(' := rfl
                  rw [hlast]
                  exact (it_prev p a b c3 ws1 ws2 r5).symm
                rw [hpeq]
                exact ih ((c :: cs).drop (max k 1))
                  (nextPrev p ((c :: cs).take (max k 1))) hlen

theorem invTrigStep_idem (s : String) :
    invTrigStep (invTrigStep s) = invTrigStep s := by
  apply runRule_idem
  intro l
  exact it_out_mf l.length l none (Nat.le_refl _)

/-- Claim C2 counterexample: three repairer steps are not idempotent.
A second pass of the spaced-fraction collapsing matches across the
boundary of a first-pass replacement, and the absolute-value and
digit-letter missing-minus heuristics recreate matchable shapes from
their own output. -/
theorem C2_counterexample :
    fracStep (fracStep "1 _ 2 _ 3") ≠ fracStep "1 _ 2 _ 3" ∧
    minusAbsStep (minusAbsStep "|x 1|x 2|") ≠ minusAbsStep "|x 1|x 2|" ∧
    minusTermsStep (minusTermsStep "1 a 2 b 3 c") ≠
      minusTermsStep "1 a 2 b 3 c" :=
  ⟨by decide, by decide, by decide⟩

/-- Claim C2 (amended): the dash-normalization, vulgar-fraction,
caret-power, parenthesized-group power, inverse-trig and the three
parenthesis-oriented missing-minus steps of the Artifact Repairer are
each idempotent: reapplying such a step to its own output returns the
output unchanged.  (The spaced-fraction collapsing step and the
absolute-value and digit-letter missing-minus heuristics are not
idempotent; see the counterexample.) -/
theorem C2_repairer_idempotent :
    (∀ s : String, fixDashes (fixDashes s) = fixDashes s) ∧
    (∀ s : String, fixVulgar (fixVulgar s) = fixVulgar s) ∧
    (∀ s : String, caretPowStep (caretPowStep s) = caretPowStep s) ∧
    (∀ s : String, parenPowStep (parenPowStep s) = parenPowStep s) ∧
    (∀ s : String, invTrigStep (invTrigStep s) = invTrigStep s) ∧
    (∀ s : String, minusParenDigitStep (minusParenDigitStep s) =
      minusParenDigitStep s) ∧
    (∀ s : String, minusParenAlphaStep (minusParenAlphaStep s) =
      minusParenAlphaStep s) ∧
    (∀ s : String, minusCloseStep (minusCloseStep s) = minusCloseStep s) :=
  ⟨fixDashes_idem, fixVulgar_idem, caretPowStep_idem, parenPowStep_idem,
    invTrigStep_idem, minusParenDigitStep_idem, minusParenAlphaStep_idem,
    minusCloseStep_idem⟩

end PDFReader